import Mathlib

/-!
# valuediff: a shallow embedding of `valuediff.go`

The Go program walks two values through `reflect` and records a `Diff` for every
pair of sub-values it cannot explain.  The embedding has three layers.

* `Ty`, `Scalar`, `Data`: Go types and Go values.  A value is a finite tree; every
  reference-like node (slice, interface, pointer, map) carries the two machine words
  the program reads: `addr`, the `ptr` word of the `reflect.Value` that the traversal
  obtains for this node (read through `ptrHeader`), and the data pointer returned by
  `Pointer()`.  Sharing of storage is expressed by equal words.  Scalars are booleans,
  integers, strings and `float64` bit patterns; the keys of maps are scalars.
* `Value`: a `reflect.Value`, i.e. an optional `Data` (absent for the zero `Value`)
  together with the read-only bits of its flag word (`Flag`), which `Field`, `Index`,
  `Elem` and `MapIndex` derive from the bits of the handle they are called on.
* `valueDiff`, `deepValueDiff`, `unionKey`, `saveDiff`, `DeepDiffValue`, `DeepDiff`:
  the program, with the receiver `*valueDiff` passed explicitly, panics as
  `Except.error`, and the recursion of `deepValueDiff` bounded by a fuel argument that
  `DeepDiffValue` sets to the depth of its first argument.

A self-referential value is not a finite tree; it is represented by its unfoldings, the
trees the traversal sees when it follows the value to a given depth, with the words that
`reflect` gives the handles on the way (`selfMap`, `boxedSelfMap`).

For the proofs the switch of `deepValueDiff` is also given as the list of the calls it
makes (`calls`, run by `runCalls`) followed by the flag it returns (`verdict`); the
theorem `kindSwitch_eq` states that this is the same function.

To state what exchanging the two arguments does to the order of the Diffs there is a
second traversal, `deepValueDiffRightFirst`: the program with the first two loops of its
Map case in the other order.  It is no part of the program.

The library functions the program calls are modelled after their Go definitions:
`sort.Slice` as its insertion sort, `reflect.DeepEqual` on the kinds that reach the
default branch, `Value.String` and `Value.Interface` with their panics.
-/

namespace valuediff

/-! ## Go types and values -/

/-- The `reflect.Kind`s the program distinguishes. -/
inductive Kind where
  | Invalid | Bool | Int | Float64 | String
  | Array | Slice | Interface | Ptr | Struct | Map
  | Func | Chan | UnsafePointer
  deriving DecidableEq, Repr

/-- The three kinds handled by `case reflect.Func, reflect.Chan, reflect.UnsafePointer`. -/
inductive IdentKind where
  | Func | Chan | UnsafePointer
  deriving DecidableEq, Repr

/-- The read-only bits of the flag word of a `reflect.Value`: neither set, `flagEmbedRO`
alone, or `flagStickyRO` (together with which `flagEmbedRO` makes no difference). -/
inductive Flag where
  | zero | embedRO | stickyRO
  deriving DecidableEq, Repr

/-- The method `flag.ro()`: `flagStickyRO` when a read-only bit is set, none otherwise. -/
def Flag.ro : Flag → Flag
  | .zero => .zero
  | _ => .stickyRO

/-- The read-only bits that `v.Field(i)` gives its result, `fl` being the bits of `v` and
`ff` the bit of the field: `v.flag&flagStickyRO`, so that `flagEmbedRO` of `v` is cleared,
together with the bit of the field. -/
def Flag.field (fl ff : Flag) : Flag :=
  match fl with
  | .stickyRO => .stickyRO
  | _ => ff

/-- The bits `(a | b).ro()` that `MapIndex` gives its result, from the bits of the map and
of the key. -/
def Flag.join (a b : Flag) : Flag :=
  match a, b with
  | .zero, .zero => .zero
  | _, _ => .stickyRO

/-- A `reflect.Type`.  Scalar and interface types are identified by their name; a struct
type by its name together with its declared fields: the name, and the read-only bit that
`Field` sets on a handle of the field, which is none for an exported field, `flagEmbedRO`
for an embedded unexported field and `flagStickyRO` for any other unexported field. -/
inductive Ty where
  | basic (name : String)
  | array (n : Nat) (elem : Ty)
  | slice (elem : Ty)
  | ptr (elem : Ty)
  | map (key : Ty) (elem : Ty)
  | iface (name : String)
  | struct (name : String) (fields : List (String × Flag))
  | ident (k : IdentKind) (name : String)
  deriving DecidableEq, Repr

/-- The result of `Type.String()`. -/
def Ty.String : Ty → String
  | .basic name => name
  | .array n elem => "[" ++ Nat.repr n ++ "]" ++ elem.String
  | .slice elem => "[]" ++ elem.String
  | .ptr elem => "*" ++ elem.String
  | .map key elem => "map[" ++ key.String ++ "]" ++ elem.String
  | .iface name => name
  | .struct name _ => name
  | .ident _ name => name

/-- The contents of a value of scalar kind.  A `float64` is its IEEE-754 bit pattern. -/
inductive Scalar where
  | bool (b : Bool)
  | int (n : Int)
  | float (bits : Nat)
  | str (s : String)
  deriving DecidableEq, Repr

/-- A `float64` bit pattern is a NaN: exponent all ones, mantissa not zero. -/
def isNaN (bits : Nat) : Bool :=
  (bits / 2 ^ 52) % 2 ^ 11 == 2 ^ 11 - 1 && bits % 2 ^ 52 != 0

/-- Go `==` on two `float64` bit patterns: false when either is a NaN, and the two
zeros are equal. -/
def floatEq (a b : Nat) : Bool :=
  !isNaN a && !isNaN b && (a == b || (a % 2 ^ 63 == 0 && b % 2 ^ 63 == 0))

/-- Go `==` on two scalars of the same type. -/
def Scalar.eq : Scalar → Scalar → Bool
  | .bool a, .bool b => a == b
  | .int a, .int b => a == b
  | .float a, .float b => floatEq a b
  | .str a, .str b => a == b
  | _, _ => false

/-- A Go value, as a finite tree.  `addr` is the `ptr` word of the `reflect.Value` under
which the traversal sees the node; the other number of a slice, pointer or map is what
`Pointer()` returns, and `none` is the nil slice, nil interface, nil pointer, nil map.
A nil func, chan or unsafe pointer has `p = 0`.  The entries of a map are listed in the
order in which `MapRange` iterates them. -/
inductive Data where
  | scalar (tname : String) (p : Scalar)
  | array (elem : Ty) (elems : List Data)
  | slice (elem : Ty) (addr : Nat) (store : Option (Nat × List Data))
  | iface (tname : String) (addr : Nat) (inner : Option Data)
  | ptr (elem : Ty) (addr : Nat) (target : Option (Nat × Data))
  | struct (tname : String) (fields : List (String × Flag × Data))
  | map (key : Ty) (elem : Ty) (addr : Nat) (store : Option (Nat × List (Scalar × Data)))
  | ident (k : IdentKind) (tname : String) (p : Nat)

/-- The dynamic type of a value. -/
def Data.Type : Data → Ty
  | .scalar tname _ => .basic tname
  | .array elem elems => .array elems.length elem
  | .slice elem _ _ => .slice elem
  | .iface tname _ _ => .iface tname
  | .ptr elem _ _ => .ptr elem
  | .struct tname fields => .struct tname (fields.map fun f => (f.1, f.2.1))
  | .map key elem _ _ => .map key elem
  | .ident k tname _ => .ident k tname

/-- The kind of a value. -/
def Data.Kind : Data → Kind
  | .scalar _ (.bool _) => .Bool
  | .scalar _ (.int _) => .Int
  | .scalar _ (.float _) => .Float64
  | .scalar _ (.str _) => .String
  | .array _ _ => .Array
  | .slice _ _ _ => .Slice
  | .iface _ _ _ => .Interface
  | .ptr _ _ _ => .Ptr
  | .struct _ _ => .Struct
  | .map _ _ _ _ => .Map
  | .ident .Func _ _ => .Func
  | .ident .Chan _ _ => .Chan
  | .ident .UnsafePointer _ _ => .UnsafePointer

/-- Whether `IsNil()` holds, for the kinds on which the program calls it. -/
def Data.IsNil : Data → Bool
  | .slice _ _ store => store.isNone
  | .iface _ _ inner => inner.isNone
  | .ptr _ _ target => target.isNone
  | .map _ _ _ store => store.isNone
  | .ident _ _ p => p == 0
  | _ => false

/-- The result of `Pointer()`, for the kinds on which the program calls it. -/
def Data.Pointer : Data → Nat
  | .slice _ _ (some (p, _)) => p
  | .ptr _ _ (some (p, _)) => p
  | .map _ _ _ (some (p, _)) => p
  | .ident _ _ p => p
  | _ => 0

/-- The word that `(*ptrHeader)(unsafe.Pointer(&v)).ptr` reads from a `reflect.Value`
of a reference-like kind. -/
def Data.ptrWord : Data → Nat
  | .slice _ addr _ => addr
  | .iface _ addr _ => addr
  | .ptr _ addr _ => addr
  | .map _ _ addr _ => addr
  | _ => 0

mutual
/-- The nesting depth of a value: the number of `deepValueDiff` frames below it. -/
def Data.depth : Data → Nat
  | .scalar _ _ => 0
  | .array _ elems => depthList elems + 1
  | .slice _ _ none => 0
  | .slice _ _ (some (_, elems)) => depthList elems + 1
  | .iface _ _ none => 0
  | .iface _ _ (some d) => d.depth + 1
  | .ptr _ _ none => 0
  | .ptr _ _ (some (_, d)) => d.depth + 1
  | .struct _ fields => depthFields fields + 1
  | .map _ _ _ none => 0
  | .map _ _ _ (some (_, entries)) => depthEntries entries + 1
  | .ident _ _ _ => 0
/-- The largest depth among the elements of a sequence. -/
def depthList : List Data → Nat
  | [] => 0
  | d :: ds => max d.depth (depthList ds)
/-- The largest depth among the fields of a record. -/
def depthFields : List (String × Flag × Data) → Nat
  | [] => 0
  | (_, _, d) :: ds => max d.depth (depthFields ds)
/-- The largest depth among the values of a mapping. -/
def depthEntries : List (Scalar × Data) → Nat
  | [] => 0
  | (_, d) :: ds => max d.depth (depthEntries ds)
end

/-! ## `reflect.Value` -/

/-- A `reflect.Value`: the value it refers to (absent for the zero `Value`) and the
read-only bits `flag&flagRO` of its flag word. -/
structure Value where
  data : Option Data
  flagRO : Flag

/-- The zero `reflect.Value`. -/
def Value.zero : Value := ⟨none, .zero⟩

/-- The handle `reflect.ValueOf(x)` for an `interface{}` argument `x` (`none` is the nil
interface). -/
def ValueOf (x : Option Data) : Value := ⟨x, .zero⟩

def Value.IsValid (v : Value) : Bool := v.data.isSome

def Value.Kind (v : Value) : Kind :=
  match v.data with
  | none => .Invalid
  | some d => d.Kind

def Value.CanInterface (v : Value) : Bool := v.flagRO == Flag.zero

/-- What can go wrong: a Go panic, or the fuel of the embedding running out. -/
inductive Err where
  | panicked (msg : String)
  | outOfFuel
  deriving DecidableEq, Repr

/-- The `interface{}` that `v.Interface()` returns when it does not panic: for a handle
of kind `Interface` the boxed value itself (nil for a nil interface), otherwise the value. -/
def Value.boxed (v : Value) : Option Data :=
  match v.data with
  | some (.iface _ _ inner) => inner
  | d => d

/-- The result of `v.Interface()`.  It panics on the zero `Value` and on a read-only
handle. -/
def Value.Interface (v : Value) : Except Err (Option Data) :=
  if !v.IsValid then
    .error (.panicked "reflect: call of reflect.Value.Interface on zero Value")
  else if v.flagRO != Flag.zero then
    .error (.panicked "reflect.Value.Interface: cannot return value obtained from unexported field or method")
  else
    .ok v.boxed

/-- The result of `v.String()`: the contents for kind `String`, a rendering of the type
otherwise. -/
def Value.String (v : Value) : String :=
  match v.data with
  | none => "<invalid Value>"
  | some (.scalar _ (.str s)) => s
  | some d => "<" ++ d.Type.String ++ " Value>"

/-- The rendering `key.String()` of a map key of type `keyType`. -/
def keyString (keyType : Ty) (key : Scalar) : String :=
  match keyType, key with
  | .basic _, .str s => s
  | t, _ => "<" ++ t.String ++ " Value>"

/-- The lookup `m.MapIndex(key)` in the entries of a map: the first entry whose key is
`==` to `key`, with the read-only flag `ro` that `reflect` derives from the flags of the
map and of the key; the zero `Value` if there is none. -/
def MapIndex (ro : Flag) (entries : List (Scalar × Data)) (key : Scalar) : Value :=
  match entries.find? (fun e => Scalar.eq e.1 key) with
  | some e => ⟨some e.2, ro⟩
  | none => Value.zero

/-! ## `sort.Slice` and `unionKey` -/

/-- One pass of the inner loop of the insertion sort behind `sort.Slice`: `x` moves
towards the front past every neighbour it is `less` than.  The sorted part is held with
its last element first. -/
def insertBack {α : Type} (less : α → α → Bool) (x : α) : List α → List α
  | [] => [x]
  | y :: ys => if less x y then y :: insertBack less x ys else x :: y :: ys

/-- The function `sort.Slice(s, less)`, as the insertion sort Go runs on slices of at most
twelve elements. -/
def sortSlice {α : Type} (less : α → α → Bool) (s : List α) : List α :=
  (s.foldl (fun sorted x => insertBack less x sorted) []).reverse

/-- Go `<` on strings: lexicographic order of the characters. -/
def stringLess (a b : String) : Bool := decide (a.data < b.data)

/-- The function `unionKey(keyType, m1, m2)`; `m1` and `m2` are the entries of the two
maps in iteration order.  It returns `(vv1, union, vv2)`. -/
def unionKey (keyType : Ty) (m1 m2 : List (Scalar × Data)) :
    List Scalar × List Scalar × List Scalar :=
  let less := fun (a b : Scalar) => stringLess (keyString keyType a) (keyString keyType b)
  let vv1 := (m1.map (·.1)).filter (fun key => (MapIndex .zero m2 key).Kind == Kind.Invalid)
  let union := (m1.map (·.1)).filter (fun key => !((MapIndex .zero m2 key).Kind == Kind.Invalid))
  let vv2 := (m2.map (·.1)).filter (fun key => (MapIndex .zero m1 key).Kind == Kind.Invalid)
  (sortSlice less vv1, sortSlice less union, sortSlice less vv2)

/-! ## The comparison -/

/-- The key of the `visited` map. -/
structure visit where
  a1 : Nat
  a2 : Nat
  typ : Ty
  deriving DecidableEq

/-- One reported difference; `Src` and `Dist` are `interface{}` values (`none` is nil). -/
structure Diff where
  Stack : List String
  Src : Option Data
  Dist : Option Data

/-- The receiver of `deepValueDiff`; `visited` lists the keys of the Go map. -/
structure valueDiff where
  visited : List visit
  diffs : List Diff
  stack : List String

def cloneStrings (s : List String) : List String := s

/-- A Go string as an `interface{}` payload. -/
def stringData (s : String) : Data := .scalar "string" (.str s)

/-- The payload `saveDiff` stores for one side: nil for the zero `Value`, the value
itself when it can be materialized, its `String()` rendering otherwise. -/
def payload (v1 : Value) : Option Data :=
  if v1.Kind == Kind.Invalid then none
  else if v1.CanInterface then v1.boxed
  else some (stringData v1.String)

def saveDiff (v : valueDiff) (v1 v2 : Value) : valueDiff :=
  ⟨v.visited, v.diffs ++ [⟨cloneStrings v.stack, payload v1, payload v2⟩], v.stack⟩

/-- The function `reflect.DeepEqual` on the kinds that reach the default branch of
`deepValueDiff`: scalars are compared with `==`, funcs are equal only when both nil,
chans and unsafe pointers when they are the same pointer. -/
def DeepEqual : Option Data → Option Data → Bool
  | none, none => true
  | some (.scalar t1 p1), some (.scalar t2 p2) => t1 == t2 && Scalar.eq p1 p2
  | some (.ident k1 t1 p1), some (.ident k2 t2 p2) =>
    k1 == k2 && t1 == t2 &&
      (match k1 with
       | .Func => p1 == 0 && p2 == 0
       | _ => p1 == p2)
  | _, _ => false

/-- The closure `hard`, applied to two valid values of the same type. -/
def hard (d1 d2 : Data) : Bool :=
  match d1.Kind with
  | .Map | .Slice | .Ptr | .Interface => !d1.IsNil && !d2.IsNil
  | _ => false

def FormatInt (i : Nat) : String := Nat.repr i

/-- The type of the recursive call `v.deepValueDiff(v1, v2, info)`. -/
abbrev Rec := Value → Value → String → valueDiff → Except Err (Bool × valueDiff)

/-- The loop `for i := 0; i < v1.Len(); i++` around `v.deepValueDiff(v1.Index(i),
v2.Index(i), strconv.FormatInt(int64(i), 10))`, from index `i` on, over the remaining
elements of both sides; `v2.Index(i)` panics when `v2` has no element `i`. -/
def indexLoop (rec : Rec) (ro1 ro2 : Flag) :
    List Data → List Data → Nat → valueDiff → Except Err valueDiff
  | [], _, _, v => .ok v
  | _ :: _, [], _, _ => .error (.panicked "reflect: index out of range")
  | a :: as, b :: bs, i, v =>
    match rec ⟨some a, ro1⟩ ⟨some b, ro2⟩ (FormatInt i) v with
    | .ok r => indexLoop rec ro1 ro2 as bs (i + 1) r.2
    | .error e => .error e

/-- The loop over the fields of a struct: field `i` of both sides under the name
`t.Field(i).Name`, each handle with the read-only bits `Field` gives it. -/
def fieldLoop (rec : Rec) (ro1 ro2 : Flag) :
    List (String × Flag × Data) → List (String × Flag × Data) → valueDiff → Except Err valueDiff
  | [], _, v => .ok v
  | _ :: _, [], _ => .error (.panicked "reflect: Field index out of range")
  | f1 :: fs1, f2 :: fs2, v =>
    match rec ⟨some f1.2.2, Flag.field ro1 f1.2.1⟩ ⟨some f2.2.2, Flag.field ro2 f2.2.1⟩ f1.1 v with
    | .ok r => fieldLoop rec ro1 ro2 fs1 fs2 r.2
    | .error e => .error e

/-- A loop `for _, key := range keys` around `v.deepValueDiff(get1 key, get2 key,
key.String())`. -/
def keyLoop (rec : Rec) (keyType : Ty) (get1 get2 : Scalar → Value) :
    List Scalar → valueDiff → Except Err valueDiff
  | [], v => .ok v
  | key :: keys, v =>
    match rec (get1 key) (get2 key) (keyString keyType key) v with
    | .ok r => keyLoop rec keyType get1 get2 keys r.2
    | .error e => .error e

/-- The default branch of the switch. -/
def defaultCase (v1 v2 : Value) (v : valueDiff) : Except Err (Bool × valueDiff) :=
  if v1.CanInterface && v1.CanInterface then
    match v1.Interface with
    | .error e => .error e
    | .ok a =>
      match v2.Interface with
      | .error e => .error e
      | .ok b => .ok (DeepEqual a b, v)
  else
    .ok (false, v)

/-- The statement `switch v1.Kind()` of `deepValueDiff`, for two valid values `d1`, `d2` of
the same type seen through handles with the read-only bits `ro1`, `ro2`.  `Index`, `Elem`
of a boxed value and `MapIndex` give their result `flag.ro()`, `Elem` of a pointer passes
the bits on, and `Field` has its own rule.  The keys that `unionKey` returns are handles
with the bits `flag.ro()` of the map they were obtained from, `m1` for the common keys,
and `MapIndex` gives its result `(v.flag | key.flag).ro()`. -/
def kindSwitch (rec : Rec) (ro1 ro2 : Flag) (d1 d2 : Data) (v : valueDiff) :
    Except Err (Bool × valueDiff) :=
  match d1, d2 with
  | .array _ es1, .array _ es2 =>
    match indexLoop rec ro1.ro ro2.ro es1 es2 0 v with
    | .ok v => .ok (true, v)
    | .error e => .error e
  | .slice _ _ s1, .slice _ _ s2 =>
    match s1, s2 with
    | some (p1, es1), some (p2, es2) =>
      if p1 == p2 then .ok (true, v)
      else if es1.length != es2.length then .ok (false, v)
      else
        match indexLoop rec ro1.ro ro2.ro es1 es2 0 v with
        | .ok v => .ok (true, v)
        | .error e => .error e
    | _, _ => .ok (s1.isNone == s2.isNone, v)
  | .iface _ _ i1, .iface _ _ i2 =>
    match i1, i2 with
    | some e1, some e2 =>
      match rec ⟨some e1, ro1.ro⟩ ⟨some e2, ro2.ro⟩ "" v with
      | .ok r => .ok (true, r.2)
      | .error e => .error e
    | _, _ => .ok (i1.isNone == i2.isNone, v)
  | .ptr _ _ t1, .ptr _ _ t2 =>
    match t1, t2 with
    | some (p1, e1), some (p2, e2) =>
      if p1 == p2 then .ok (true, v)
      else
        match rec ⟨some e1, ro1⟩ ⟨some e2, ro2⟩ "" v with
        | .ok r => .ok (true, r.2)
        | .error e => .error e
    | _, _ => .ok (t1.isNone == t2.isNone, v)
  | .struct _ fs1, .struct _ fs2 =>
    match fieldLoop rec ro1 ro2 fs1 fs2 v with
    | .ok v => .ok (true, v)
    | .error e => .error e
  | .map keyType _ _ s1, .map _ _ _ s2 =>
    match s1, s2 with
    | some (p1, m1), some (p2, m2) =>
      if p1 == p2 then .ok (true, v)
      else
        let keys := unionKey keyType m1 m2
        match keyLoop rec keyType (MapIndex ro1.ro m1) (fun _ => Value.zero) keys.1 v with
        | .error e => .error e
        | .ok v =>
          match keyLoop rec keyType (fun _ => Value.zero) (MapIndex ro2.ro m2) keys.2.2 v with
          | .error e => .error e
          | .ok v =>
            match keyLoop rec keyType (MapIndex ro1.ro m1) (MapIndex (Flag.join ro2 ro1) m2)
                keys.2.1 v with
            | .error e => .error e
            | .ok v => .ok (true, v)
    | _, _ => .ok (s1.isNone == s2.isNone, v)
  | .ident _ _ p1, .ident _ _ p2 =>
    if p1 == 0 || p2 == 0 then .ok ((p1 == 0) == (p2 == 0), v)
    else if p1 == p2 then .ok (true, v)
    else defaultCase ⟨some d1, ro1⟩ ⟨some d2, ro2⟩ v
  | .scalar _ _, .scalar _ _ => defaultCase ⟨some d1, ro1⟩ ⟨some d2, ro2⟩ v
  | _, _ => .error (.panicked "reflect: call of a method on a Value of the wrong kind")

/-- The statement `v.stack = append(v.stack, info)`, guarded by `info != ""`. -/
def push (info : String) (v : valueDiff) : valueDiff :=
  if info != "" then ⟨v.visited, v.diffs, v.stack ++ [info]⟩ else v

/-- The deferred `v.stack = v.stack[:len(v.stack)-1]`, registered when `info != ""`. -/
def pop (info : String) (v : valueDiff) : valueDiff :=
  if info != "" then ⟨v.visited, v.diffs, v.stack.dropLast⟩ else v

/-- The body of `deepValueDiff` between the two deferred functions and the return:
validity, type, the visited check, then the switch. -/
def deepValueDiffBody (rec : Rec) (v1 v2 : Value) (v : valueDiff) :
    Except Err (Bool × valueDiff) :=
  match v1.data, v2.data with
  | some d1, some d2 =>
    if d1.Type != d2.Type then .ok (false, v)
    else
      let key : visit := ⟨min d1.ptrWord d2.ptrWord, max d1.ptrWord d2.ptrWord, d1.Type⟩
      if hard d1 d2 && decide (key ∈ v.visited) then .ok (true, v)
      else
        let v := if hard d1 d2 then ⟨key :: v.visited, v.diffs, v.stack⟩ else v
        kindSwitch rec v1.flagRO v2.flagRO d1 d2 v
  | _, _ => .ok (v1.IsValid == v2.IsValid, v)

/-- The method `(*valueDiff).deepValueDiff`.  The segment is pushed, the body runs, and
the two deferred functions run in reverse order: a `Diff` is saved when the body
returned false, then the segment is popped.  The result is always true.  The first
argument bounds the depth of the recursion. -/
def deepValueDiff : Nat → Value → Value → String → valueDiff → Except Err (Bool × valueDiff)
  | 0, _, _, _, _ => .error .outOfFuel
  | fuel + 1, v1, v2, info, v =>
    match deepValueDiffBody (deepValueDiff fuel) v1 v2 (push info v) with
    | .error e => .error e
    | .ok r => .ok (true, pop info (if !r.1 then saveDiff r.2 v1 v2 else r.2))

/-- Fuel that suffices for comparing `v1` with anything: one frame per level of `v1`. -/
def fuelFor (v1 : Value) : Nat :=
  match v1.data with
  | none => 1
  | some d => d.depth + 1

def DeepDiffValue (v1 v2 : Value) : Except Err (List Diff) :=
  match deepValueDiff (fuelFor v1) v1 v2 "" ⟨[], [], []⟩ with
  | .ok r => .ok r.2.diffs
  | .error e => .error e

def DeepDiff (x y : Option Data) : Except Err (List Diff) :=
  DeepDiffValue (ValueOf x) (ValueOf y)

/-! ## Predicates on values used by the statements -/

mutual
/-- Every scalar of the value that is reached through arrays, record fields and boxes
alone can be materialized, when the value is seen through a handle with the read-only
bits `ro` (the handle that `Index`, `Elem` and `Field` give for the scalar has no
read-only bit), and is `==` to itself (it is no NaN). -/
def selfComparable (ro : Flag) : Data → Bool
  | .scalar _ p => ro == Flag.zero && Scalar.eq p p
  | .array _ elems => selfComparableList ro.ro elems
  | .iface _ _ (some d) => selfComparable ro.ro d
  | .struct _ fields => selfComparableFields ro fields
  | _ => true
/-- The predicate `selfComparable` on every element. -/
def selfComparableList (ro : Flag) : List Data → Bool
  | [] => true
  | d :: ds => selfComparable ro d && selfComparableList ro ds
/-- The predicate `selfComparable` on every field, through the handle `Field` gives. -/
def selfComparableFields (ro : Flag) : List (String × Flag × Data) → Bool
  | [] => true
  | (_, ff, d) :: fs => selfComparable (Flag.field ro ff) d && selfComparableFields ro fs
end

/-- The value is of scalar kind. -/
def Data.isScalar : Data → Bool
  | .scalar _ _ => true
  | _ => false

/-- The Diffs the specification lists for two sequences of scalars of equal length: in
increasing index order, one Diff with path `[decimal(i)]`, left `x[i]` and right `y[i]`
for every index `i` whose two elements are not structurally equal. -/
def scalarDiffs (xs ys : List Data) : List Diff :=
  ((xs.zip ys).enum).filterMap fun ie =>
    if DeepEqual (some ie.2.1) (some ie.2.2) then none
    else some ⟨[FormatInt ie.1], some ie.2.1, some ie.2.2⟩

mutual
/-- The `ptr` words of all reference-like values inside a value. -/
def Data.words : Data → List Nat
  | .scalar _ _ => []
  | .array _ elems => wordsList elems
  | .slice _ addr none => [addr]
  | .slice _ addr (some (_, elems)) => addr :: wordsList elems
  | .iface _ addr none => [addr]
  | .iface _ addr (some d) => addr :: d.words
  | .ptr _ addr none => [addr]
  | .ptr _ addr (some (_, d)) => addr :: d.words
  | .struct _ fields => wordsFields fields
  | .map _ _ addr none => [addr]
  | .map _ _ addr (some (_, entries)) => addr :: wordsEntries entries
  | .ident _ _ _ => []
/-- The words inside the elements of a sequence. -/
def wordsList : List Data → List Nat
  | [] => []
  | d :: ds => d.words ++ wordsList ds
/-- The words inside the fields of a record. -/
def wordsFields : List (String × Flag × Data) → List Nat
  | [] => []
  | (_, _, d) :: ds => d.words ++ wordsFields ds
/-- The words inside the values of a mapping. -/
def wordsEntries : List (Scalar × Data) → List Nat
  | [] => []
  | (_, d) :: ds => d.words ++ wordsEntries ds
end

/-- The words inside the value behind a handle. -/
def Value.words (v : Value) : List Nat :=
  match v.data with
  | none => []
  | some d => d.words

/-- The Diff `d` with the segments `P` put in front of its path. -/
def addPrefix (P : List String) (d : Diff) : Diff := ⟨P ++ d.Stack, d.Src, d.Dist⟩

/-- Two visited sets hold the same keys among those built from the words `W`. -/
def AgreeOn (W : List Nat) (V V2 : List visit) : Prop :=
  ∀ key : visit, key.a1 ∈ W → key.a2 ∈ W → (key ∈ V ↔ key ∈ V2)

/-- The state `s2` is the state `s` seen below the path `P`: the same Diffs with `P` in
front, the stack with `P` in front, and a visited set that agrees on the words `W`. -/
structure Sim (P : List String) (W : List Nat) (s s2 : valueDiff) : Prop where
  visited : AgreeOn W s.visited s2.visited
  stack : s2.stack = P ++ s.stack
  diffs : s2.diffs = s.diffs.map (addPrefix P)

/-- Two results of a comparison started in `s` and in a state similar to `s`: both fail
alike, or both return the same flag and similar states, with the stack of `s`. -/
def SimResult (P : List String) (W : List Nat) (s : valueDiff)
    (r r2 : Except Err (Bool × valueDiff)) : Prop :=
  match r, r2 with
  | .ok x, .ok x2 => x.1 = x2.1 ∧ Sim P W x.2 x2.2 ∧ x.2.stack = s.stack
  | .error e, .error e2 => e = e2
  | _, _ => False

/-- The relation `SimResult` for the results of a loop. -/
def SimLoop (P : List String) (W : List Nat) (s : valueDiff)
    (r r2 : Except Err valueDiff) : Prop :=
  match r, r2 with
  | .ok x, .ok x2 => Sim P W x x2 ∧ x.stack = s.stack
  | .error e, .error e2 => e = e2
  | _, _ => False

/-- The stack after the push of `info`. -/
def pushed (info : String) (stack : List String) : List String :=
  if info != "" then stack ++ [info] else stack

/-- The keys of a map, in iteration order. -/
def keysOf (m : List (Scalar × Data)) : List Scalar := m.map (·.1)

/-- The key `k` is present in the map: some key of the map is `==` to it. -/
def presentIn (m : List (Scalar × Data)) (k : Scalar) : Bool :=
  (keysOf m).any fun key => Scalar.eq key k

/-- Two keys are different keys for Go: they are not `==`. -/
def distinctKeys (a b : Scalar) : Prop := Scalar.eq a b = false

/-- The Diff with left and right exchanged. -/
def swapDiff (d : Diff) : Diff := ⟨d.Stack, d.Dist, d.Src⟩

/-- The type is a scalar type. -/
def Ty.isBasic : Ty → Bool
  | .basic _ => true
  | _ => false

/-- The scalar is a string. -/
def Scalar.isStr : Scalar → Bool
  | .str _ => true
  | _ => false

mutual
/-- Every non-nil mapping inside the value has a scalar key type and pairwise different
keys that are all strings. -/
def stringKeyed : Data → Bool
  | .array _ elems => stringKeyedList elems
  | .slice _ _ (some (_, elems)) => stringKeyedList elems
  | .iface _ _ (some d) => stringKeyed d
  | .ptr _ _ (some (_, d)) => stringKeyed d
  | .struct _ fields => stringKeyedFields fields
  | .map key _ _ (some (_, entries)) =>
    key.isBasic && (keysOf entries).all Scalar.isStr && decide (keysOf entries).Nodup
      && stringKeyedEntries entries
  | _ => true
/-- The predicate `stringKeyed` on every element. -/
def stringKeyedList : List Data → Bool
  | [] => true
  | d :: ds => stringKeyed d && stringKeyedList ds
/-- The predicate `stringKeyed` on every field. -/
def stringKeyedFields : List (String × Flag × Data) → Bool
  | [] => true
  | (_, _, d) :: ds => stringKeyed d && stringKeyedFields ds
/-- The predicate `stringKeyed` on every value of a mapping. -/
def stringKeyedEntries : List (Scalar × Data) → Bool
  | [] => true
  | (_, d) :: ds => stringKeyed d && stringKeyedEntries ds
end

/-- The depth of the value behind a handle. -/
def Value.depth (v : Value) : Nat :=
  match v.data with
  | none => 0
  | some d => d.depth

/-- The predicate `stringKeyed` for the value behind a handle. -/
def Value.stringKeyed (v : Value) : Bool :=
  match v.data with
  | none => true
  | some d => valuediff.stringKeyed d

/-- The state `s2` mirrors the state `s`: the same visited set and stack, and the Diffs
of `s` with left and right exchanged, up to their order. -/
structure Mirror (s s2 : valueDiff) : Prop where
  visited : s2.visited = s.visited
  stack : s2.stack = s.stack
  diffs : s2.diffs.Perm (s.diffs.map swapDiff)

/-- Two comparisons, of a pair started in `s` and of the exchanged pair started in a
mirror of `s`, both return, with the same flag, mirrored states and the stack of `s`. -/
def MirrorResult (s : valueDiff) (r r2 : Except Err (Bool × valueDiff)) : Prop :=
  ∃ b t t2, r = .ok (b, t) ∧ r2 = .ok (b, t2) ∧ Mirror t t2 ∧ t.stack = s.stack

/-- The relation `MirrorResult` for the results of a loop. -/
def MirrorLoop (s : valueDiff) (r r2 : Except Err valueDiff) : Prop :=
  ∃ t t2, r = .ok t ∧ r2 = .ok t2 ∧ Mirror t t2 ∧ t.stack = s.stack

/-! ## The calls made by one frame -/

/-- One call `v.deepValueDiff(c1, c2, info)`: its two handles and its segment. -/
abbrev Call := Value × Value × String

/-- The calls of the loop over the elements of two sequences, from index `i` on. -/
def indexCalls (ro1 ro2 : Flag) : List Data → List Data → Nat → List Call
  | a :: as, b :: bs, i =>
    (⟨some a, ro1⟩, ⟨some b, ro2⟩, FormatInt i) :: indexCalls ro1 ro2 as bs (i + 1)
  | _, _, _ => []

/-- The calls of the loop over the fields of two records. -/
def fieldCalls (ro1 ro2 : Flag) :
    List (String × Flag × Data) → List (String × Flag × Data) → List Call
  | f1 :: fs1, f2 :: fs2 =>
    (⟨some f1.2.2, Flag.field ro1 f1.2.1⟩, ⟨some f2.2.2, Flag.field ro2 f2.2.1⟩, f1.1) ::
      fieldCalls ro1 ro2 fs1 fs2
  | _, _ => []

/-- The calls of a loop over keys. -/
def keyCalls (keyType : Ty) (get1 get2 : Scalar → Value) (keys : List Scalar) : List Call :=
  keys.map fun key => (get1 key, get2 key, keyString keyType key)

/-- The calls that the switch of `deepValueDiff` makes for `d1` and `d2`, in order. -/
def calls (ro1 ro2 : Flag) (d1 d2 : Data) : List Call :=
  match d1, d2 with
  | .array _ es1, .array _ es2 => indexCalls ro1.ro ro2.ro es1 es2 0
  | .slice _ _ s1, .slice _ _ s2 =>
    match s1, s2 with
    | some (p1, es1), some (p2, es2) =>
      if p1 == p2 then []
      else if es1.length != es2.length then []
      else indexCalls ro1.ro ro2.ro es1 es2 0
    | _, _ => []
  | .iface _ _ i1, .iface _ _ i2 =>
    match i1, i2 with
    | some e1, some e2 => [(⟨some e1, ro1.ro⟩, ⟨some e2, ro2.ro⟩, "")]
    | _, _ => []
  | .ptr _ _ t1, .ptr _ _ t2 =>
    match t1, t2 with
    | some (p1, e1), some (p2, e2) =>
      if p1 == p2 then [] else [(⟨some e1, ro1⟩, ⟨some e2, ro2⟩, "")]
    | _, _ => []
  | .struct _ fs1, .struct _ fs2 => fieldCalls ro1 ro2 fs1 fs2
  | .map keyType _ _ s1, .map _ _ _ s2 =>
    match s1, s2 with
    | some (p1, m1), some (p2, m2) =>
      if p1 == p2 then []
      else
        keyCalls keyType (MapIndex ro1.ro m1) (fun _ => Value.zero) (unionKey keyType m1 m2).1 ++
          (keyCalls keyType (fun _ => Value.zero) (MapIndex ro2.ro m2)
              (unionKey keyType m1 m2).2.2 ++
            keyCalls keyType (MapIndex ro1.ro m1) (MapIndex (Flag.join ro2 ro1) m2)
              (unionKey keyType m1 m2).2.1)
    | _, _ => []
  | _, _ => []

/-- A list of calls run one after the other, each in the state the previous one left. -/
def runCalls (rec : Rec) : List Call → valueDiff → Except Err valueDiff
  | [], v => .ok v
  | c :: cs, v =>
    match rec c.1 c.2.1 c.2.2 v with
    | .ok r => runCalls rec cs r.2
    | .error e => .error e

/-- The flag the default branch returns. -/
def defaultVerdict (v1 v2 : Value) : Except Err Bool :=
  if v1.CanInterface && v1.CanInterface then
    match v1.Interface with
    | .error e => .error e
    | .ok a =>
      match v2.Interface with
      | .error e => .error e
      | .ok b => .ok (DeepEqual a b)
  else
    .ok false

/-- The flag the switch of `deepValueDiff` returns for `d1` and `d2` once its calls have
returned, or the panic it ends in. -/
def verdict (ro1 ro2 : Flag) (d1 d2 : Data) : Except Err Bool :=
  match d1, d2 with
  | .array _ es1, .array _ es2 =>
    if es1.length ≤ es2.length then .ok true
    else .error (.panicked "reflect: index out of range")
  | .slice _ _ s1, .slice _ _ s2 =>
    match s1, s2 with
    | some (p1, es1), some (p2, es2) =>
      if p1 == p2 then .ok true
      else if es1.length != es2.length then .ok false
      else .ok true
    | _, _ => .ok (s1.isNone == s2.isNone)
  | .iface _ _ i1, .iface _ _ i2 =>
    match i1, i2 with
    | some _, some _ => .ok true
    | _, _ => .ok (i1.isNone == i2.isNone)
  | .ptr _ _ t1, .ptr _ _ t2 =>
    match t1, t2 with
    | some _, some _ => .ok true
    | _, _ => .ok (t1.isNone == t2.isNone)
  | .struct _ fs1, .struct _ fs2 =>
    if fs1.length ≤ fs2.length then .ok true
    else .error (.panicked "reflect: Field index out of range")
  | .map _ _ _ s1, .map _ _ _ s2 =>
    match s1, s2 with
    | some _, some _ => .ok true
    | _, _ => .ok (s1.isNone == s2.isNone)
  | .ident _ _ p1, .ident _ _ p2 =>
    if p1 == 0 || p2 == 0 then .ok ((p1 == 0) == (p2 == 0))
    else if p1 == p2 then .ok true
    else defaultVerdict ⟨some d1, ro1⟩ ⟨some d2, ro2⟩
  | .scalar _ _, .scalar _ _ => defaultVerdict ⟨some d1, ro1⟩ ⟨some d2, ro2⟩
  | _, _ => .error (.panicked "reflect: call of a method on a Value of the wrong kind")

/-- The call `c` is one of the calls the switch makes for `d1` and `d2`: on two elements
at the same index, on the two boxed values or targets, on two fields at the same position,
or on the entries of a key of one of the three lists of `unionKey`. -/
inductive Child (ro1 ro2 : Flag) : Data → Data → Call → Prop
  | index_array {el1 el2 : Ty} {es1 es2 : List Data} {a b : Data} (i : Nat) :
    (a, b) ∈ es1.zip es2 →
    Child ro1 ro2 (.array el1 es1) (.array el2 es2)
      (⟨some a, ro1.ro⟩, ⟨some b, ro2.ro⟩, FormatInt i)
  | index_slice {el1 el2 : Ty} {a1 a2 p1 p2 : Nat} {es1 es2 : List Data} {a b : Data}
    (i : Nat) : p1 ≠ p2 → es1.length = es2.length → (a, b) ∈ es1.zip es2 →
    Child ro1 ro2 (.slice el1 a1 (some (p1, es1))) (.slice el2 a2 (some (p2, es2)))
      (⟨some a, ro1.ro⟩, ⟨some b, ro2.ro⟩, FormatInt i)
  | elem_iface {t1 t2 : String} {a1 a2 : Nat} {e1 e2 : Data} :
    Child ro1 ro2 (.iface t1 a1 (some e1)) (.iface t2 a2 (some e2))
      (⟨some e1, ro1.ro⟩, ⟨some e2, ro2.ro⟩, "")
  | elem_ptr {el1 el2 : Ty} {a1 a2 p1 p2 : Nat} {e1 e2 : Data} : p1 ≠ p2 →
    Child ro1 ro2 (.ptr el1 a1 (some (p1, e1))) (.ptr el2 a2 (some (p2, e2)))
      (⟨some e1, ro1⟩, ⟨some e2, ro2⟩, "")
  | field {t1 t2 : String} {fs1 fs2 : List (String × Flag × Data)}
    {f1 f2 : String × Flag × Data} : (f1, f2) ∈ fs1.zip fs2 →
    Child ro1 ro2 (.struct t1 fs1) (.struct t2 fs2)
      (⟨some f1.2.2, Flag.field ro1 f1.2.1⟩, ⟨some f2.2.2, Flag.field ro2 f2.2.1⟩, f1.1)
  | key_left {kt1 kt2 el1 el2 : Ty} {a1 a2 p1 p2 : Nat} {m1 m2 : List (Scalar × Data)}
    {k : Scalar} : p1 ≠ p2 → k ∈ (unionKey kt1 m1 m2).1 →
    Child ro1 ro2 (.map kt1 el1 a1 (some (p1, m1))) (.map kt2 el2 a2 (some (p2, m2)))
      (MapIndex ro1.ro m1 k, Value.zero, keyString kt1 k)
  | key_right {kt1 kt2 el1 el2 : Ty} {a1 a2 p1 p2 : Nat} {m1 m2 : List (Scalar × Data)}
    {k : Scalar} : p1 ≠ p2 → k ∈ (unionKey kt1 m1 m2).2.2 →
    Child ro1 ro2 (.map kt1 el1 a1 (some (p1, m1))) (.map kt2 el2 a2 (some (p2, m2)))
      (Value.zero, MapIndex ro2.ro m2 k, keyString kt1 k)
  | key_both {kt1 kt2 el1 el2 : Ty} {a1 a2 p1 p2 : Nat} {m1 m2 : List (Scalar × Data)}
    {k : Scalar} : p1 ≠ p2 → k ∈ (unionKey kt1 m1 m2).2.1 →
    Child ro1 ro2 (.map kt1 el1 a1 (some (p1, m1))) (.map kt2 el2 a2 (some (p2, m2)))
      (MapIndex ro1.ro m1 k, MapIndex (Flag.join ro2 ro1) m2 k, keyString kt1 k)

/-- The key under which the pair `d1`, `d2` is recorded in the visited set. -/
def visitKey (d1 d2 : Data) : visit :=
  ⟨min d1.ptrWord d2.ptrWord, max d1.ptrWord d2.ptrWord, d1.Type⟩

/-- The state after the visited check: the key of a hard pair is recorded. -/
def mark (d1 d2 : Data) (v : valueDiff) : valueDiff :=
  if hard d1 d2 then ⟨visitKey d1 d2 :: v.visited, v.diffs, v.stack⟩ else v

/-- The calls made by the frame that compares the handles `v1` and `v2`, when it reaches
the switch. -/
def callsV (v1 v2 : Value) : List Call :=
  match v1.data, v2.data with
  | some d1, some d2 => if d1.Type != d2.Type then [] else calls v1.flagRO v2.flagRO d1 d2
  | _, _ => []

/-- The pair `e1`, `e2` is compared by a frame below (or at) the frame comparing `v1` with
`v2`, reached through calls with the segments `path` (empty segments are not pushed). -/
inductive Below : Value → Value → List String → Value → Value → Prop
  | here (v1 v2 : Value) : Below v1 v2 [] v1 v2
  | step {v1 v2 c1 c2 e1 e2 : Value} {info : String} {path : List String} :
    (c1, c2, info) ∈ callsV v1 v2 → Below c1 c2 path e1 e2 →
    Below v1 v2 (pushed info [] ++ path) e1 e2

/-- The body of the frame comparing `v1` with `v2` returns false: exactly one handle is
valid, or the types differ, or the switch returns false. -/
def Unexplained (v1 v2 : Value) : Prop :=
  match v1.data, v2.data with
  | some d1, some d2 => d1.Type ≠ d2.Type ∨ verdict v1.flagRO v2.flagRO d1 d2 = .ok false
  | none, none => False
  | _, _ => True

/-- The Diff `d` was saved below the stack `S` by a frame under the comparison of `v1`
with `v2`: for a pair the frame could not explain, at the path of that pair. -/
def Site (S : List String) (v1 v2 : Value) (d : Diff) : Prop :=
  ∃ e1 e2 path, Below v1 v2 path e1 e2 ∧ Unexplained e1 e2 ∧
    d = ⟨S ++ path, payload e1, payload e2⟩

/-- What one comparison of `v1` with `v2` does to the state: the stack is restored, the
visited set grows, and Diffs are appended, each saved below the stack `S`. -/
structure Frame (S : List String) (v1 v2 : Value) (s t : valueDiff) : Prop where
  stack : t.stack = s.stack
  visited : ∀ key ∈ s.visited, key ∈ t.visited
  diffs : ∃ D, t.diffs = s.diffs ++ D ∧ ∀ d ∈ D, Site S v1 v2 d

/-- What a list of calls does to the state: as `Frame`, with one group of Diffs per call,
in the order of the calls. -/
structure RunFrame (cs : List Call) (s t : valueDiff) : Prop where
  stack : t.stack = s.stack
  visited : ∀ key ∈ s.visited, key ∈ t.visited
  diffs : ∃ groups : List (List Diff), t.diffs = s.diffs ++ groups.flatten ∧
    List.Forall₂ (fun c g => ∀ d ∈ g, Site (pushed c.2.2 s.stack) c.1 c.2.1 d) cs groups

/-- The list `g` holds the Diffs that the call `c`, made with the recursion `rec` in
some state, appends to the Diffs of that state. -/
def RecordedBy (rec : Rec) (c : Call) (g : List Diff) : Prop :=
  ∃ s r, rec c.1 c.2.1 c.2.2 s = .ok r ∧ r.2.diffs = s.diffs ++ g

/-- Every Diff of `g` has a path that starts with the segments `S`. -/
def PathsUnder (S : List String) (g : List Diff) : Prop :=
  ∀ d ∈ g, ∃ rest, d.Stack = S ++ rest

/-- The list `g` holds the Diffs recorded for the key `k` of a map with keys of type
`keyType`: their paths start with the rendering of the key, when it is pushed, and they
are what the comparison of `get1 k` with `get2 k` under that rendering appends. -/
def DiffsOfKey (rec : Rec) (keyType : Ty) (get1 get2 : Scalar → Value) (k : Scalar)
    (g : List Diff) : Prop :=
  PathsUnder (pushed (keyString keyType k) []) g ∧
    RecordedBy rec (get1 k, get2 k, keyString keyType k) g

/-- The keys of a list are in non-decreasing order of their rendering. -/
def SortedByRendering (keyType : Ty) (keys : List Scalar) : Prop :=
  keys.Pairwise fun a b => keyString keyType a ≤ keyString keyType b

/-- The value is a nil interface value. -/
def Data.isNilBox : Data → Bool
  | .iface _ _ none => true
  | _ => false

mutual
/-- The value is a well-typed Go value without the three things that make payloads
coincide: every element, target and map value has the element type its container
declares, every record has the field types `fieldTypes` gives for its type name, and a
boxed value is not itself of kind `Interface`; no scalar is a NaN, no record field is
unexported, and no map holds a nil boxed value. -/
def regular (fieldTypes : String → List Ty) : Data → Bool
  | .scalar _ p => Scalar.eq p p
  | .array elem elems => regularList fieldTypes elem elems
  | .slice elem _ (some (_, elems)) => regularList fieldTypes elem elems
  | .iface _ _ (some d) => d.Kind != Kind.Interface && regular fieldTypes d
  | .ptr elem _ (some (_, d)) => d.Type == elem && regular fieldTypes d
  | .struct tname fields =>
    (fields.map fun f => f.2.2.Type) == fieldTypes tname && regularFields fieldTypes fields
  | .map _ elem _ (some (_, entries)) => regularEntries fieldTypes elem entries
  | _ => true
/-- The predicate `regular` on every element, each of type `elem`. -/
def regularList (fieldTypes : String → List Ty) (elem : Ty) : List Data → Bool
  | [] => true
  | d :: ds => d.Type == elem && regular fieldTypes d && regularList fieldTypes elem ds
/-- The predicate `regular` on every field, each exported. -/
def regularFields (fieldTypes : String → List Ty) : List (String × Flag × Data) → Bool
  | [] => true
  | (_, ff, d) :: fs => ff == Flag.zero && regular fieldTypes d && regularFields fieldTypes fs
/-- The predicate `regular` on every value of a map, each of type `elem` and none a nil
boxed value. -/
def regularEntries (fieldTypes : String → List Ty) (elem : Ty) : List (Scalar × Data) → Bool
  | [] => true
  | (_, d) :: es =>
    d.Type == elem && !d.isNilBox && regular fieldTypes d && regularEntries fieldTypes elem es
end

/-- An argument of `DeepDiff` is regular: nil, or a regular value that is not of kind
`Interface` (as every value `reflect.ValueOf` returns). -/
def regularArg (fieldTypes : String → List Ty) : Option Data → Bool
  | none => true
  | some d => d.Kind != Kind.Interface && regular fieldTypes d

/-- The pairs of handles that the comparison of two regular arguments reaches: both
handles materializable and on regular values, a value compared with the zero handle no
nil boxed value, and no value of kind `Interface` compared with a value of another type. -/
structure Matched (fieldTypes : String → List Ty) (v1 v2 : Value) : Prop where
  left : ∀ d, v1.data = some d → regular fieldTypes d = true ∧ v1.flagRO = Flag.zero
  right : ∀ d, v2.data = some d → regular fieldTypes d = true ∧ v2.flagRO = Flag.zero
  aloneLeft : ∀ d, v1.data = some d → v2.data = none → d.isNilBox = false
  aloneRight : ∀ d, v2.data = some d → v1.data = none → d.isNilBox = false
  types : ∀ d1 d2, v1.data = some d1 → v2.data = some d2 → d1.Type ≠ d2.Type →
    d1.Kind ≠ Kind.Interface ∧ d2.Kind ≠ Kind.Interface

/-- Two handles are not both valid with different read-only flags. -/
def FlagsAgree (v1 v2 : Value) : Prop :=
  v1.data.isSome = true → v2.data.isSome = true → v1.flagRO = v2.flagRO

/-! ## The traversal that visits the keys of the right map first -/

/-- The call with its two handles exchanged. -/
def swapCall (c : Call) : Call := (c.2.1, c.1, c.2.2)

/-- The statement `switch v1.Kind()` with the first two loops of the Map case in the other
order: for two non-nil maps with different storage the keys found only in the right map
are visited before the keys found only in the left map, and the common keys last.  Every
other case is the case of `kindSwitch`. -/
def kindSwitchRightFirst (rec : Rec) (ro1 ro2 : Flag) (d1 d2 : Data) (v : valueDiff) :
    Except Err (Bool × valueDiff) :=
  match d1, d2 with
  | .map keyType _ _ (some (p1, m1)), .map _ _ _ (some (p2, m2)) =>
    if p1 == p2 then .ok (true, v)
    else
      let keys := unionKey keyType m1 m2
      match keyLoop rec keyType (fun _ => Value.zero) (MapIndex ro2.ro m2) keys.2.2 v with
      | .error e => .error e
      | .ok v =>
        match keyLoop rec keyType (MapIndex ro1.ro m1) (fun _ => Value.zero) keys.1 v with
        | .error e => .error e
        | .ok v =>
          match keyLoop rec keyType (MapIndex ro1.ro m1) (MapIndex (Flag.join ro2 ro1) m2)
              keys.2.1 v with
          | .error e => .error e
          | .ok v => .ok (true, v)
  | _, _ => kindSwitch rec ro1 ro2 d1 d2 v

/-- The body `deepValueDiffBody` with the switch `kindSwitchRightFirst`. -/
def deepValueDiffBodyRightFirst (rec : Rec) (v1 v2 : Value) (v : valueDiff) :
    Except Err (Bool × valueDiff) :=
  match v1.data, v2.data with
  | some d1, some d2 =>
    if d1.Type != d2.Type then .ok (false, v)
    else
      let key : visit := ⟨min d1.ptrWord d2.ptrWord, max d1.ptrWord d2.ptrWord, d1.Type⟩
      if hard d1 d2 && decide (key ∈ v.visited) then .ok (true, v)
      else
        let v := if hard d1 d2 then ⟨key :: v.visited, v.diffs, v.stack⟩ else v
        kindSwitchRightFirst rec v1.flagRO v2.flagRO d1 d2 v
  | _, _ => .ok (v1.IsValid == v2.IsValid, v)

/-- The method `deepValueDiff` with the body `deepValueDiffBodyRightFirst`: the same
traversal, except that under every pair of maps the Diffs of the keys found only in the
right map are recorded before the Diffs of the keys found only in the left map. -/
def deepValueDiffRightFirst :
    Nat → Value → Value → String → valueDiff → Except Err (Bool × valueDiff)
  | 0, _, _, _, _ => .error .outOfFuel
  | fuel + 1, v1, v2, info, v =>
    match deepValueDiffBodyRightFirst (deepValueDiffRightFirst fuel) v1 v2 (push info v) with
    | .error e => .error e
    | .ok r => .ok (true, pop info (if !r.1 then saveDiff r.2 v1 v2 else r.2))

/-- The function `DeepDiff` over `deepValueDiffRightFirst`. -/
def DeepDiffRightFirst (x y : Option Data) : Except Err (List Diff) :=
  match deepValueDiffRightFirst (fuelFor (ValueOf x)) (ValueOf x) (ValueOf y) "" ⟨[], [], []⟩ with
  | .ok r => .ok r.2.diffs
  | .error e => .error e

/-- The calls that `kindSwitchRightFirst` makes for `d1` and `d2`, in order. -/
def callsRightFirst (ro1 ro2 : Flag) (d1 d2 : Data) : List Call :=
  match d1, d2 with
  | .map keyType _ _ (some (p1, m1)), .map _ _ _ (some (p2, m2)) =>
    if p1 == p2 then []
    else
      keyCalls keyType (fun _ => Value.zero) (MapIndex ro2.ro m2) (unionKey keyType m1 m2).2.2 ++
        (keyCalls keyType (MapIndex ro1.ro m1) (fun _ => Value.zero)
            (unionKey keyType m1 m2).1 ++
          keyCalls keyType (MapIndex ro1.ro m1) (MapIndex (Flag.join ro2 ro1) m2)
            (unionKey keyType m1 m2).2.1)
  | _, _ => calls ro1 ro2 d1 d2

/-- The values `d1` and `d2` are two non-nil maps with different storage of which each
has a key that the other lacks. -/
def bothSided (d1 d2 : Data) : Bool :=
  match d1, d2 with
  | .map keyType _ _ (some (p1, m1)), .map _ _ _ (some (p2, m2)) =>
    p1 != p2 && !(unionKey keyType m1 m2).1.isEmpty && !(unionKey keyType m1 m2).2.2.isEmpty
  | _, _ => false

/-- No frame reached from the comparison of `v1` with `v2` compares two maps of one type
of which each has a key that the other lacks. -/
def OneSided (v1 v2 : Value) : Prop :=
  ∀ path e1 e2 d1 d2, Below v1 v2 path e1 e2 → e1.data = some d1 → e2.data = some d2 →
    d1.Type = d2.Type → bothSided d1 d2 = false

/-- The state `s2` is the state `s` with left and right exchanged in every Diff: the same
visited set and stack, and the same Diffs in the same order, each with its two payloads
exchanged. -/
structure Swapped (s s2 : valueDiff) : Prop where
  visited : s2.visited = s.visited
  stack : s2.stack = s.stack
  diffs : s2.diffs = s.diffs.map swapDiff

/-! ## Concrete values used in the examples -/

/-- The Go type `interface {}`. -/
def anyTy : Ty := .iface "interface {}"

/-- A `float64` with the given bit pattern. -/
def float64Data (bits : Nat) : Data := .scalar "float64" (.float bits)

/-- The `float64` values 0, 1 and 2, as `encoding/json` decodes the numbers `0`, `1`, `2`. -/
def num0 : Data := float64Data 0
/-- The `float64` value 1. -/
def num1 : Data := float64Data 0x3FF0000000000000
/-- The `float64` value 2. -/
def num2 : Data := float64Data 0x4000000000000000

/-- A non-nil `interface` value holding `d`, seen through a handle with word `addr`. -/
def boxedAt (addr : Nat) (d : Data) : Data := .iface "interface {}" addr (some d)

/-- A decoded JSON array: a `[]interface` with header word `addr` and storage `p`. -/
def jsonArray (addr p : Nat) (elems : List Data) : Data := .slice anyTy addr (some (p, elems))

/-- A decoded JSON object: a `map[string]interface` with header word `addr` and storage `p`. -/
def jsonObject (addr p : Nat) (entries : List (Scalar × Data)) : Data :=
  .map (.basic "string") anyTy addr (some (p, entries))

/-- The value `int(n)`. -/
def intData (n : Int) : Data := .scalar "int" (.int n)

/-- The record of type `T`, a struct with the single unexported field `a int`, set to 1. -/
def hiddenRecord : Data := .struct "main.T" [("a", .stickyRO, intData 1)]

/-- The record `Outer(inner(X: n))` of the types `type inner struct ( X int )` and
`type Outer struct ( inner )`: the field `inner` is embedded and unexported, its own field
`X` is exported. -/
def embeddedRecord (n : Int) : Data :=
  .struct "main.Outer" [("inner", .embedRO, .struct "main.inner" [("X", .zero, intData n)])]

/-- The record `Outer(inner(1))` of the types `type inner [1]int` and
`type Outer struct ( inner )`: the embedded unexported field is an array. -/
def embeddedArray : Data :=
  .struct "main.Outer" [("inner", .embedRO, .array (.basic "int") [intData 1])]

/-- A record of type `P`, a struct with the exported fields `X int` and `Y [2]int`. -/
def openRecord : Data :=
  .struct "main.P" [("X", .zero, intData 1), ("Y", .zero, .array (.basic "int") [intData 2, intData 3])]

/-- The slice `s[:1]` of `s := []int(1, 2)`: its own header, the storage of `s`. -/
def shortView : Data := .slice (.basic "int") 4096 (some (8192, [intData 1]))

/-- The slice `s[:2]` of the same `s`: another header, the same storage. -/
def longView : Data := .slice (.basic "int") 4120 (some (8192, [intData 1, intData 2]))

/-- The nil slice `[]int(nil)`. -/
def nilSlice : Data := .slice (.basic "int") 4096 none

/-- The empty, non-nil slice `[]int()`. -/
def emptySlice : Data := .slice (.basic "int") 4120 (some (8192, []))

/-- The entries of the map `map[string]int("a": 1, "b": 2)`. -/
def entriesAB : List (Scalar × Data) := [(.str "a", intData 1), (.str "b", intData 2)]

/-- The entries of the map `map[string]int("c": 3, "b": 2)`. -/
def entriesCB : List (Scalar × Data) := [(.str "c", intData 3), (.str "b", intData 2)]

/-- The entries of `map[int]int(1: 10, 2: 20)`, iterated with key 1 first. -/
def intEntries12 : List (Scalar × Data) := [(.int 1, intData 10), (.int 2, intData 20)]

/-- The entries of the same map, iterated with key 2 first. -/
def intEntries21 : List (Scalar × Data) := [(.int 2, intData 20), (.int 1, intData 10)]

/-- A map of type `map[int]int` with the given header word, storage and entries. -/
def intMap (addr p : Nat) (entries : List (Scalar × Data)) : Data :=
  .map (.basic "int") (.basic "int") addr (some (p, entries))

/-- The nil map `map[string]string(nil)`. -/
def nilMap : Data := .map (.basic "string") (.basic "string") 4096 none

/-- The empty, non-nil map `map[string]string()`. -/
def emptyMap : Data := .map (.basic "string") (.basic "string") 4104 (some (8192, []))

/-- The entries of `map[string]string("a": "z")`. -/
def entriesA : List (Scalar × Data) := [(.str "a", stringData "z")]

/-- The entries of `map[string]string("a": "z", "b": "y")`, iterated with "b" first. -/
def entriesBA : List (Scalar × Data) := [(.str "b", stringData "y"), (.str "a", stringData "z")]

/-- A map of type `map[string]string` with the given header word, storage and entries. -/
def stringMap (addr p : Nat) (entries : List (Scalar × Data)) : Data :=
  .map (.basic "string") (.basic "string") addr (some (p, entries))

/-- The single-entry mapping `map[string]interface()(k: a)`: header word `addr`, storage
`p`, and `boxAddr` the word of the handle of its boxed value. -/
def singleMap (k : String) (addr p boxAddr : Nat) (a : Option Data) : Data :=
  .map (.basic "string") anyTy addr (some (p, [(.str k, .iface "interface {}" boxAddr a)]))

/-- The one-element sequence `[]interface()(a)`. -/
def singleSeq (addr p boxAddr : Nat) (a : Option Data) : Data :=
  .slice anyTy addr (some (p, [.iface "interface {}" boxAddr a]))

/-- The two slices of the path-accumulation test: `[]int(1, 2)` and `[]int(1)`. -/
def seq12 : Data := .slice (.basic "int") 256 (some (512, [intData 1, intData 2]))

/-- The slice `[]int(1)`, with storage of its own. -/
def seq1 : Data := .slice (.basic "int") 768 (some (1024, [intData 1]))

/-- The map `map[string]int("a": 1)`. -/
def mapA1 : Data := .map (.basic "string") (.basic "int") 4096 (some (8192, [(.str "a", intData 1)]))

/-- The map `map[string]int("b": 2)`. -/
def mapB2 : Data := .map (.basic "string") (.basic "int") 4104 (some (8448, [(.str "b", intData 2)]))

/-- The map `map[string]int("a": 3, "b": 2)`. -/
def mapA3B2 : Data :=
  .map (.basic "string") (.basic "int") 4104
    (some (8448, [(.str "a", intData 3), (.str "b", intData 2)]))

/-- The pointer `&T(...)` to a record with a single field `N int`: the handle word `addr`,
the address `p` of the record. -/
def nodePtr (addr p : Nat) (n : Int) : Data :=
  .ptr (.struct "main.T" [("N", .zero)]) addr (some (p, .struct "main.T" [("N", .zero, intData n)]))

/-- The map `map[string]int("": n)`, whose only key is the empty string. -/
def emptyKeyMap (addr p : Nat) (n : Int) : Data :=
  .map (.basic "string") (.basic "int") addr (some (p, [(.str "", intData n)]))

/-- The empty, non-nil map `map[string]int()`. -/
def emptyIntMap : Data := .map (.basic "string") (.basic "int") 4112 (some (8704, []))

/-- Another record of type `P`, different from `openRecord` in `X` and in `Y[1]`. -/
def otherRecord : Data :=
  .struct "main.P" [("X", .zero, intData 5), ("Y", .zero, .array (.basic "int") [intData 2, intData 4])]

/-- The type `S` of the self-referential example: `struct ( Next M; Tag int )`, where
`M` is `map[string]S`. -/
def linkTy : Ty := .struct "main.S" [("Next", .zero), ("Tag", .zero)]

/-- The map `m` of type `M` with the single entry `m["a"] = S(Next: m)`, as the traversal
sees it through a handle with word `addr`, unfolded `k` times.  The pointer of the map is
`h` at every level.  `MapIndex` copies the record `m["a"]`, which is two words long, into
a fresh variable, `copy` at the first level, and `Field` gives the handle of `Next` the
address of that field in the copy, which is `copy`; the copy of the next level is 32
bytes further (the 16 bytes between are the copy made for the other side).  Below the
last unfolding stands a nil map. -/
def selfMap (h : Nat) : Nat → Nat → Nat → Data
  | 0, addr, _ => .map (.basic "string") linkTy addr none
  | k + 1, addr, copy =>
    .map (.basic "string") linkTy addr
      (some (h, [(.str "a", .struct "main.S"
        [("Next", .zero, selfMap h k copy (copy + 32)), ("Tag", .zero, intData 0)])]))

/-- The map `m` of type `map[string]interface()` with the single entry `m["self"] = m`,
unfolded `k` times.  `MapIndex` copies the boxed value into a fresh variable, `copy` at
the first level, and the handle of kind `Interface` holds the address of the copy; `Elem`
unpacks the box, which stores the pointer `h` of the map in its data word, so the handle
of the inner map holds `h`, as the handle of the outer map does. -/
def boxedSelfMap (h : Nat) : Nat → Nat → Data
  | 0, _ => .map (.basic "string") anyTy h none
  | k + 1, copy =>
    .map (.basic "string") anyTy h
      (some (h, [(.str "self", .iface "interface {}" copy (some (boxedSelfMap h k (copy + 32))))]))

/-! ## Theorems -/

/-! ### General facts about the embedding -/

@[simp] theorem Flag.ro_zero : Flag.zero.ro = Flag.zero := rfl

@[simp] theorem Flag.ro_embedRO : Flag.embedRO.ro = Flag.stickyRO := rfl

@[simp] theorem Flag.ro_stickyRO : Flag.stickyRO.ro = Flag.stickyRO := rfl

@[simp] theorem Flag.ro_ro (a : Flag) : a.ro.ro = a.ro := by cases a <;> rfl

@[simp] theorem Flag.field_zero (ff : Flag) : Flag.field Flag.zero ff = ff := rfl

@[simp] theorem Flag.field_embedRO (ff : Flag) : Flag.field Flag.embedRO ff = ff := rfl

@[simp] theorem Flag.field_stickyRO (ff : Flag) : Flag.field Flag.stickyRO ff = Flag.stickyRO :=
  rfl

@[simp] theorem Flag.join_self (a : Flag) : Flag.join a a = a.ro := by cases a <;> rfl

@[simp] theorem Flag.join_zero_zero : Flag.join Flag.zero Flag.zero = Flag.zero := rfl

theorem Flag.join_comm (a b : Flag) : Flag.join a b = Flag.join b a := by
  cases a <;> cases b <;> rfl

theorem depth_lt_of_mem_list {e : Data} {es : List Data} (h : e ∈ es) :
    e.depth ≤ depthList es := by
  induction es with
  | nil => cases h
  | cons a as ih =>
    simp only [depthList]
    rcases List.mem_cons.1 h with rfl | h
    · exact Nat.le_max_left _ _
    · exact Nat.le_trans (ih h) (Nat.le_max_right _ _)

theorem Data.Kind_ne_Invalid (d : Data) : d.Kind ≠ Kind.Invalid := by
  cases d with
  | scalar t p => cases p <;> simp [Data.Kind]
  | ident k t p => cases k <;> simp [Data.Kind]
  | _ => simp [Data.Kind]

theorem payload_ValueOf (d : Data) (h : d.Kind ≠ Kind.Interface) :
    payload ⟨some d, .zero⟩ = some d := by
  have hk := Data.Kind_ne_Invalid d
  cases d <;> simp_all [payload, Value.Kind, Value.CanInterface, Value.boxed, Data.Kind]

theorem push_pop_stack (info : String) (V V2 : List visit) (D D2 : List Diff) (S : List String) :
    pop info ⟨V2, D2, (push info ⟨V, D, S⟩).stack⟩ = ⟨V2, D2, S⟩ := by
  unfold pop push
  by_cases h : info != ""
  · simp [h]
  · simp [h]

theorem push_visited (info : String) (s : valueDiff) : (push info s).visited = s.visited := by
  unfold push; split <;> rfl

theorem push_diffs (info : String) (s : valueDiff) : (push info s).diffs = s.diffs := by
  unfold push; split <;> rfl

theorem deepValueDiff_succ (fuel : Nat) (v1 v2 : Value) (info : String) (s : valueDiff) :
    deepValueDiff (fuel + 1) v1 v2 info s =
      match deepValueDiffBody (deepValueDiff fuel) v1 v2 (push info s) with
      | .error e => .error e
      | .ok r => .ok (true, pop info (if !r.1 then saveDiff r.2 v1 v2 else r.2)) := rfl

/-- When the body explains the pair, the call returns the state of the body with the
stack of the caller. -/
theorem deepValueDiff_of_body_true {fuel : Nat} {v1 v2 : Value} {info : String}
    {s : valueDiff} {V : List visit} {D : List Diff}
    (h : deepValueDiffBody (deepValueDiff fuel) v1 v2 (push info s)
      = .ok (true, ⟨V, D, (push info s).stack⟩)) :
    deepValueDiff (fuel + 1) v1 v2 info s = .ok (true, ⟨V, D, s.stack⟩) := by
  obtain ⟨V0, D0, S0⟩ := s
  simp only [deepValueDiff, h]
  simp [push_pop_stack]

/-- The key under which `deepValueDiff` records a pair of reference-like values. -/
theorem deepValueDiffBody_same_type (rec : Rec) (d1 d2 : Data) (ro1 ro2 : Flag) (t : valueDiff)
    (hT : d1.Type = d2.Type) :
    deepValueDiffBody rec ⟨some d1, ro1⟩ ⟨some d2, ro2⟩ t =
      if hard d1 d2 && decide ((⟨min d1.ptrWord d2.ptrWord, max d1.ptrWord d2.ptrWord, d1.Type⟩ : visit)
          ∈ t.visited) then .ok (true, t)
      else kindSwitch rec ro1 ro2 d1 d2
        (if hard d1 d2 then
          ⟨⟨min d1.ptrWord d2.ptrWord, max d1.ptrWord d2.ptrWord, d1.Type⟩ :: t.visited, t.diffs, t.stack⟩
         else t) := by
  simp [deepValueDiffBody, hT]

/-- The cases of `TestDeepDiff` (valuediff_test.go) on decoded JSON, evaluated in the
embedding: equal numbers, different numbers, arrays of equal and of different length,
an object with one more key on either side, and the nested cases with their paths. -/
theorem TestDeepDiff_cases :
    DeepDiff (some num1) (some num1) = .ok []
    ∧ DeepDiff (some num0) (some num1) = .ok [⟨[], some num0, some num1⟩]
    ∧ DeepDiff (some (jsonArray 16 32 [boxedAt 32 num1, boxedAt 48 num2]))
        (some (jsonArray 64 96 [boxedAt 96 num1, boxedAt 112 num2])) = .ok []
    ∧ DeepDiff (some (jsonArray 16 32 [boxedAt 32 num1]))
        (some (jsonArray 64 96 [boxedAt 96 num1, boxedAt 112 num2]))
      = .ok [⟨[], some (jsonArray 16 32 [boxedAt 32 num1]),
          some (jsonArray 64 96 [boxedAt 96 num1, boxedAt 112 num2])⟩]
    ∧ DeepDiff (some (jsonObject 16 32 [(.str "a", boxedAt 48 (stringData "z"))]))
        (some (jsonObject 64 96 [(.str "b", boxedAt 112 (stringData "y")),
          (.str "a", boxedAt 128 (stringData "z"))]))
      = .ok [⟨["b"], none, some (stringData "y")⟩]
    ∧ DeepDiff (some (jsonObject 64 96 [(.str "b", boxedAt 112 (stringData "y")),
          (.str "a", boxedAt 128 (stringData "z"))]))
        (some (jsonObject 16 32 [(.str "a", boxedAt 48 (stringData "z"))]))
      = .ok [⟨["b"], some (stringData "y"), none⟩]
    ∧ DeepDiff (some (jsonArray 16 32 [boxedAt 32 (jsonArray 200 232 [boxedAt 232 num1])]))
        (some (jsonArray 64 96 [boxedAt 96
          (jsonArray 300 332 [boxedAt 332 num1, boxedAt 348 num2])]))
      = .ok [⟨["0"], some (jsonArray 200 232 [boxedAt 232 num1]),
          some (jsonArray 300 332 [boxedAt 332 num1, boxedAt 348 num2])⟩]
    ∧ DeepDiff
        (some (jsonArray 16 32 [boxedAt 32
          (jsonObject 200 232 [(.str "a", boxedAt 248 (stringData "z"))])]))
        (some (jsonArray 64 96 [boxedAt 96
          (jsonObject 300 332 [(.str "a", boxedAt 348 (stringData "z")),
            (.str "b", boxedAt 364 (stringData "y"))])]))
      = .ok [⟨["0", "b"], none, some (stringData "y")⟩]
    ∧ DeepDiff
        (some (jsonObject 16 32 [(.str "v", boxedAt 48
          (jsonObject 200 232 [(.str "a", boxedAt 248 (stringData "z")),
            (.str "b", boxedAt 264 (jsonArray 400 432 [boxedAt 432 num1, boxedAt 448 num2]))]))]))
        (some (jsonObject 64 96 [(.str "v", boxedAt 112
          (jsonObject 300 332 [(.str "b", boxedAt 348 (jsonArray 500 532 [boxedAt 532 num1])),
            (.str "a", boxedAt 364 (stringData "z"))]))]))
      = .ok [⟨["v", "b"], some (jsonArray 400 432 [boxedAt 432 num1, boxedAt 448 num2]),
          some (jsonArray 500 532 [boxedAt 532 num1])⟩] :=
  ⟨rfl, rfl, rfl, rfl, rfl, rfl, rfl, rfl, rfl⟩

/-! ### C1: reflexivity -/

theorem refl_indexLoop (rec : Rec) (ro : Flag) (es : List Data)
    (h : ∀ e ∈ es, ∀ info s, ∃ V, rec ⟨some e, ro⟩ ⟨some e, ro⟩ info s
      = .ok (true, ⟨V, s.diffs, s.stack⟩)) :
    ∀ i s, ∃ V, indexLoop rec ro ro es es i s = .ok ⟨V, s.diffs, s.stack⟩ := by
  induction es with
  | nil => intro i s; exact ⟨s.visited, rfl⟩
  | cons a as ih =>
    intro i s
    obtain ⟨V, hV⟩ := h a (List.mem_cons_self _ _) (FormatInt i) s
    obtain ⟨V2, hV2⟩ := ih (fun e he => h e (List.mem_cons_of_mem _ he)) (i + 1)
      ⟨V, s.diffs, s.stack⟩
    exact ⟨V2, by simp [indexLoop, hV, hV2]⟩

theorem refl_fieldLoop (rec : Rec) (ro : Flag) (fs : List (String × Flag × Data))
    (h : ∀ f ∈ fs, ∀ info s, ∃ V,
      rec ⟨some f.2.2, Flag.field ro f.2.1⟩ ⟨some f.2.2, Flag.field ro f.2.1⟩ info s
      = .ok (true, ⟨V, s.diffs, s.stack⟩)) :
    ∀ s, ∃ V, fieldLoop rec ro ro fs fs s = .ok ⟨V, s.diffs, s.stack⟩ := by
  induction fs with
  | nil => intro s; exact ⟨s.visited, rfl⟩
  | cons a as ih =>
    intro s
    obtain ⟨V, hV⟩ := h a (List.mem_cons_self _ _) a.1 s
    obtain ⟨V2, hV2⟩ := ih (fun e he => h e (List.mem_cons_of_mem _ he)) ⟨V, s.diffs, s.stack⟩
    exact ⟨V2, by simp [fieldLoop, hV, hV2]⟩

theorem selfComparableList_mem {ro : Flag} {es : List Data} (h : selfComparableList ro es = true)
    {e : Data} (he : e ∈ es) : selfComparable ro e = true := by
  induction es with
  | nil => cases he
  | cons a as ih =>
    simp only [selfComparableList, Bool.and_eq_true] at h
    rcases List.mem_cons.1 he with rfl | he
    · exact h.1
    · exact ih h.2 he

theorem selfComparableFields_mem {ro : Flag} {fs : List (String × Flag × Data)}
    (h : selfComparableFields ro fs = true) {f : String × Flag × Data} (hf : f ∈ fs) :
    selfComparable (Flag.field ro f.2.1) f.2.2 = true := by
  induction fs with
  | nil => cases hf
  | cons a as ih =>
    obtain ⟨n, ex, d⟩ := a
    simp only [selfComparableFields, Bool.and_eq_true] at h
    rcases List.mem_cons.1 hf with rfl | hf
    · exact h.1
    · exact ih h.2 hf

theorem depth_le_of_mem_fields {f : String × Flag × Data} {fs : List (String × Flag × Data)}
    (h : f ∈ fs) : f.2.2.depth ≤ depthFields fs := by
  induction fs with
  | nil => cases h
  | cons a as ih =>
    obtain ⟨n, ex, d⟩ := a
    simp only [depthFields]
    rcases List.mem_cons.1 h with rfl | h
    · exact Nat.le_max_left _ _
    · exact Nat.le_trans (ih h) (Nat.le_max_right _ _)

/-- Comparing a value with itself records nothing, whatever the state, when its scalars
are comparable. -/
theorem refl_fuel : ∀ (fuel : Nat) (d : Data) (ro : Flag) (info : String) (s : valueDiff),
    d.depth < fuel → selfComparable ro d = true →
    ∃ V, deepValueDiff fuel ⟨some d, ro⟩ ⟨some d, ro⟩ info s
      = .ok (true, ⟨V, s.diffs, s.stack⟩) := by
  intro fuel
  induction fuel with
  | zero => intro d ro info s h; omega
  | succ n ih =>
    intro d ro info s hd hc
    suffices hb : ∀ t : valueDiff, ∃ V,
        deepValueDiffBody (deepValueDiff n) ⟨some d, ro⟩ ⟨some d, ro⟩ t
          = .ok (true, ⟨V, t.diffs, t.stack⟩) by
      obtain ⟨V, hV⟩ := hb (push info s)
      rw [push_diffs] at hV
      exact ⟨V, deepValueDiff_of_body_true hV⟩
    intro t
    rw [deepValueDiffBody_same_type _ _ _ _ _ _ rfl]
    cases d with
    | scalar tname p =>
      simp only [selfComparable, Bool.and_eq_true, beq_iff_eq] at hc
      obtain ⟨hro, hc⟩ := hc
      subst hro
      refine ⟨t.visited, ?_⟩
      cases p <;>
        simp_all [hard, Data.Kind, kindSwitch, defaultCase, Value.CanInterface, Value.Interface,
          Value.IsValid, Value.boxed, DeepEqual]
    | array elem es =>
      simp only [selfComparable] at hc
      simp only [Data.depth] at hd
      obtain ⟨V, hV⟩ := refl_indexLoop (deepValueDiff n) ro.ro es (fun e he info s =>
        ih e ro.ro info s (by have := depth_lt_of_mem_list he; omega)
          (selfComparableList_mem hc he)) 0 t
      exact ⟨V, by simp [hard, Data.Kind, kindSwitch, hV]⟩
    | slice elem addr store =>
      cases store with
      | none => exact ⟨t.visited, by simp [hard, Data.Kind, Data.IsNil, kindSwitch]⟩
      | some st =>
        by_cases hv : (⟨addr, addr, Ty.slice elem⟩ : visit) ∈ t.visited
        · exact ⟨t.visited, by simp [hard, Data.Kind, Data.IsNil, Data.ptrWord, Data.Type, hv]⟩
        · exact ⟨_, by simp [hard, Data.Kind, Data.IsNil, Data.ptrWord, Data.Type, hv, kindSwitch]; rfl⟩
    | iface tname addr inner =>
      cases inner with
      | none => exact ⟨t.visited, by simp [hard, Data.Kind, Data.IsNil, kindSwitch]⟩
      | some e =>
        simp only [selfComparable] at hc
        simp only [Data.depth] at hd
        by_cases hv : (⟨addr, addr, Ty.iface tname⟩ : visit) ∈ t.visited
        · exact ⟨t.visited, by simp [hard, Data.Kind, Data.IsNil, Data.ptrWord, Data.Type, hv]⟩
        · obtain ⟨V, hV⟩ := ih e ro.ro "" ⟨⟨addr, addr, Ty.iface tname⟩ :: t.visited, t.diffs, t.stack⟩
            (by omega) hc
          exact ⟨V, by simp [hard, Data.Kind, Data.IsNil, Data.ptrWord, Data.Type, hv, kindSwitch, hV]⟩
    | ptr elem addr target =>
      cases target with
      | none => exact ⟨t.visited, by simp [hard, Data.Kind, Data.IsNil, kindSwitch]⟩
      | some st =>
        by_cases hv : (⟨addr, addr, Ty.ptr elem⟩ : visit) ∈ t.visited
        · exact ⟨t.visited, by simp [hard, Data.Kind, Data.IsNil, Data.ptrWord, Data.Type, hv]⟩
        · exact ⟨_, by simp [hard, Data.Kind, Data.IsNil, Data.ptrWord, Data.Type, hv, kindSwitch]; rfl⟩
    | struct tname fs =>
      simp only [selfComparable] at hc
      simp only [Data.depth] at hd
      obtain ⟨V, hV⟩ := refl_fieldLoop (deepValueDiff n) ro fs (fun f hf info s =>
        ih f.2.2 _ info s (by have := depth_le_of_mem_fields hf; omega)
          (selfComparableFields_mem hc hf)) t
      exact ⟨V, by simp [hard, Data.Kind, kindSwitch, hV]⟩
    | map key elem addr store =>
      cases store with
      | none => exact ⟨t.visited, by simp [hard, Data.Kind, Data.IsNil, kindSwitch]⟩
      | some st =>
        by_cases hv : (⟨addr, addr, Ty.map key elem⟩ : visit) ∈ t.visited
        · exact ⟨t.visited, by simp [hard, Data.Kind, Data.IsNil, Data.ptrWord, Data.Type, hv]⟩
        · exact ⟨_, by simp [hard, Data.Kind, Data.IsNil, Data.ptrWord, Data.Type, hv, kindSwitch]; rfl⟩
    | ident k tname p =>
      refine ⟨t.visited, ?_⟩
      by_cases hp : p = 0
      · cases k <;> simp [hard, Data.Kind, kindSwitch, hp]
      · cases k <;> simp [hard, Data.Kind, kindSwitch, hp]

/-- C1, counterexample: a record with an unexported integer field, compared with itself,
yields a Diff for that field (with the textual rendering as payload), so the result is
not empty. -/
theorem reflexivity_fails_hidden_field :
    DeepDiff (some hiddenRecord) (some hiddenRecord)
        = .ok [⟨["a"], some (stringData "<int Value>"), some (stringData "<int Value>")⟩]
      ∧ DeepDiff (some hiddenRecord) (some hiddenRecord) ≠ .ok [] := by
  have h : DeepDiff (some hiddenRecord) (some hiddenRecord)
      = .ok [⟨["a"], some (stringData "<int Value>"), some (stringData "<int Value>")⟩] := rfl
  refine ⟨h, ?_⟩
  rw [h]
  intro hc
  injection hc with hc
  cases hc

/-- The read-only bit of an embedded unexported field is cleared by the next `Field`: the
exported field `X` of the embedded record is compared as any exported field, equal
contents record nothing and different contents are reported with the two values as
payloads.  `Index` makes the bit permanent: the element of an embedded unexported array
is reported, with its rendering, even when the record is compared with itself. -/
theorem embedded_field_comparison :
    DeepDiff (some (embeddedRecord 1)) (some (embeddedRecord 1)) = .ok [] ∧
      DeepDiff (some (embeddedRecord 1)) (some (embeddedRecord 2))
        = .ok [⟨["inner", "X"], some (intData 1), some (intData 2)⟩] ∧
      DeepDiff (some embeddedArray) (some embeddedArray)
        = .ok [⟨["inner", "0"], some (stringData "<int Value>"),
            some (stringData "<int Value>")⟩] :=
  ⟨rfl, rfl, rfl⟩

/-- C1, amended: for every finite value `x` (or the nil interface) in which every scalar
reached through arrays, record fields and boxes is reached with a handle that carries no
read-only bit and is equal to itself, `DeepDiff(x, x)` is the empty sequence.  The bits
are those of `reflect`: `Field` sets the permanent bit below an unexported field that is
not embedded, and below an embedded unexported field a bit that the next `Field` clears
and that `Index` and `Elem` of a boxed value make permanent. -/
theorem reflexivity_of_selfComparable (x : Option Data)
    (h : ∀ d, x = some d → selfComparable .zero d = true) :
    DeepDiff x x = .ok [] := by
  cases x with
  | none => rfl
  | some d =>
    obtain ⟨V, hV⟩ := refl_fuel (d.depth + 1) d .zero "" ⟨[], [], []⟩ (Nat.lt_succ_self _)
      (h d rfl)
    simp only [DeepDiff, DeepDiffValue, ValueOf, fuelFor, hV]

theorem reflexivity_of_selfComparable_witness :
    (∀ d, some (embeddedRecord 1) = some d → selfComparable .zero d = true)
      ∧ DeepDiff (some (embeddedRecord 1)) (some (embeddedRecord 1)) = .ok [] :=
  ⟨fun d hd => by cases hd; rfl,
   reflexivity_of_selfComparable (some (embeddedRecord 1)) (fun d hd => by cases hd; rfl)⟩

/-! ### C2, C4: the shortcut for identical storage precedes the length check -/

/-- C2, the code at the failing input: `s[:1]` and `s[:2]` of one slice `s` have different
lengths, hence are not structurally equal, and `DeepDiff` reports nothing. -/
theorem divergence_missed_on_shared_storage :
    shortView ≠ longView ∧ DeepDiff (some shortView) (some longView) = .ok [] := by
  refine ⟨?_, rfl⟩
  intro h
  simp [shortView, longView] at h

/-- C4, the code at the failing inputs: two non-nil slices of one type that start at the
same storage address yield no Diff at all, whatever their lengths and elements. -/
theorem shared_storage_slices_yield_no_diff (elem : Ty) (a1 a2 p : Nat) (es1 es2 : List Data) :
    DeepDiff (some (.slice elem a1 (some (p, es1)))) (some (.slice elem a2 (some (p, es2))))
      = .ok [] := by
  simp [DeepDiff, DeepDiffValue, ValueOf, fuelFor, Data.depth, deepValueDiff, deepValueDiffBody,
    Data.Type, hard, Data.Kind, Data.IsNil, kindSwitch, push, pop]

/-- Two non-nil slices of one type with different storage and different lengths: one Diff
at the root holding the two slices. -/
theorem length_mismatch_distinct_storage (elem : Ty) (a1 a2 p1 p2 : Nat) (es1 es2 : List Data)
    (hp : p1 ≠ p2) (hl : es1.length ≠ es2.length) :
    DeepDiff (some (.slice elem a1 (some (p1, es1)))) (some (.slice elem a2 (some (p2, es2))))
      = .ok [⟨[], some (.slice elem a1 (some (p1, es1))), some (.slice elem a2 (some (p2, es2)))⟩] := by
  have h1 := payload_ValueOf (.slice elem a1 (some (p1, es1))) (by simp [Data.Kind])
  have h2 := payload_ValueOf (.slice elem a2 (some (p2, es2))) (by simp [Data.Kind])
  simp only [DeepDiff, DeepDiffValue, ValueOf, fuelFor, Data.depth]
  rw [deepValueDiff_succ]
  simp [deepValueDiffBody, Data.Type, hard, Data.Kind, Data.IsNil, Data.ptrWord, kindSwitch,
    push, pop, hp, hl, saveDiff, cloneStrings, h1, h2]

/-! ### C3: a type mismatch is one Diff at the root -/

/-- C3: for all valid values `x`, `y` (values an `interface` argument can hold, so not
themselves of kind Interface) whose types differ, `DeepDiff(x, y)` is exactly one Diff
with empty path, left `x` and right `y`. -/
theorem type_mismatch_atomic (x y : Data) (hx : x.Kind ≠ Kind.Interface)
    (hy : y.Kind ≠ Kind.Interface) (hT : x.Type ≠ y.Type) :
    DeepDiff (some x) (some y) = .ok [⟨[], some x, some y⟩] := by
  simp [DeepDiff, DeepDiffValue, ValueOf, fuelFor, deepValueDiff, deepValueDiffBody, hT, push,
    pop, saveDiff, cloneStrings, payload_ValueOf x hx, payload_ValueOf y hy]

theorem type_mismatch_atomic_witness :
    (intData 1).Kind ≠ Kind.Interface ∧ hiddenRecord.Kind ≠ Kind.Interface
      ∧ (intData 1).Type ≠ hiddenRecord.Type
      ∧ DeepDiff (some (intData 1)) (some hiddenRecord)
          = .ok [⟨[], some (intData 1), some hiddenRecord⟩] :=
  ⟨by decide, by decide, by decide,
   type_mismatch_atomic (intData 1) hiddenRecord (by decide) (by decide) (by decide)⟩

/-! ### C5: sequences of scalars of equal length -/

theorem toDigitsCore_ne_nil (b f : Nat) : ∀ (n : Nat) (c : Char) (tl : List Char),
    Nat.toDigitsCore b f n (c :: tl) ≠ [] := by
  intro n c tl h
  have := Nat.toDigitsCore_lens_eq b f n c tl
  rw [h] at this
  simp at this

theorem FormatInt_ne_empty (i : Nat) : FormatInt i ≠ "" := by
  intro h
  have h2 : (Nat.toDigits 10 i) = [] := by
    have := congrArg String.data h
    simpa [FormatInt, Nat.repr, List.asString] using this
  unfold Nat.toDigits at h2
  unfold Nat.toDigitsCore at h2
  dsimp only at h2
  split at h2
  · simp at h2
  · exact toDigitsCore_ne_nil _ _ _ _ _ h2

/-- Two scalars, seen through handles that can be materialized: nothing is recorded when
they are structurally equal, and otherwise one Diff at the path extended by `info`. -/
theorem deepValueDiff_scalars (n : Nat) (t1 t2 : String) (p1 p2 : Scalar) (info : String)
    (s : valueDiff) :
    deepValueDiff (n + 1) ⟨some (.scalar t1 p1), .zero⟩ ⟨some (.scalar t2 p2), .zero⟩ info s
      = .ok (true,
          if DeepEqual (some (.scalar t1 p1)) (some (.scalar t2 p2)) then s
          else ⟨s.visited, s.diffs ++ [⟨(push info s).stack, some (.scalar t1 p1),
            some (.scalar t2 p2)⟩], s.stack⟩) := by
  obtain ⟨V, D, S⟩ := s
  have hk1 := payload_ValueOf (.scalar t1 p1) (by cases p1 <;> simp [Data.Kind])
  have hk2 := payload_ValueOf (.scalar t2 p2) (by cases p2 <;> simp [Data.Kind])
  by_cases ht : t1 = t2
  · subst ht
    by_cases he : Scalar.eq p1 p2 = true
    · have hh : hard (.scalar t1 p1) (.scalar t1 p2) = false := by
        cases p1 <;> simp [hard, Data.Kind]
      by_cases hi : info = "" <;>
        simp [deepValueDiff, deepValueDiffBody, Data.Type, hh, kindSwitch, defaultCase,
          Value.CanInterface, Value.Interface, Value.IsValid, Value.boxed, DeepEqual, he, push,
          pop, hi]
    · have hh : hard (.scalar t1 p1) (.scalar t1 p2) = false := by
        cases p1 <;> simp [hard, Data.Kind]
      by_cases hi : info = "" <;>
        simp [deepValueDiff, deepValueDiffBody, Data.Type, hh, kindSwitch, defaultCase,
          Value.CanInterface, Value.Interface, Value.IsValid, Value.boxed, DeepEqual, he, push,
          pop, hi, saveDiff, cloneStrings, hk1, hk2]
  · by_cases hi : info = "" <;>
      simp [deepValueDiff, deepValueDiffBody, Data.Type, ht, DeepEqual, push, pop, hi, saveDiff,
        cloneStrings, hk1, hk2]

theorem indexLoop_scalars (n : Nat) : ∀ (es1 es2 : List Data) (i : Nat) (s : valueDiff),
    es1.length = es2.length → (∀ e ∈ es1, e.isScalar = true) → (∀ e ∈ es2, e.isScalar = true) →
    indexLoop (deepValueDiff (n + 1)) .zero .zero es1 es2 i s
      = .ok ⟨s.visited, s.diffs ++ ((es1.zip es2).enumFrom i).filterMap (fun ie =>
          if DeepEqual (some ie.2.1) (some ie.2.2) then none
          else some ⟨s.stack ++ [FormatInt ie.1], some ie.2.1, some ie.2.2⟩), s.stack⟩ := by
  intro es1
  induction es1 with
  | nil => intro es2 i s _ _ _; simp [indexLoop]
  | cons a as ih =>
    intro es2 i s hlen h1 h2
    cases es2 with
    | nil => simp at hlen
    | cons b bs =>
      have ha := h1 a (List.mem_cons_self _ _)
      have hb := h2 b (List.mem_cons_self _ _)
      cases a <;> simp [Data.isScalar] at ha
      cases b <;> simp [Data.isScalar] at hb
      rename_i t1 p1 t2 p2
      simp only [indexLoop, deepValueDiff_scalars]
      rw [ih bs (i + 1) _ (by simpa using hlen) (fun e he => h1 e (List.mem_cons_of_mem _ he))
        (fun e he => h2 e (List.mem_cons_of_mem _ he))]
      by_cases he : DeepEqual (some (.scalar t1 p1)) (some (.scalar t2 p2)) = true
      · simp [he, List.zip_cons_cons, List.enumFrom_cons]
      · simp [he, List.zip_cons_cons, List.enumFrom_cons, push, FormatInt_ne_empty]

/-- C5, counterexample: the nil slice and the empty non-nil slice both have length 0, and
`DeepDiff` reports one Diff with the empty path. -/
theorem equal_length_fails_nil_against_empty :
    DeepDiff (some nilSlice) (some emptySlice) = .ok [⟨[], some nilSlice, some emptySlice⟩]
      ∧ DeepDiff (some nilSlice) (some emptySlice) ≠ .ok (scalarDiffs [] []) := by
  have h : DeepDiff (some nilSlice) (some emptySlice)
      = .ok [⟨[], some nilSlice, some emptySlice⟩] := rfl
  refine ⟨h, ?_⟩
  rw [h]
  intro hc
  injection hc with hc
  cases hc

/-- C5, amended: for every two non-nil slices of one type with distinct storage, of the
same length, whose elements are scalars, `DeepDiff` is exactly the list, in increasing
index order, of the Diffs with path `[decimal(i)]`, left `x[i]`, right `y[i]` for the
indices whose elements are not structurally equal; no Diff has the empty path. -/
theorem equal_length_scalar_slices (elem : Ty) (a1 a2 p1 p2 : Nat) (xs ys : List Data)
    (hp : p1 ≠ p2) (hlen : xs.length = ys.length)
    (hx : ∀ e ∈ xs, e.isScalar = true) (hy : ∀ e ∈ ys, e.isScalar = true) :
    DeepDiff (some (.slice elem a1 (some (p1, xs)))) (some (.slice elem a2 (some (p2, ys))))
        = .ok (scalarDiffs xs ys)
      ∧ ∀ d ∈ scalarDiffs xs ys, d.Stack ≠ [] := by
  constructor
  · have hloop := indexLoop_scalars (depthList xs) xs ys 0
      ⟨[⟨min a1 a2, max a1 a2, Ty.slice elem⟩], [], []⟩ hlen hx hy
    simp only [DeepDiff, DeepDiffValue, ValueOf, fuelFor, Data.depth]
    rw [deepValueDiff_succ]
    simp [deepValueDiffBody, Data.Type, hard, Data.Kind, Data.IsNil, Data.ptrWord, kindSwitch,
      push, pop, hp, hlen, hloop, scalarDiffs, List.enum]
  · intro d hd
    simp only [scalarDiffs, List.mem_filterMap] at hd
    obtain ⟨ie, _, hie⟩ := hd
    split at hie
    · cases hie
    · cases hie; simp

theorem equal_length_scalar_slices_witness :
    DeepDiff (some (.slice (.basic "int") 4096 (some (8192, [intData 1, intData 2]))))
        (some (.slice (.basic "int") 4120 (some (8208, [intData 1, intData 3]))))
      = .ok [⟨["1"], some (intData 2), some (intData 3)⟩] :=
  (equal_length_scalar_slices (.basic "int") 4096 4120 8192 8208 [intData 1, intData 2]
    [intData 1, intData 3] (by decide) rfl (by decide) (by decide)).1

/-! ### `sort.Slice` -/

theorem insertBack_eq_orderedInsert {α : Type} (less : α → α → Bool) (x : α) (l : List α) :
    insertBack less x l = List.orderedInsert (fun a b => less a b = false) x l := by
  induction l with
  | nil => rfl
  | cons y ys ih =>
    simp only [insertBack, List.orderedInsert, ih]
    by_cases h : less x y = true
    · simp [h]
    · simp [h]

theorem sortSlice_eq_insertionSort {α : Type} (less : α → α → Bool) (s : List α) :
    sortSlice less s = (List.insertionSort (fun a b => less a b = false) s.reverse).reverse := by
  unfold sortSlice
  congr 1
  induction s using List.reverseRecOn with
  | nil => rfl
  | append_singleton l a ih =>
    rw [List.foldl_append, List.reverse_append]
    simp only [List.foldl_cons, List.foldl_nil, List.reverse_cons, List.reverse_nil, List.nil_append,
      List.singleton_append, List.insertionSort]
    rw [ih, insertBack_eq_orderedInsert]
    rfl

theorem sortSlice_perm {α : Type} (less : α → α → Bool) (s : List α) :
    (sortSlice less s).Perm s := by
  rw [sortSlice_eq_insertionSort]
  exact (List.reverse_perm _).trans ((List.perm_insertionSort _ _).trans (List.reverse_perm _))

theorem sortSlice_nil {α : Type} (less : α → α → Bool) : sortSlice less [] = [] := rfl

theorem mem_sortSlice {α : Type} (less : α → α → Bool) (s : List α) (x : α) :
    x ∈ sortSlice less s ↔ x ∈ s := (sortSlice_perm less s).mem_iff

/-- The result of `sort.Slice` with a comparison by a string rendering has non-decreasing
renderings. -/
theorem sortSlice_sorted {α : Type} (f : α → String) (s : List α) :
    (sortSlice (fun a b => stringLess (f a) (f b)) s).Pairwise (fun a b => f a ≤ f b) := by
  rw [sortSlice_eq_insertionSort, List.pairwise_reverse]
  have hr : ∀ a b : α, (stringLess (f a) (f b) = false) ↔ f b ≤ f a := by
    intro a b
    simp [stringLess, String.le_iff_toList_le, String.toList]
  haveI : IsTotal α (fun a b => stringLess (f a) (f b) = false) :=
    ⟨fun a b => by simp only [hr]; exact le_total _ _⟩
  haveI : IsTrans α (fun a b => stringLess (f a) (f b) = false) :=
    ⟨fun a b c => by simp only [hr]; exact fun h1 h2 => le_trans h2 h1⟩
  have := List.sorted_insertionSort (fun a b => stringLess (f a) (f b) = false) s.reverse
  exact this.imp (fun {a b} h => (hr a b).1 h)

/-! ### C9: `unionKey` partitions the keys -/

theorem Scalar.eq_symm (a b : Scalar) : Scalar.eq a b = Scalar.eq b a := by
  cases a <;> cases b <;> simp only [Scalar.eq, floatEq]
  · exact Bool.beq_comm
  · exact Bool.beq_comm
  · rename_i x y
    rw [Bool.beq_comm (a := x) (b := y)]
    cases isNaN x <;> cases isNaN y <;> cases (y == x) <;> cases (x % 2 ^ 63 == 0) <;>
      cases (y % 2 ^ 63 == 0) <;> rfl
  · exact Bool.beq_comm

theorem distinctKeys_symm : Symmetric distinctKeys := by
  intro a b h
  unfold distinctKeys at *
  rw [Scalar.eq_symm]; exact h

theorem presentIn_iff (m : List (Scalar × Data)) (k : Scalar) :
    presentIn m k = true ↔ ∃ key ∈ keysOf m, Scalar.eq key k = true := by
  simp [presentIn]

theorem MapIndex_isSome (ro : Flag) (m : List (Scalar × Data)) (k : Scalar) :
    (MapIndex ro m k).data.isSome = presentIn m k := by
  induction m with
  | nil => rfl
  | cons e es ih =>
    simp only [MapIndex, List.find?_cons] at ih ⊢
    by_cases h : Scalar.eq e.1 k = true
    · simp [h, presentIn, keysOf]
    · simp only [h]
      rw [ih]
      simp [presentIn, keysOf, h]

theorem MapIndex_Kind_Invalid (ro : Flag) (m : List (Scalar × Data)) (k : Scalar) :
    ((MapIndex ro m k).Kind == Kind.Invalid) = !presentIn m k := by
  rw [← MapIndex_isSome ro m k]
  unfold Value.Kind
  cases h : (MapIndex ro m k).data with
  | none => simp
  | some d => simpa using Data.Kind_ne_Invalid d

theorem unionKey_fst (keyType : Ty) (m1 m2 : List (Scalar × Data)) :
    (unionKey keyType m1 m2).1 = sortSlice
      (fun a b => stringLess (keyString keyType a) (keyString keyType b))
      ((keysOf m1).filter fun k => !presentIn m2 k) := by
  simp [unionKey, MapIndex_Kind_Invalid, keysOf]

theorem unionKey_snd_fst (keyType : Ty) (m1 m2 : List (Scalar × Data)) :
    (unionKey keyType m1 m2).2.1 = sortSlice
      (fun a b => stringLess (keyString keyType a) (keyString keyType b))
      ((keysOf m1).filter fun k => presentIn m2 k) := by
  simp [unionKey, MapIndex_Kind_Invalid, keysOf]

theorem unionKey_snd_snd (keyType : Ty) (m1 m2 : List (Scalar × Data)) :
    (unionKey keyType m1 m2).2.2 = sortSlice
      (fun a b => stringLess (keyString keyType a) (keyString keyType b))
      ((keysOf m2).filter fun k => !presentIn m1 k) := by
  simp [unionKey, MapIndex_Kind_Invalid, keysOf]

/-- C9: for two mappings whose keys are pairwise different (no two keys of one map are
`==`), `unionKey` returns the keys of `m1` absent from `m2`, the keys of `m1` present in
`m2` and the keys of `m2` absent from `m1`, each exactly as often as the map holds it;
no key occurs twice, the three sequences are pairwise disjoint, and together they cover
the keys of both maps. -/
theorem unionKey_partition (keyType : Ty) (m1 m2 : List (Scalar × Data))
    (h1 : (keysOf m1).Pairwise distinctKeys) (h2 : (keysOf m2).Pairwise distinctKeys) :
    ((unionKey keyType m1 m2).1.Perm ((keysOf m1).filter fun k => !presentIn m2 k)
      ∧ (unionKey keyType m1 m2).2.1.Perm ((keysOf m1).filter fun k => presentIn m2 k)
      ∧ (unionKey keyType m1 m2).2.2.Perm ((keysOf m2).filter fun k => !presentIn m1 k))
    ∧ ((unionKey keyType m1 m2).1.Pairwise distinctKeys
      ∧ (unionKey keyType m1 m2).2.1.Pairwise distinctKeys
      ∧ (unionKey keyType m1 m2).2.2.Pairwise distinctKeys)
    ∧ ((∀ a ∈ (unionKey keyType m1 m2).1, ∀ b ∈ (unionKey keyType m1 m2).2.1, distinctKeys a b)
      ∧ (∀ a ∈ (unionKey keyType m1 m2).1, ∀ b ∈ (unionKey keyType m1 m2).2.2, distinctKeys a b)
      ∧ (∀ a ∈ (unionKey keyType m1 m2).2.1, ∀ b ∈ (unionKey keyType m1 m2).2.2,
          distinctKeys a b))
    ∧ ((∀ k ∈ keysOf m1, k ∈ (unionKey keyType m1 m2).1 ∨ k ∈ (unionKey keyType m1 m2).2.1)
      ∧ (∀ k ∈ keysOf m2, k ∈ (unionKey keyType m1 m2).2.2
          ∨ ∃ key ∈ (unionKey keyType m1 m2).2.1, Scalar.eq key k = true)) := by
  rw [unionKey_fst, unionKey_snd_fst, unionKey_snd_snd]
  have pw : ∀ (l : List Scalar) (q : Scalar → Bool) (less : Scalar → Scalar → Bool),
      l.Pairwise distinctKeys → (sortSlice less (l.filter q)).Pairwise distinctKeys := by
    intro l q less hl
    exact ((sortSlice_perm less _).pairwise_iff (fun {a b} h => distinctKeys_symm h)).2
      (hl.sublist (List.filter_sublist l))
  refine ⟨⟨sortSlice_perm _ _, sortSlice_perm _ _, sortSlice_perm _ _⟩,
    ⟨pw _ _ _ h1, pw _ _ _ h1, pw _ _ _ h2⟩, ⟨?_, ?_, ?_⟩, ⟨?_, ?_⟩⟩
  · intro a ha b hb
    simp only [mem_sortSlice, List.mem_filter, Bool.not_eq_true_eq_eq_false] at ha hb
    have hne : a ≠ b := by
      intro h; rw [h, hb.2] at ha; exact Bool.noConfusion ha.2
    exact h1.forall distinctKeys_symm ha.1 hb.1 hne
  · intro a ha b hb
    simp only [mem_sortSlice, List.mem_filter, Bool.not_eq_true_eq_eq_false] at ha hb
    have hp : ¬ presentIn m2 a = true := by simp [ha.2]
    rw [presentIn_iff] at hp
    have : ¬ Scalar.eq b a = true := fun h => hp ⟨b, hb.1, h⟩
    unfold distinctKeys
    rw [Scalar.eq_symm]
    simpa using this
  · intro a ha b hb
    simp only [mem_sortSlice, List.mem_filter, Bool.not_eq_true_eq_eq_false] at ha hb
    have hp : ¬ presentIn m1 b = true := by simp [hb.2]
    rw [presentIn_iff] at hp
    have : ¬ Scalar.eq a b = true := fun h => hp ⟨a, ha.1, h⟩
    unfold distinctKeys
    simpa using this
  · intro k hk
    simp only [mem_sortSlice, List.mem_filter, Bool.not_eq_true_eq_eq_false]
    cases h : presentIn m2 k
    · exact Or.inl ⟨hk, rfl⟩
    · exact Or.inr ⟨hk, rfl⟩
  · intro k hk
    simp only [mem_sortSlice, List.mem_filter, Bool.not_eq_true_eq_eq_false]
    cases h : presentIn m1 k
    · exact Or.inl ⟨hk, rfl⟩
    · right
      obtain ⟨key, hkey, he⟩ := (presentIn_iff m1 k).1 h
      refine ⟨key, ⟨hkey, ?_⟩, he⟩
      exact (presentIn_iff m2 key).2 ⟨k, hk, by rw [Scalar.eq_symm]; exact he⟩

theorem unionKey_partition_witness :
    (keysOf entriesAB).Pairwise distinctKeys ∧ (keysOf entriesCB).Pairwise distinctKeys
      ∧ unionKey (.basic "string") entriesAB entriesCB = ([.str "a"], [.str "b"], [.str "c"])
      ∧ (unionKey (.basic "string") entriesAB entriesCB).1.Perm
          ((keysOf entriesAB).filter fun k => !presentIn entriesCB k) :=
  ⟨by simp [keysOf, entriesAB, distinctKeys, Scalar.eq],
   by simp [keysOf, entriesCB, distinctKeys, Scalar.eq],
   rfl,
   (unionKey_partition (.basic "string") entriesAB entriesCB
      (by simp [keysOf, entriesAB, distinctKeys, Scalar.eq])
      (by simp [keysOf, entriesCB, distinctKeys, Scalar.eq])).1.1⟩

/-! ### C10: the order of the keys when the keys are not strings -/

/-- C10, the code at the failing input: for the map `map[int]int(1: 10, 2: 20)` compared
with an empty map, every key renders as `<int Value>`, so `sort.Slice` leaves the keys in
iteration order: two iteration orders of the same map give different key sequences and
different results of `DeepDiff`. -/
theorem unionKey_follows_iteration_order :
    intEntries12.Perm intEntries21
      ∧ unionKey (.basic "int") intEntries12 [] = ([.int 1, .int 2], [], [])
      ∧ unionKey (.basic "int") intEntries21 [] = ([.int 2, .int 1], [], [])
      ∧ DeepDiff (some (intMap 4096 8192 intEntries12)) (some (intMap 4104 8448 []))
          = .ok [⟨["<int Value>"], some (intData 10), none⟩,
                 ⟨["<int Value>"], some (intData 20), none⟩]
      ∧ DeepDiff (some (intMap 4096 8192 intEntries21)) (some (intMap 4104 8448 []))
          = .ok [⟨["<int Value>"], some (intData 20), none⟩,
                 ⟨["<int Value>"], some (intData 10), none⟩] :=
  ⟨List.Perm.swap _ _ _, rfl, rfl, rfl, rfl⟩

/-! ### Comparisons with one side absent, and the loops over keys -/

theorem push_stack (info : String) (s : valueDiff) : (push info s).stack = pushed info s.stack := by
  unfold push pushed; split <;> rfl

theorem pop_push (info : String) (V : List visit) (D : List Diff) (s : valueDiff) :
    pop info ⟨V, D, (push info s).stack⟩ = ⟨V, D, s.stack⟩ := by
  obtain ⟨V0, D0, S0⟩ := s
  exact push_pop_stack info V0 V D0 D S0

/-- A valid value against the zero `Value`: one Diff at the path extended by `info`. -/
theorem deepValueDiff_zero_right (n : Nat) (v1 : Value) (h : v1.data.isSome = true)
    (info : String) (s : valueDiff) :
    deepValueDiff (n + 1) v1 Value.zero info s
      = .ok (true, ⟨s.visited, s.diffs ++ [⟨pushed info s.stack, payload v1, none⟩], s.stack⟩) := by
  obtain ⟨d1, ro⟩ := v1
  cases d1 with
  | none => simp at h
  | some d =>
    rw [deepValueDiff_succ]
    simp only [deepValueDiffBody, Value.zero, Value.IsValid, Option.isSome, Bool.not_false,
      Bool.true_eq_false, if_true, saveDiff, cloneStrings, push_stack, push_visited, push_diffs]
    have := pop_push info s.visited (s.diffs ++ [⟨pushed info s.stack, payload ⟨some d, ro⟩, none⟩]) s
    rw [push_stack] at this
    simpa [payload, Value.Kind] using this

/-- The zero `Value` against a valid value: one Diff at the path extended by `info`. -/
theorem deepValueDiff_zero_left (n : Nat) (v2 : Value) (h : v2.data.isSome = true)
    (info : String) (s : valueDiff) :
    deepValueDiff (n + 1) Value.zero v2 info s
      = .ok (true, ⟨s.visited, s.diffs ++ [⟨pushed info s.stack, none, payload v2⟩], s.stack⟩) := by
  obtain ⟨d2, ro⟩ := v2
  cases d2 with
  | none => simp at h
  | some d =>
    rw [deepValueDiff_succ]
    simp only [deepValueDiffBody, Value.zero, Value.IsValid, Option.isSome, Bool.not_false,
      Bool.true_eq_false, if_true, saveDiff, cloneStrings, push_stack, push_visited, push_diffs]
    have := pop_push info s.visited (s.diffs ++ [⟨pushed info s.stack, none, payload ⟨some d, ro⟩⟩]) s
    rw [push_stack] at this
    simpa [payload, Value.Kind] using this

/-- The loop over the keys present on the left only. -/
theorem keyLoop_left_only (n : Nat) (keyType : Ty) (get1 : Scalar → Value) :
    ∀ (keys : List Scalar) (s : valueDiff), (∀ k ∈ keys, (get1 k).data.isSome = true) →
    keyLoop (deepValueDiff (n + 1)) keyType get1 (fun _ => Value.zero) keys s
      = .ok ⟨s.visited, s.diffs ++ keys.map (fun k =>
          ⟨pushed (keyString keyType k) s.stack, payload (get1 k), none⟩), s.stack⟩ := by
  intro keys
  induction keys with
  | nil => intro s _; simp [keyLoop]
  | cons k ks ih =>
    intro s h
    simp only [keyLoop, deepValueDiff_zero_right n (get1 k) (h k (List.mem_cons_self _ _))]
    rw [ih _ (fun k hk => h k (List.mem_cons_of_mem _ hk))]
    simp

/-- The loop over the keys present on the right only. -/
theorem keyLoop_right_only (n : Nat) (keyType : Ty) (get2 : Scalar → Value) :
    ∀ (keys : List Scalar) (s : valueDiff), (∀ k ∈ keys, (get2 k).data.isSome = true) →
    keyLoop (deepValueDiff (n + 1)) keyType (fun _ => Value.zero) get2 keys s
      = .ok ⟨s.visited, s.diffs ++ keys.map (fun k =>
          ⟨pushed (keyString keyType k) s.stack, none, payload (get2 k)⟩), s.stack⟩ := by
  intro keys
  induction keys with
  | nil => intro s _; simp [keyLoop]
  | cons k ks ih =>
    intro s h
    simp only [keyLoop, deepValueDiff_zero_left n (get2 k) (h k (List.mem_cons_self _ _))]
    rw [ih _ (fun k hk => h k (List.mem_cons_of_mem _ hk))]
    simp

/-- The loop over common keys whose two values are structurally equal scalars records
nothing. -/
theorem keyLoop_equal_scalars (n : Nat) (keyType : Ty) (get1 get2 : Scalar → Value) :
    ∀ (keys : List Scalar) (s : valueDiff),
    (∀ k ∈ keys, ∃ t1 p1 t2 p2, get1 k = ⟨some (.scalar t1 p1), .zero⟩
      ∧ get2 k = ⟨some (.scalar t2 p2), .zero⟩
      ∧ DeepEqual (some (.scalar t1 p1)) (some (.scalar t2 p2)) = true) →
    keyLoop (deepValueDiff (n + 1)) keyType get1 get2 keys s = .ok s := by
  intro keys
  induction keys with
  | nil => intro s _; simp [keyLoop]
  | cons k ks ih =>
    intro s h
    obtain ⟨t1, p1, t2, p2, h1, h2, he⟩ := h k (List.mem_cons_self _ _)
    simp only [keyLoop, h1, h2, deepValueDiff_scalars, he, if_true]
    exact ih _ (fun k hk => h k (List.mem_cons_of_mem _ hk))

/-! ### C6: a mapping compared with an extension of itself -/

theorem Scalar.eq_str_right (key : Scalar) (s : String) :
    Scalar.eq key (.str s) = true ↔ key = .str s := by
  cases key <;> simp [Scalar.eq]

theorem presentIn_str (m : List (Scalar × Data)) (s : String) :
    presentIn m (.str s) = true ↔ Scalar.str s ∈ keysOf m := by
  rw [presentIn_iff]
  constructor
  · rintro ⟨key, hk, he⟩
    rw [Scalar.eq_str_right] at he
    exact he ▸ hk
  · intro h
    exact ⟨_, h, (Scalar.eq_str_right _ _).2 rfl⟩

/-- In a map with pairwise different keys, the lookup of a string key returns the value
stored with it. -/
theorem MapIndex_of_mem (ro : Flag) (s : String) (w : Data) :
    ∀ (m : List (Scalar × Data)), (keysOf m).Nodup → (Scalar.str s, w) ∈ m →
    MapIndex ro m (.str s) = ⟨some w, ro⟩ := by
  intro m
  induction m with
  | nil => intro _ h; cases h
  | cons e es ih =>
    intro hn hm
    simp only [keysOf, List.map_cons, List.nodup_cons] at hn
    by_cases he : Scalar.eq e.1 (.str s) = true
    · have hk := (Scalar.eq_str_right _ _).1 he
      rcases List.mem_cons.1 hm with h | h
      · subst h
        simp only [MapIndex, List.find?_cons, he]
      · exfalso
        apply hn.1
        rw [hk]
        exact List.mem_map.2 ⟨_, h, rfl⟩
    · rcases List.mem_cons.1 hm with h | h
      · exfalso; apply he; rw [← h]; exact (Scalar.eq_str_right _ _).2 rfl
      · have := ih hn.2 h
        simp only [MapIndex, List.find?_cons, he] at this ⊢
        exact this

theorem DeepEqual_symm_scalar (t1 t2 : String) (p1 p2 : Scalar) :
    DeepEqual (some (.scalar t1 p1)) (some (.scalar t2 p2))
      = DeepEqual (some (.scalar t2 p2)) (some (.scalar t1 p1)) := by
  simp only [DeepEqual]
  rw [Scalar.eq_symm p1 p2, Bool.beq_comm]

theorem keyString_str (kname s : String) : keyString (.basic kname) (.str s) = s := rfl

/-- C6, counterexample: the nil map has no key, so each of its keys is in the empty
non-nil map, and no key of the latter is absent from it; `DeepDiff` reports one Diff with
the empty path. -/
theorem key_asymmetry_fails_nil_against_empty :
    DeepDiff (some nilMap) (some emptyMap) = .ok [⟨[], some nilMap, some emptyMap⟩]
      ∧ DeepDiff (some nilMap) (some emptyMap) ≠ .ok [] := by
  have h : DeepDiff (some nilMap) (some emptyMap)
      = .ok [⟨[], some nilMap, some emptyMap⟩] := rfl
  refine ⟨h, ?_⟩
  rw [h]
  intro hc
  injection hc with hc
  cases hc

/-- The comparison of two non-nil maps with different storage, at the root: the three loops
over the keys returned by `unionKey`, started with the pair of maps recorded as visited. -/
theorem DeepDiff_distinct_maps (keyType elem : Ty) (a1 a2 p1 p2 : Nat)
    (m1 m2 : List (Scalar × Data)) (hp : p1 ≠ p2) :
    DeepDiff (some (.map keyType elem a1 (some (p1, m1))))
        (some (.map keyType elem a2 (some (p2, m2))))
      = match keyLoop (deepValueDiff (depthEntries m1 + 1)) keyType (MapIndex .zero m1)
            (fun _ => Value.zero) (unionKey keyType m1 m2).1
            ⟨[⟨min a1 a2, max a1 a2, Ty.map keyType elem⟩], [], []⟩ with
        | .error e => .error e
        | .ok v =>
          match keyLoop (deepValueDiff (depthEntries m1 + 1)) keyType (fun _ => Value.zero)
              (MapIndex .zero m2) (unionKey keyType m1 m2).2.2 v with
          | .error e => .error e
          | .ok v =>
            match keyLoop (deepValueDiff (depthEntries m1 + 1)) keyType (MapIndex .zero m1)
                (MapIndex .zero m2) (unionKey keyType m1 m2).2.1 v with
            | .error e => .error e
            | .ok v => .ok v.diffs := by
  simp only [DeepDiff, DeepDiffValue, ValueOf, fuelFor, Data.depth]
  rw [deepValueDiff_succ]
  simp only [deepValueDiffBody, Data.Type, bne_self_eq_false, Bool.false_eq_true, if_false, hard,
    Data.Kind, Data.IsNil, Option.isNone, Bool.not_false, Bool.and_self, Bool.true_and,
    Data.ptrWord, push, List.not_mem_nil, decide_False, if_true, kindSwitch, beq_iff_eq, hp,
    Flag.join_self, Flag.ro_zero, Flag.join_zero_zero]
  cases keyLoop (deepValueDiff (depthEntries m1 + 1)) keyType (MapIndex .zero m1)
      (fun _ => Value.zero) (unionKey keyType m1 m2).1
      ⟨[⟨min a1 a2, max a1 a2, Ty.map keyType elem⟩], [], []⟩ with
  | error e => rfl
  | ok v =>
    dsimp only
    cases keyLoop (deepValueDiff (depthEntries m1 + 1)) keyType (fun _ => Value.zero)
        (MapIndex .zero m2) (unionKey keyType m1 m2).2.2 v with
    | error e => rfl
    | ok v =>
      dsimp only
      cases keyLoop (deepValueDiff (depthEntries m1 + 1)) keyType (MapIndex .zero m1)
          (MapIndex .zero m2) (unionKey keyType m1 m2).2.1 v with
      | error e => rfl
      | ok v => simp [pop]

theorem mem_keysOf {m : List (Scalar × Data)} {k : Scalar} :
    k ∈ keysOf m ↔ ∃ w, (k, w) ∈ m := by
  simp only [keysOf, List.mem_map]
  constructor
  · rintro ⟨e, he, rfl⟩; exact ⟨e.2, he⟩
  · rintro ⟨w, hw⟩; exact ⟨_, hw, rfl⟩

/-- C6, amended: for every two non-nil mappings `m1`, `m2` of one type with distinct
storage, non-empty string keys (pairwise different within each map) such that every key
of `m1` is in `m2` with a structurally equal scalar value, there is one strictly ascending
list `ks` of exactly the keys of `m2` absent from `m1` such that `DeepDiff(m1, m2)` is the
list over `ks` of the Diffs with path `[k]`, left nil and right `m2[k]`, and
`DeepDiff(m2, m1)` is the same list with left `m2[k]` and right nil. -/
theorem mapping_key_asymmetry (kname : String) (elem : Ty) (a1 a2 p1 p2 : Nat)
    (m1 m2 : List (Scalar × Data)) (hp : p1 ≠ p2)
    (hk1 : ∀ k ∈ keysOf m1, ∃ s, k = Scalar.str s ∧ s ≠ "")
    (hk2 : ∀ k ∈ keysOf m2, ∃ s, k = Scalar.str s ∧ s ≠ "")
    (hn1 : (keysOf m1).Nodup) (hn2 : (keysOf m2).Nodup)
    (hsub : ∀ e ∈ m1, e.2.isScalar = true
      ∧ ∃ w, (e.1, w) ∈ m2 ∧ DeepEqual (some e.2) (some w) = true) :
    ∃ ks : List String, ks.Pairwise (· < ·)
      ∧ (∀ k, k ∈ ks ↔ (Scalar.str k ∈ keysOf m2 ∧ Scalar.str k ∉ keysOf m1))
      ∧ DeepDiff (some (.map (.basic kname) elem a1 (some (p1, m1))))
          (some (.map (.basic kname) elem a2 (some (p2, m2))))
        = .ok (ks.map fun k => ⟨[k], none, payload (MapIndex .zero m2 (.str k))⟩)
      ∧ DeepDiff (some (.map (.basic kname) elem a2 (some (p2, m2))))
          (some (.map (.basic kname) elem a1 (some (p1, m1))))
        = .ok (ks.map fun k => ⟨[k], payload (MapIndex .zero m2 (.str k)), none⟩) := by
  -- every key of `m1` is present in `m2`
  have hall : ∀ k ∈ keysOf m1, presentIn m2 k = true := by
    intro k hk
    obtain ⟨w, hw⟩ := mem_keysOf.1 hk
    obtain ⟨_, w2, hw2, _⟩ := hsub _ hw
    obtain ⟨s, rfl, _⟩ := hk1 k hk
    exact (presentIn_str m2 s).2 (mem_keysOf.2 ⟨w2, hw2⟩)
  have hL : (keysOf m1).filter (fun k => !presentIn m2 k) = [] := by
    rw [List.filter_eq_nil_iff]
    intro k hk
    simp [hall k hk]
  -- the values at a common key
  have hcommon : ∀ s, Scalar.str s ∈ keysOf m1 → ∃ t1 q1 t2 q2,
      MapIndex .zero m1 (.str s) = ⟨some (.scalar t1 q1), .zero⟩
      ∧ MapIndex .zero m2 (.str s) = ⟨some (.scalar t2 q2), .zero⟩
      ∧ DeepEqual (some (.scalar t1 q1)) (some (.scalar t2 q2)) = true := by
    intro s hs
    obtain ⟨w, hw⟩ := mem_keysOf.1 hs
    obtain ⟨hsc, w2, hw2, heq⟩ := hsub _ hw
    cases w with
    | scalar t1 q1 =>
      cases w2 with
      | scalar t2 q2 =>
        exact ⟨t1, q1, t2, q2, MapIndex_of_mem .zero s _ m1 hn1 hw,
          MapIndex_of_mem .zero s _ m2 hn2 hw2, heq⟩
      | _ => simp [DeepEqual] at heq
    | _ => simp [Data.isScalar] at hsc
  -- the keys of `m2` absent from `m1`, sorted
  let less := fun (a b : Scalar) =>
    stringLess (keyString (.basic kname) a) (keyString (.basic kname) b)
  let R := sortSlice less ((keysOf m2).filter fun k => !presentIn m1 k)
  have hR : ∀ k ∈ R, k ∈ keysOf m2 ∧ presentIn m1 k = false := by
    intro k hk
    simpa [R, mem_sortSlice, List.mem_filter] using hk
  have hRstr : ∀ k ∈ R, ∃ s, k = Scalar.str s ∧ s ≠ "" := fun k hk => hk2 k (hR k hk).1
  have hRsome : ∀ k ∈ R, (MapIndex .zero m2 k).data.isSome = true := by
    intro k hk
    rw [MapIndex_isSome]
    obtain ⟨s, rfl, _⟩ := hRstr k hk
    exact (presentIn_str m2 s).2 (hR _ hk).1
  refine ⟨R.map (keyString (.basic kname)), ?_, ?_, ?_, ?_⟩
  · -- strictly ascending
    have hsorted := sortSlice_sorted (keyString (.basic kname))
      ((keysOf m2).filter fun k => !presentIn m1 k)
    have hnodup : R.Nodup :=
      (sortSlice_perm less _).nodup_iff.2 (hn2.filter _)
    have hnd : (R.map (keyString (.basic kname))).Nodup := by
      refine List.Nodup.map_on ?_ hnodup
      intro x hx y hy hxy
      obtain ⟨sx, rfl, _⟩ := hRstr x hx
      obtain ⟨sy, rfl, _⟩ := hRstr y hy
      simp only [keyString_str] at hxy
      rw [hxy]
    have hle : (R.map (keyString (.basic kname))).Pairwise (· ≤ ·) :=
      List.pairwise_map.2 hsorted
    exact (hle.and hnd).imp (fun {a b} h => lt_of_le_of_ne h.1 h.2)
  · intro k
    simp only [List.mem_map]
    constructor
    · rintro ⟨key, hkey, rfl⟩
      obtain ⟨s, rfl, _⟩ := hRstr key hkey
      have := hR _ hkey
      refine ⟨this.1, ?_⟩
      intro hc
      rw [(presentIn_str m1 s).2 hc] at this
      exact Bool.noConfusion this.2
    · rintro ⟨h2, h1⟩
      refine ⟨.str k, ?_, rfl⟩
      simp only [R, mem_sortSlice, List.mem_filter, Bool.not_eq_true_eq_eq_false]
      refine ⟨h2, ?_⟩
      cases hpr : presentIn m1 (.str k)
      · rfl
      · exact absurd ((presentIn_str m1 k).1 hpr) h1
  · rw [DeepDiff_distinct_maps _ _ _ _ _ _ _ _ hp, unionKey_fst, unionKey_snd_fst,
      unionKey_snd_snd, hL, sortSlice_nil]
    simp only [keyLoop]
    rw [keyLoop_right_only _ _ _ _ _ hRsome]
    dsimp only
    rw [keyLoop_equal_scalars]
    · simp only [List.nil_append, List.map_map]
      congr 1
      apply List.map_congr_left
      intro k hk
      obtain ⟨s, rfl, hs⟩ := hRstr k hk
      simp [keyString_str, pushed, hs]
    · intro k hk
      simp only [mem_sortSlice, List.mem_filter] at hk
      obtain ⟨s, rfl, _⟩ := hk1 k hk.1
      exact hcommon s hk.1
  · rw [DeepDiff_distinct_maps _ _ _ _ _ _ _ _ (Ne.symm hp), unionKey_fst, unionKey_snd_fst,
      unionKey_snd_snd, hL, sortSlice_nil]
    rw [keyLoop_left_only _ _ _ _ _ hRsome]
    simp only [keyLoop]
    rw [keyLoop_equal_scalars]
    · simp only [List.nil_append, List.map_map]
      congr 1
      apply List.map_congr_left
      intro k hk
      obtain ⟨s, rfl, hs⟩ := hRstr k hk
      simp [keyString_str, pushed, hs]
    · intro k hk
      simp only [mem_sortSlice, List.mem_filter] at hk
      obtain ⟨s, rfl, _⟩ := hk2 k hk.1
      obtain ⟨t1, q1, t2, q2, h1, h2, he⟩ := hcommon s ((presentIn_str m1 s).1 hk.2)
      exact ⟨t2, q2, t1, q1, h2, h1, by rw [DeepEqual_symm_scalar]; exact he⟩

theorem mapping_key_asymmetry_witness :
    (DeepDiff (some (stringMap 4096 8192 entriesA)) (some (stringMap 4104 8448 entriesBA))
        = .ok [⟨["b"], none, some (stringData "y")⟩]
      ∧ DeepDiff (some (stringMap 4104 8448 entriesBA)) (some (stringMap 4096 8192 entriesA))
        = .ok [⟨["b"], some (stringData "y"), none⟩])
    ∧ ∃ ks : List String, ks.Pairwise (· < ·)
      ∧ (∀ k, k ∈ ks ↔ (Scalar.str k ∈ keysOf entriesBA ∧ Scalar.str k ∉ keysOf entriesA))
      ∧ DeepDiff (some (stringMap 4096 8192 entriesA)) (some (stringMap 4104 8448 entriesBA))
        = .ok (ks.map fun k => ⟨[k], none, payload (MapIndex .zero entriesBA (.str k))⟩)
      ∧ DeepDiff (some (stringMap 4104 8448 entriesBA)) (some (stringMap 4096 8192 entriesA))
        = .ok (ks.map fun k => ⟨[k], payload (MapIndex .zero entriesBA (.str k)), none⟩) :=
  ⟨⟨rfl, rfl⟩,
   mapping_key_asymmetry "string" (.basic "string") 4096 4104 8192 8448 entriesA entriesBA
    (by decide)
    (by simp [keysOf, entriesA])
    (by simp [keysOf, entriesBA])
    (by simp [keysOf, entriesA])
    (by simp [keysOf, entriesBA])
    (by
      intro e he
      simp only [entriesA, List.mem_singleton] at he
      subst he
      exact ⟨rfl, stringData "z", by simp [entriesBA], rfl⟩)⟩

/-! ### C8: path accumulation -/

theorem sim_push {P : List String} {W : List Nat} {s s2 : valueDiff} (info : String)
    (h : Sim P W s s2) : Sim P W (push info s) (push info s2) := by
  obtain ⟨hv, hs, hd⟩ := h
  unfold push
  by_cases hi : (info != "") = true
  · simp only [hi, if_true]
    exact ⟨hv, by simp [hs], hd⟩
  · simp only [hi]
    exact ⟨hv, hs, hd⟩

theorem sim_saveDiff {P : List String} {W : List Nat} {s s2 : valueDiff} (v1 v2 : Value)
    (h : Sim P W s s2) : Sim P W (saveDiff s v1 v2) (saveDiff s2 v1 v2) := by
  obtain ⟨hv, hs, hd⟩ := h
  exact ⟨hv, hs, by simp [saveDiff, hd, hs, addPrefix, cloneStrings]⟩

theorem sim_pop {P : List String} {W : List Nat} (info : String) {s t t2 : valueDiff}
    (h : Sim P W t t2) (hs : t.stack = (push info s).stack) :
    Sim P W (pop info t) (pop info t2) ∧ (pop info t).stack = s.stack := by
  obtain ⟨hv, hst, hd⟩ := h
  rw [push_stack] at hs
  unfold pop
  unfold pushed at hs
  by_cases hi : (info != "") = true
  · simp only [hi, if_true] at hs ⊢
    refine ⟨⟨hv, ?_, hd⟩, by simp [hs]⟩
    simp only [hst, hs]
    rw [← List.append_assoc, List.dropLast_concat, List.dropLast_concat]
  · simp only [hi] at hs ⊢
    exact ⟨⟨hv, hst, hd⟩, hs⟩

theorem sim_insert {P : List String} {W : List Nat} {s s2 : valueDiff} (key : visit)
    (h : Sim P W s s2) :
    Sim P W ⟨key :: s.visited, s.diffs, s.stack⟩ ⟨key :: s2.visited, s2.diffs, s2.stack⟩ := by
  obtain ⟨hv, hs, hd⟩ := h
  refine ⟨?_, hs, hd⟩
  intro k h1 h2
  simp [hv k h1 h2]

theorem sim_indexLoop (P : List String) (W : List Nat) (rec : Rec) (ro1 ro2 : Flag) :
    ∀ (es1 es2 : List Data) (i : Nat) (s s2 : valueDiff),
    (∀ a ∈ es1, ∀ b ∈ es2, ∀ info s s2, Sim P W s s2 →
      SimResult P W s (rec ⟨some a, ro1⟩ ⟨some b, ro2⟩ info s)
        (rec ⟨some a, ro1⟩ ⟨some b, ro2⟩ info s2)) →
    Sim P W s s2 →
    SimLoop P W s (indexLoop rec ro1 ro2 es1 es2 i s) (indexLoop rec ro1 ro2 es1 es2 i s2) := by
  intro es1
  induction es1 with
  | nil => intro es2 i s s2 _ h; exact ⟨h, rfl⟩
  | cons a as ih =>
    intro es2 i s s2 hrec h
    cases es2 with
    | nil => simp [indexLoop, SimLoop]
    | cons b bs =>
      have hr := hrec a (List.mem_cons_self _ _) b (List.mem_cons_self _ _) (FormatInt i) s s2 h
      simp only [indexLoop]
      cases h1 : rec ⟨some a, ro1⟩ ⟨some b, ro2⟩ (FormatInt i) s with
      | error e =>
        cases h2 : rec ⟨some a, ro1⟩ ⟨some b, ro2⟩ (FormatInt i) s2 with
        | error e2 => simpa [SimResult, SimLoop, h1, h2] using hr
        | ok r2 => simp [SimResult, h1, h2] at hr
      | ok r =>
        cases h2 : rec ⟨some a, ro1⟩ ⟨some b, ro2⟩ (FormatInt i) s2 with
        | error e2 => simp [SimResult, h1, h2] at hr
        | ok r2 =>
          simp only [SimResult, h1, h2] at hr
          have := ih bs (i + 1) r.2 r2.2
            (fun a ha b hb => hrec a (List.mem_cons_of_mem _ ha) b (List.mem_cons_of_mem _ hb))
            hr.2.1
          revert this
          dsimp only
          cases indexLoop rec ro1 ro2 as bs (i + 1) r.2 <;>
            cases indexLoop rec ro1 ro2 as bs (i + 1) r2.2 <;>
            simp only [SimLoop, imp_self, and_imp]
          intro hsim hst
          exact ⟨hsim, hst.trans hr.2.2⟩

/-- A similar pair of results followed by a continuation that preserves similarity. -/
theorem sim_bind {P : List String} {W : List Nat} {s : valueDiff}
    {r r2 : Except Err (Bool × valueDiff)}
    (k : valueDiff → Except Err valueDiff)
    (hk : ∀ t t2, Sim P W t t2 → t.stack = s.stack → SimLoop P W t (k t) (k t2)) :
    SimResult P W s r r2 →
    SimLoop P W s
      (match r with
        | .ok x => k x.2
        | .error e => .error e)
      (match r2 with
        | .ok x => k x.2
        | .error e => .error e) := by
  intro hr
  cases r with
  | error e =>
    cases r2 with
    | error e2 => simpa [SimResult, SimLoop] using hr
    | ok x2 => simp [SimResult] at hr
  | ok x =>
    cases r2 with
    | error e2 => simp [SimResult] at hr
    | ok x2 =>
      simp only [SimResult] at hr
      have := hk x.2 x2.2 hr.2.1 hr.2.2
      revert this
      dsimp only
      cases k x.2 <;> cases k x2.2 <;> simp only [SimLoop, imp_self, and_imp]
      intro hsim hst
      exact ⟨hsim, hst.trans hr.2.2⟩

theorem sim_fieldLoop (P : List String) (W : List Nat) (rec : Rec) (ro1 ro2 : Flag) :
    ∀ (fs1 fs2 : List (String × Flag × Data)) (s s2 : valueDiff),
    (∀ f1 ∈ fs1, ∀ f2 ∈ fs2, ∀ info s s2, Sim P W s s2 →
      SimResult P W s (rec ⟨some f1.2.2, Flag.field ro1 f1.2.1⟩ ⟨some f2.2.2, Flag.field ro2 f2.2.1⟩ info s)
        (rec ⟨some f1.2.2, Flag.field ro1 f1.2.1⟩ ⟨some f2.2.2, Flag.field ro2 f2.2.1⟩ info s2)) →
    Sim P W s s2 →
    SimLoop P W s (fieldLoop rec ro1 ro2 fs1 fs2 s) (fieldLoop rec ro1 ro2 fs1 fs2 s2) := by
  intro fs1
  induction fs1 with
  | nil => intro fs2 s s2 _ h; exact ⟨h, rfl⟩
  | cons a as ih =>
    intro fs2 s s2 hrec h
    cases fs2 with
    | nil => simp [fieldLoop, SimLoop]
    | cons b bs =>
      simp only [fieldLoop]
      exact sim_bind (fun t => fieldLoop rec ro1 ro2 as bs t)
        (fun t t2 ht _ => ih bs t t2
          (fun a ha b hb => hrec a (List.mem_cons_of_mem _ ha) b (List.mem_cons_of_mem _ hb)) ht)
        (hrec a (List.mem_cons_self _ _) b (List.mem_cons_self _ _) a.1 s s2 h)

theorem sim_keyLoop (P : List String) (W : List Nat) (rec : Rec) (keyType : Ty)
    (get1 get2 : Scalar → Value) :
    ∀ (keys : List Scalar) (s s2 : valueDiff),
    (∀ k ∈ keys, ∀ info s s2, Sim P W s s2 →
      SimResult P W s (rec (get1 k) (get2 k) info s) (rec (get1 k) (get2 k) info s2)) →
    Sim P W s s2 →
    SimLoop P W s (keyLoop rec keyType get1 get2 keys s)
      (keyLoop rec keyType get1 get2 keys s2) := by
  intro keys
  induction keys with
  | nil => intro s s2 _ h; exact ⟨h, rfl⟩
  | cons k ks ih =>
    intro s s2 hrec h
    simp only [keyLoop]
    exact sim_bind (fun t => keyLoop rec keyType get1 get2 ks t)
      (fun t t2 ht _ => ih t t2 (fun k hk => hrec k (List.mem_cons_of_mem _ hk)) ht)
      (hrec k (List.mem_cons_self _ _) _ s s2 h)

/-- A similar pair of loop results, returned as explained. -/
theorem sim_loop_true {P : List String} {W : List Nat} {s : valueDiff}
    {r r2 : Except Err valueDiff} :
    SimLoop P W s r r2 →
    SimResult P W s
      (match r with
        | .ok v => .ok (true, v)
        | .error e => .error e)
      (match r2 with
        | .ok v => .ok (true, v)
        | .error e => .error e) := by
  cases r <;> cases r2 <;> simp only [SimLoop, SimResult, imp_self, true_and]

/-- A similar pair of results of a recursive call, returned as explained. -/
theorem sim_call_true {P : List String} {W : List Nat} {s : valueDiff}
    {r r2 : Except Err (Bool × valueDiff)} :
    SimResult P W s r r2 →
    SimResult P W s
      (match r with
        | .ok x => .ok (true, x.2)
        | .error e => .error e)
      (match r2 with
        | .ok x => .ok (true, x.2)
        | .error e => .error e) := by
  cases r <;> cases r2 <;> simp only [SimResult, imp_self, true_and]
  exact fun h => h.2

/-- The default branch does not touch the state. -/
theorem defaultCase_state (v1 v2 : Value) :
    (∃ b, ∀ s, defaultCase v1 v2 s = .ok (b, s)) ∨ (∃ e, ∀ s, defaultCase v1 v2 s = .error e) := by
  unfold defaultCase
  by_cases h : (v1.CanInterface && v1.CanInterface) = true
  · simp only [h, if_true]
    cases v1.Interface with
    | error e => exact Or.inr ⟨e, fun _ => rfl⟩
    | ok a =>
      cases v2.Interface with
      | error e => exact Or.inr ⟨e, fun _ => rfl⟩
      | ok b => exact Or.inl ⟨_, fun _ => rfl⟩
  · simp only [h]
    exact Or.inl ⟨false, fun _ => rfl⟩

theorem sim_defaultCase {P : List String} {W : List Nat} {s s2 : valueDiff} (v1 v2 : Value)
    (h : Sim P W s s2) : SimResult P W s (defaultCase v1 v2 s) (defaultCase v1 v2 s2) := by
  rcases defaultCase_state v1 v2 with ⟨b, hb⟩ | ⟨e, he⟩
  · rw [hb, hb]; exact ⟨rfl, h, rfl⟩
  · rw [he, he]; rfl

theorem sim_return {P : List String} {W : List Nat} {s s2 : valueDiff} (b : Bool)
    (h : Sim P W s s2) : SimResult P W s (.ok (b, s)) (.ok (b, s2)) := ⟨rfl, h, rfl⟩

theorem words_of_mem_list {e : Data} {es : List Data} (h : e ∈ es) :
    ∀ w ∈ e.words, w ∈ wordsList es := by
  induction es with
  | nil => cases h
  | cons a as ih =>
    intro w hw
    simp only [wordsList, List.mem_append]
    rcases List.mem_cons.1 h with rfl | h
    · exact Or.inl hw
    · exact Or.inr (ih h w hw)

theorem words_of_mem_fields {f : String × Flag × Data} {fs : List (String × Flag × Data)}
    (h : f ∈ fs) : ∀ w ∈ f.2.2.words, w ∈ wordsFields fs := by
  induction fs with
  | nil => cases h
  | cons a as ih =>
    obtain ⟨n, ex, d⟩ := a
    intro w hw
    simp only [wordsFields, List.mem_append]
    rcases List.mem_cons.1 h with rfl | h
    · exact Or.inl hw
    · exact Or.inr (ih h w hw)

theorem words_of_mem_entries {e : Scalar × Data} {es : List (Scalar × Data)} (h : e ∈ es) :
    ∀ w ∈ e.2.words, w ∈ wordsEntries es := by
  induction es with
  | nil => cases h
  | cons a as ih =>
    obtain ⟨k, d⟩ := a
    intro w hw
    simp only [wordsEntries, List.mem_append]
    rcases List.mem_cons.1 h with rfl | h
    · exact Or.inl hw
    · exact Or.inr (ih h w hw)

/-- The value a lookup returns is the value of an entry of the map. -/
theorem MapIndex_mem (ro : Flag) (m : List (Scalar × Data)) (k : Scalar) :
    MapIndex ro m k = Value.zero ∨ ∃ e ∈ m, MapIndex ro m k = ⟨some e.2, ro⟩ := by
  unfold MapIndex
  cases h : m.find? (fun e => Scalar.eq e.1 k) with
  | none => exact Or.inl rfl
  | some e => exact Or.inr ⟨e, List.mem_of_find?_eq_some h, rfl⟩

theorem words_MapIndex (ro : Flag) (m : List (Scalar × Data)) (k : Scalar) :
    ∀ w ∈ (MapIndex ro m k).words, w ∈ wordsEntries m := by
  rcases MapIndex_mem ro m k with h | ⟨e, he, h⟩
  · rw [h]; intro w hw; cases hw
  · rw [h]; exact words_of_mem_entries he

theorem hard_words {d1 d2 : Data} (hT : d1.Type = d2.Type) (h : hard d1 d2 = true) :
    d1.ptrWord ∈ d1.words ∧ d2.ptrWord ∈ d2.words := by
  cases d1 with
  | scalar t p => cases p <;> simp [hard, Data.Kind] at h
  | array t es => simp [hard, Data.Kind] at h
  | struct t fs => simp [hard, Data.Kind] at h
  | ident k t p => cases k <;> simp [hard, Data.Kind] at h
  | slice t a st =>
    cases d2 <;> simp [Data.Type] at hT
    rename_i t2 a2 st2
    cases st <;> cases st2 <;> simp [hard, Data.Kind, Data.IsNil] at h
    simp [Data.ptrWord, Data.words]
  | iface t a st =>
    cases d2 <;> simp [Data.Type] at hT
    rename_i t2 a2 st2
    cases st <;> cases st2 <;> simp [hard, Data.Kind, Data.IsNil] at h
    simp [Data.ptrWord, Data.words]
  | ptr t a st =>
    cases d2 <;> simp [Data.Type] at hT
    rename_i t2 a2 st2
    cases st <;> cases st2 <;> simp [hard, Data.Kind, Data.IsNil] at h
    simp [Data.ptrWord, Data.words]
  | map kt t a st =>
    cases d2 <;> simp [Data.Type] at hT
    rename_i kt2 t2 a2 st2
    cases st <;> cases st2 <;> simp [hard, Data.Kind, Data.IsNil] at h
    simp [Data.ptrWord, Data.words]

/-- A similar pair of loop results followed by a continuation that preserves similarity. -/
theorem sim_loop_bind {P : List String} {W : List Nat} {s : valueDiff}
    {r r2 : Except Err valueDiff} (k : valueDiff → Except Err (Bool × valueDiff))
    (hk : ∀ t t2, Sim P W t t2 → t.stack = s.stack → SimResult P W t (k t) (k t2)) :
    SimLoop P W s r r2 →
    SimResult P W s
      (match r with
        | .error e => .error e
        | .ok v => k v)
      (match r2 with
        | .error e => .error e
        | .ok v => k v) := by
  intro hr
  cases r with
  | error e =>
    cases r2 with
    | error e2 => simpa [SimResult, SimLoop] using hr
    | ok x2 => simp [SimLoop] at hr
  | ok x =>
    cases r2 with
    | error e2 => simp [SimLoop] at hr
    | ok x2 =>
      simp only [SimLoop] at hr
      have := hk x x2 hr.1 hr.2
      revert this
      dsimp only
      cases k x <;> cases k x2 <;> simp only [SimResult, imp_self, and_imp]
      intro hf hsim hst
      exact ⟨hf, hsim, hst.trans hr.2⟩

/-- The switch preserves similarity when the recursive calls do. -/
theorem sim_kindSwitch (P : List String) (W : List Nat) (rec : Rec)
    (hrec : ∀ v1 v2 info s s2, (∀ w ∈ v1.words, w ∈ W) → (∀ w ∈ v2.words, w ∈ W) →
      Sim P W s s2 → SimResult P W s (rec v1 v2 info s) (rec v1 v2 info s2))
    (ro1 ro2 : Flag) (d1 d2 : Data) (s s2 : valueDiff)
    (h1 : ∀ w ∈ d1.words, w ∈ W) (h2 : ∀ w ∈ d2.words, w ∈ W) (h : Sim P W s s2) :
    SimResult P W s (kindSwitch rec ro1 ro2 d1 d2 s) (kindSwitch rec ro1 ro2 d1 d2 s2) := by
  cases d1 with
  | scalar t1 q1 =>
    cases d2 <;> first | exact rfl | exact sim_defaultCase _ _ h
  | array t1 es1 =>
    cases d2 <;> first | exact rfl | skip
    rename_i t2 es2
    simp only [Data.words] at h1 h2
    exact sim_loop_true (sim_indexLoop P W rec ro1.ro ro2.ro es1 es2 0 s s2
      (fun a ha b hb info s s2 hs => hrec _ _ info s s2
        (fun w hw => h1 w (words_of_mem_list ha w hw))
        (fun w hw => h2 w (words_of_mem_list hb w hw)) hs) h)
  | slice t1 a1 st1 =>
    cases d2 <;> first | exact rfl | skip
    rename_i t2 a2 st2
    cases st1 with
    | none => exact sim_return _ h
    | some x1 =>
      cases st2 with
      | none => exact sim_return _ h
      | some x2 =>
        obtain ⟨p1, es1⟩ := x1
        obtain ⟨p2, es2⟩ := x2
        simp only [Data.words, List.mem_cons] at h1 h2
        simp only [kindSwitch]
        by_cases hp : (p1 == p2) = true
        · simp only [hp, if_true]; exact sim_return _ h
        · simp only [hp]
          by_cases hl : (es1.length != es2.length) = true
          · simp only [hl, if_true]; exact sim_return _ h
          · simp only [hl]
            exact sim_loop_true (sim_indexLoop P W rec ro1.ro ro2.ro es1 es2 0 s s2
              (fun a ha b hb info s s2 hs => hrec _ _ info s s2
                (fun w hw => h1 w (Or.inr (words_of_mem_list ha w hw)))
                (fun w hw => h2 w (Or.inr (words_of_mem_list hb w hw))) hs) h)
  | iface t1 a1 st1 =>
    cases d2 <;> first | exact rfl | skip
    rename_i t2 a2 st2
    cases st1 with
    | none => exact sim_return _ h
    | some e1 =>
      cases st2 with
      | none => exact sim_return _ h
      | some e2 =>
        simp only [Data.words, List.mem_cons] at h1 h2
        exact sim_call_true (hrec ⟨some e1, ro1.ro⟩ ⟨some e2, ro2.ro⟩ "" s s2
          (fun w hw => h1 w (Or.inr hw)) (fun w hw => h2 w (Or.inr hw)) h)
  | ptr t1 a1 st1 =>
    cases d2 <;> first | exact rfl | skip
    rename_i t2 a2 st2
    cases st1 with
    | none => exact sim_return _ h
    | some x1 =>
      cases st2 with
      | none => exact sim_return _ h
      | some x2 =>
        obtain ⟨p1, e1⟩ := x1
        obtain ⟨p2, e2⟩ := x2
        simp only [Data.words, List.mem_cons] at h1 h2
        simp only [kindSwitch]
        by_cases hp : (p1 == p2) = true
        · simp only [hp, if_true]; exact sim_return _ h
        · simp only [hp]
          exact sim_call_true (hrec ⟨some e1, ro1⟩ ⟨some e2, ro2⟩ "" s s2
            (fun w hw => h1 w (Or.inr hw)) (fun w hw => h2 w (Or.inr hw)) h)
  | struct t1 fs1 =>
    cases d2 <;> first | exact rfl | skip
    rename_i t2 fs2
    simp only [Data.words] at h1 h2
    exact sim_loop_true (sim_fieldLoop P W rec ro1 ro2 fs1 fs2 s s2
      (fun a ha b hb info s s2 hs => hrec _ _ info s s2
        (fun w hw => h1 w (words_of_mem_fields ha w hw))
        (fun w hw => h2 w (words_of_mem_fields hb w hw)) hs) h)
  | map kt1 t1 a1 st1 =>
    cases d2 <;> first | exact rfl | skip
    rename_i kt2 t2 a2 st2
    cases st1 with
    | none => exact sim_return _ h
    | some x1 =>
      cases st2 with
      | none => exact sim_return _ h
      | some x2 =>
        obtain ⟨p1, m1⟩ := x1
        obtain ⟨p2, m2⟩ := x2
        simp only [Data.words, List.mem_cons] at h1 h2
        have hz : ∀ w ∈ Value.zero.words, w ∈ W := fun w hw => by cases hw
        have hw1 : ∀ k, ∀ w ∈ (MapIndex ro1.ro m1 k).words, w ∈ W :=
          fun k w hw => h1 w (Or.inr (words_MapIndex ro1.ro m1 k w hw))
        have hw2 : ∀ k, ∀ w ∈ (MapIndex ro2.ro m2 k).words, w ∈ W :=
          fun k w hw => h2 w (Or.inr (words_MapIndex ro2.ro m2 k w hw))
        simp only [kindSwitch]
        by_cases hp : (p1 == p2) = true
        · simp only [hp, if_true]; exact sim_return _ h
        · simp only [hp]
          refine sim_loop_bind _ ?_ (sim_keyLoop P W rec kt1 _ _ _ s s2
            (fun k _ info s s2 hs => hrec _ _ info s s2 (hw1 k) hz hs) h)
          intro t t2 ht _
          refine sim_loop_bind _ ?_ (sim_keyLoop P W rec kt1 _ _ _ t t2
            (fun k _ info s s2 hs => hrec _ _ info s s2 hz (hw2 k) hs) ht)
          intro u u2 hu _
          refine sim_loop_bind _ ?_ (sim_keyLoop P W rec kt1 _ _ _ u u2
            (fun k _ info s s2 hs => hrec _ _ info s s2 (hw1 k)
              (fun w hw => h2 w (Or.inr (words_MapIndex (Flag.join ro2 ro1) m2 k w hw))) hs) hu)
          intro x x2 hx _
          exact sim_return _ hx
  | ident k1 t1 q1 =>
    cases d2 <;> first | exact rfl | skip
    rename_i k2 t2 q2
    simp only [kindSwitch]
    by_cases hz : (q1 == 0 || q2 == 0) = true
    · simp only [hz, if_true]; exact sim_return _ h
    · simp only [hz]
      by_cases hp : (q1 == q2) = true
      · simp only [hp, if_true]; exact sim_return _ h
      · simp only [hp]; exact sim_defaultCase _ _ h

/-- The body preserves similarity when the recursive calls do. -/
theorem sim_body (P : List String) (W : List Nat) (rec : Rec)
    (hrec : ∀ v1 v2 info s s2, (∀ w ∈ v1.words, w ∈ W) → (∀ w ∈ v2.words, w ∈ W) →
      Sim P W s s2 → SimResult P W s (rec v1 v2 info s) (rec v1 v2 info s2))
    (v1 v2 : Value) (s s2 : valueDiff)
    (h1 : ∀ w ∈ v1.words, w ∈ W) (h2 : ∀ w ∈ v2.words, w ∈ W) (h : Sim P W s s2) :
    SimResult P W s (deepValueDiffBody rec v1 v2 s) (deepValueDiffBody rec v1 v2 s2) := by
  obtain ⟨x1, ro1⟩ := v1
  obtain ⟨x2, ro2⟩ := v2
  cases x1 with
  | none => exact sim_return _ h
  | some d1 =>
    cases x2 with
    | none => exact sim_return _ h
    | some d2 =>
      by_cases hT : d1.Type = d2.Type
      · rw [deepValueDiffBody_same_type _ _ _ _ _ _ hT, deepValueDiffBody_same_type _ _ _ _ _ _ hT]
        simp only [Value.words] at h1 h2
        by_cases hh : hard d1 d2 = true
        · have hw := hard_words hT hh
          have hk1 : min d1.ptrWord d2.ptrWord ∈ W := by
            rcases min_choice d1.ptrWord d2.ptrWord with e | e <;> rw [e]
            · exact h1 _ hw.1
            · exact h2 _ hw.2
          have hk2 : max d1.ptrWord d2.ptrWord ∈ W := by
            rcases max_choice d1.ptrWord d2.ptrWord with e | e <;> rw [e]
            · exact h1 _ hw.1
            · exact h2 _ hw.2
          have hag := h.visited ⟨min d1.ptrWord d2.ptrWord, max d1.ptrWord d2.ptrWord, d1.Type⟩
            hk1 hk2
          by_cases hv : (⟨min d1.ptrWord d2.ptrWord, max d1.ptrWord d2.ptrWord, d1.Type⟩ : visit)
              ∈ s.visited
          · have hv2 := hag.1 hv
            simp only [hh, hv, hv2, decide_True, Bool.and_self, if_true]
            exact sim_return _ h
          · have hv2 : ¬ _ := fun c => hv (hag.2 c)
            simp only [hh, hv, hv2, decide_False, Bool.and_false, Bool.false_eq_true, if_false,
              if_true]
            have := sim_kindSwitch P W rec hrec ro1 ro2 d1 d2 _ _ h1 h2 (sim_insert
              ⟨min d1.ptrWord d2.ptrWord, max d1.ptrWord d2.ptrWord, d1.Type⟩ h)
            revert this
            cases kindSwitch rec ro1 ro2 d1 d2 _ <;> cases kindSwitch rec ro1 ro2 d1 d2 _ <;>
              simp only [SimResult, imp_self]
        · simp only [hh, Bool.false_and, Bool.false_eq_true, if_false]
          exact sim_kindSwitch P W rec hrec ro1 ro2 d1 d2 s s2 h1 h2 h
      · simp only [deepValueDiffBody, bne_iff_ne, ne_eq, hT, not_false_eq_true, if_true]
        exact sim_return _ h

/-- Two runs of `deepValueDiff` on the same pair, started in similar states, end in
similar states with the same flag, or fail alike. -/
theorem sim_deepValueDiff (P : List String) (W : List Nat) :
    ∀ (fuel : Nat) (v1 v2 : Value) (info : String) (s s2 : valueDiff),
    (∀ w ∈ v1.words, w ∈ W) → (∀ w ∈ v2.words, w ∈ W) → Sim P W s s2 →
    SimResult P W s (deepValueDiff fuel v1 v2 info s) (deepValueDiff fuel v1 v2 info s2) := by
  intro fuel
  induction fuel with
  | zero => intro v1 v2 info s s2 _ _ _; rfl
  | succ n ih =>
    intro v1 v2 info s s2 h1 h2 h
    have hb := sim_body P W (deepValueDiff n) ih v1 v2 _ _ h1 h2 (sim_push info h)
    rw [deepValueDiff_succ, deepValueDiff_succ]
    revert hb
    cases deepValueDiffBody (deepValueDiff n) v1 v2 (push info s) with
    | error e =>
      cases deepValueDiffBody (deepValueDiff n) v1 v2 (push info s2) with
      | error e2 => exact fun hb => hb
      | ok r2 => exact fun hb => hb
    | ok r =>
      cases deepValueDiffBody (deepValueDiff n) v1 v2 (push info s2) with
      | error e2 => exact fun hb => hb
      | ok r2 =>
        intro hb
        simp only [SimResult] at hb ⊢
        obtain ⟨hf, hsim, hst⟩ := hb
        rw [← hf]
        cases hr : r.1
        · simp only [Bool.not_false, if_true]
          have := sim_pop info (s := s) (sim_saveDiff v1 v2 hsim) (by simpa [saveDiff] using hst)
          exact ⟨trivial, this.1, this.2⟩
        · simp only [Bool.not_true, Bool.false_eq_true, if_false]
          have := sim_pop info (s := s) hsim hst
          exact ⟨trivial, this.1, this.2⟩

/-- Two boxed values below a fresh pair of handles: the comparison of the contents, run
below the segment `info` with the pair recorded. -/
theorem deepValueDiff_boxed (n : Nat) (t : String) (B1 B2 : Nat) (a b : Option Data)
    (info : String) (hinfo : info ≠ "") (s : valueDiff)
    (hfresh : (⟨min B1 B2, max B1 B2, Ty.iface t⟩ : visit) ∉ s.visited) :
    deepValueDiff (n + 1) ⟨some (.iface t B1 a), .zero⟩ ⟨some (.iface t B2 b), .zero⟩ info s
      = match a, b with
        | some da, some db =>
          match deepValueDiff n ⟨some da, .zero⟩ ⟨some db, .zero⟩ ""
              ⟨⟨min B1 B2, max B1 B2, Ty.iface t⟩ :: s.visited, s.diffs, s.stack ++ [info]⟩ with
          | .ok r => .ok (true, ⟨r.2.visited, r.2.diffs, r.2.stack.dropLast⟩)
          | .error e => .error e
        | none, none => .ok (true, s)
        | _, _ => .ok (true, ⟨s.visited, s.diffs ++ [⟨s.stack ++ [info], a, b⟩], s.stack⟩) := by
  obtain ⟨V, D, S⟩ := s
  rw [deepValueDiff_succ, deepValueDiffBody_same_type (deepValueDiff n) (.iface t B1 a)
    (.iface t B2 b) .zero .zero _ rfl]
  cases a with
  | none =>
    cases b with
    | none => simp [hard, Data.Kind, Data.IsNil, kindSwitch, push, pop, hinfo]
    | some db =>
      simp [hard, Data.Kind, Data.IsNil, kindSwitch, push, pop, hinfo, saveDiff, cloneStrings,
        payload, Value.Kind, Value.CanInterface, Value.boxed]
  | some da =>
    cases b with
    | none =>
      simp [hard, Data.Kind, Data.IsNil, kindSwitch, push, pop, hinfo, saveDiff, cloneStrings,
        payload, Value.Kind, Value.CanInterface, Value.boxed]
    | some db =>
      simp only [push_visited] at *
      simp only [hard, Data.Kind, Data.IsNil, Option.isNone, Bool.not_false, Bool.and_self,
        Data.ptrWord, Data.Type, hfresh, decide_False, Bool.and_false, Bool.false_eq_true,
        if_false, if_true, kindSwitch, push, bne_iff_ne, ne_eq, hinfo, not_false_eq_true,
        Flag.ro_zero]
      cases deepValueDiff n ⟨some da, .zero⟩ ⟨some db, .zero⟩ ""
          ⟨⟨min B1 B2, max B1 B2, Ty.iface t⟩ :: V, D, S ++ [info]⟩ with
      | error e => rfl
      | ok r => simp [pop, hinfo]

/-- Two boxed values `a`, `b` compared below a non-empty segment, from a state without
Diffs whose visited keys are foreign to `a` and `b`, give the Diffs of `DeepDiff(a, b)`
with the segment in front. -/
theorem boxed_matches_root (t : String) (B1 B2 : Nat) (a b : Option Data) (k : String)
    (hk : k ≠ "") (V : List visit)
    (ha : ∀ d, a = some d → d.Kind ≠ Kind.Interface)
    (hb : ∀ d, b = some d → d.Kind ≠ Kind.Interface)
    (hV : ∀ key ∈ V, ¬ (key.a1 ∈ (ValueOf a).words ++ (ValueOf b).words
      ∧ key.a2 ∈ (ValueOf a).words ++ (ValueOf b).words))
    (hKV : (⟨min B1 B2, max B1 B2, Ty.iface t⟩ : visit) ∉ V)
    (hB : B1 ∉ (ValueOf a).words ++ (ValueOf b).words) :
    (deepValueDiff ((Data.iface t B1 a).depth + 1) ⟨some (.iface t B1 a), .zero⟩
        ⟨some (.iface t B2 b), .zero⟩ k ⟨V, [], []⟩).map (fun x => x.2.diffs)
      = (DeepDiff a b).map (List.map (addPrefix [k])) := by
  rw [deepValueDiff_boxed _ t B1 B2 a b k hk _ hKV]
  cases a with
  | none =>
    cases b with
    | none => rfl
    | some db =>
      have := payload_ValueOf db (hb db rfl)
      have hz : payload ⟨none, .zero⟩ = none := rfl
      simp [DeepDiff, DeepDiffValue, ValueOf, fuelFor, deepValueDiff, deepValueDiffBody,
        Value.IsValid, push, pop, saveDiff, cloneStrings, this, hz, Except.map, addPrefix]
  | some da =>
    cases b with
    | none =>
      have := payload_ValueOf da (ha da rfl)
      have hz : payload ⟨none, .zero⟩ = none := rfl
      simp [DeepDiff, DeepDiffValue, ValueOf, fuelFor, deepValueDiff, deepValueDiffBody,
        Value.IsValid, push, pop, saveDiff, cloneStrings, this, hz, Except.map, addPrefix]
    | some db =>
      have hsim : Sim [k] ((ValueOf (some da)).words ++ (ValueOf (some db)).words)
          ⟨[], [], []⟩ ⟨⟨min B1 B2, max B1 B2, Ty.iface t⟩ :: V, [], [] ++ [k]⟩ := by
        refine ⟨?_, rfl, rfl⟩
        intro key h1 h2
        simp only [List.not_mem_nil, List.mem_cons, false_iff, not_or]
        constructor
        · rintro rfl
          apply hB
          rcases min_choice B1 B2 with e | e
          · rw [e] at h1; exact h1
          · rcases max_choice B1 B2 with e2 | e2
            · rw [e2] at h2; exact h2
            · have : B1 = B2 := by
                have h3 : min B1 B2 = B2 := e
                have h4 : max B1 B2 = B2 := e2
                omega
              rw [e, ← this] at h1; exact h1
        · exact fun hc => hV key hc ⟨h1, h2⟩
      have := sim_deepValueDiff [k] ((ValueOf (some da)).words ++ (ValueOf (some db)).words)
        (da.depth + 1) ⟨some da, .zero⟩ ⟨some db, .zero⟩ "" _ _
        (fun w hw => List.mem_append_left _ hw) (fun w hw => List.mem_append_right _ hw) hsim
      simp only [DeepDiff, DeepDiffValue, ValueOf, fuelFor, Data.depth]
      revert this
      cases deepValueDiff (da.depth + 1) ⟨some da, .zero⟩ ⟨some db, .zero⟩ "" ⟨[], [], []⟩ with
      | error e =>
        cases deepValueDiff (da.depth + 1) ⟨some da, .zero⟩ ⟨some db, .zero⟩ ""
            ⟨⟨min B1 B2, max B1 B2, Ty.iface t⟩ :: V, [], [] ++ [k]⟩ with
        | error e2 => intro h; simp only [SimResult] at h; simp [Except.map, h]
        | ok r2 => intro h; simp [SimResult] at h
      | ok r =>
        cases deepValueDiff (da.depth + 1) ⟨some da, .zero⟩ ⟨some db, .zero⟩ ""
            ⟨⟨min B1 B2, max B1 B2, Ty.iface t⟩ :: V, [], [] ++ [k]⟩ with
        | error e2 => intro h; simp [SimResult] at h
        | ok r2 =>
          intro h
          simp only [SimResult] at h
          simp [Except.map, h.2.1.diffs]

theorem unionKey_single (k : String) (x y : Data) :
    unionKey (.basic "string") [(.str k, x)] [(.str k, y)] = ([], [.str k], []) := by
  simp [unionKey, MapIndex, Scalar.eq, Value.Kind, Data.Kind_ne_Invalid, sortSlice, insertBack]

theorem MapIndex_single (ro : Flag) (k : String) (x : Data) :
    MapIndex ro [(.str k, x)] (.str k) = ⟨some x, ro⟩ := by
  simp [MapIndex, Scalar.eq]

theorem not_over_of_fresh {A1 A2 : Nat} {T : Ty} {W : List Nat} (hA : A1 ∉ W) :
    ∀ key ∈ [(⟨min A1 A2, max A1 A2, T⟩ : visit)], ¬ (key.a1 ∈ W ∧ key.a2 ∈ W) := by
  intro key hkey
  simp only [List.mem_singleton] at hkey
  subst hkey
  rintro ⟨h1, h2⟩
  apply hA
  rcases min_choice A1 A2 with e | e
  · rw [e] at h1; exact h1
  · rcases max_choice A1 A2 with e2 | e2
    · rw [e2] at h2; exact h2
    · have : A1 = A2 := by
        have h3 : min A1 A2 = A2 := e
        have h4 : max A1 A2 = A2 := e2
        omega
      rw [e, ← this] at h1; exact h1

/-- C8: for all values `a`, `b` (values an `interface` can hold, or nil) and every
non-empty key `k`, the comparison of two separately built single-entry mappings holding
`a` and `b` under `k` gives the Diffs of `DeepDiff(a, b)` with `k` in front of every path
and the payloads unchanged; the comparison of two separately built one-element sequences
holding `a` and `b` gives them with `"0"` in front.  Separately built: the two containers
have different storage, and the words of their handles occur nowhere in `a` or `b`. -/
theorem path_accumulation (k : String) (hk : k ≠ "") (a b : Option Data)
    (A1 A2 P1 P2 B1 B2 : Nat) (hP : P1 ≠ P2)
    (ha : ∀ d, a = some d → d.Kind ≠ Kind.Interface)
    (hb : ∀ d, b = some d → d.Kind ≠ Kind.Interface)
    (hA : A1 ∉ (ValueOf a).words ++ (ValueOf b).words)
    (hB : B1 ∉ (ValueOf a).words ++ (ValueOf b).words) :
    DeepDiff (some (singleMap k A1 P1 B1 a)) (some (singleMap k A2 P2 B2 b))
        = (DeepDiff a b).map (List.map (addPrefix [k]))
      ∧ DeepDiff (some (singleSeq A1 P1 B1 a)) (some (singleSeq A2 P2 B2 b))
        = (DeepDiff a b).map (List.map (addPrefix ["0"])) := by
  constructor
  · have key := boxed_matches_root "interface {}" B1 B2 a b k hk
      [⟨min A1 A2, max A1 A2, Ty.map (.basic "string") anyTy⟩] ha hb (not_over_of_fresh hA)
      (by simp) hB
    rw [← key]
    simp only [singleMap]
    rw [DeepDiff_distinct_maps _ _ _ _ _ _ _ _ hP, unionKey_single]
    simp only [keyLoop, MapIndex_single, keyString_str, depthEntries, Nat.max_zero]
    cases deepValueDiff ((Data.iface "interface {}" B1 a).depth + 1)
        ⟨some (.iface "interface {}" B1 a), .zero⟩ ⟨some (.iface "interface {}" B2 b), .zero⟩ k
        ⟨[⟨min A1 A2, max A1 A2, Ty.map (.basic "string") anyTy⟩], [], []⟩ with
    | error e => rfl
    | ok r => rfl
  · have key := boxed_matches_root "interface {}" B1 B2 a b "0" (by decide)
      [⟨min A1 A2, max A1 A2, Ty.slice anyTy⟩] ha hb (not_over_of_fresh hA)
      (by simp) hB
    rw [← key]
    simp only [singleSeq, DeepDiff, DeepDiffValue, ValueOf, fuelFor, Data.depth, depthList,
      Nat.max_zero]
    rw [deepValueDiff_succ]
    simp only [deepValueDiffBody, Data.Type, bne_self_eq_false, Bool.false_eq_true, if_false, hard,
      Data.Kind, Data.IsNil, Option.isNone, Bool.not_false, Bool.and_self, Bool.true_and,
      Data.ptrWord, push, List.not_mem_nil, decide_False, if_true, kindSwitch, beq_iff_eq, hP,
      List.length_singleton, indexLoop, Flag.ro_zero]
    have h0 : FormatInt 0 = "0" := rfl
    rw [h0]
    cases deepValueDiff ((Data.iface "interface {}" B1 a).depth + 1)
        ⟨some (.iface "interface {}" B1 a), .zero⟩ ⟨some (.iface "interface {}" B2 b), .zero⟩ "0"
        ⟨[⟨min A1 A2, max A1 A2, Ty.slice anyTy⟩], [], []⟩ with
    | error e => rfl
    | ok r => simp [pop, Except.map]

theorem path_accumulation_witness :
    (DeepDiff (some seq12) (some seq1) = .ok [⟨[], some seq12, some seq1⟩]
      ∧ DeepDiff (some (singleMap "v" 4096 8192 12288 (some seq12)))
          (some (singleMap "v" 4104 8448 12304 (some seq1)))
        = .ok [⟨["v"], some seq12, some seq1⟩])
    ∧ (DeepDiff (some (singleMap "v" 4096 8192 12288 (some seq12)))
          (some (singleMap "v" 4104 8448 12304 (some seq1)))
        = (DeepDiff (some seq12) (some seq1)).map (List.map (addPrefix ["v"]))
      ∧ DeepDiff (some (singleSeq 4096 8192 12288 (some seq12)))
          (some (singleSeq 4104 8448 12304 (some seq1)))
        = (DeepDiff (some seq12) (some seq1)).map (List.map (addPrefix ["0"]))) :=
  ⟨⟨rfl, rfl⟩,
   path_accumulation "v" (by decide) (some seq12) (some seq1) 4096 4104 8192 8448 12288 12304
    (by decide)
    (fun d hd => by cases hd; decide)
    (fun d hd => by cases hd; decide)
    (by decide) (by decide)⟩

/-! ### C7: exchanging the two arguments -/

theorem mirror_push {s s2 : valueDiff} (info : String) (h : Mirror s s2) :
    Mirror (push info s) (push info s2) := by
  obtain ⟨hv, hs, hd⟩ := h
  unfold push
  by_cases hi : (info != "") = true
  · simp only [hi, if_true]
    exact ⟨hv, by simp [hs], hd⟩
  · simp only [hi]
    exact ⟨hv, hs, hd⟩

theorem mirror_saveDiff {s s2 : valueDiff} (v1 v2 : Value) (h : Mirror s s2) :
    Mirror (saveDiff s v1 v2) (saveDiff s2 v2 v1) := by
  obtain ⟨hv, hs, hd⟩ := h
  refine ⟨hv, hs, ?_⟩
  simp only [saveDiff, hs, List.map_append, List.map_cons, List.map_nil, swapDiff, cloneStrings]
  exact hd.append_right _

theorem mirror_pop (info : String) {s t t2 : valueDiff} (h : Mirror t t2)
    (hs : t.stack = (push info s).stack) :
    Mirror (pop info t) (pop info t2) ∧ (pop info t).stack = s.stack := by
  obtain ⟨hv, hst, hd⟩ := h
  rw [push_stack] at hs
  unfold pop
  unfold pushed at hs
  by_cases hi : (info != "") = true
  · simp only [hi, if_true] at hs ⊢
    exact ⟨⟨hv, by simp [hst], hd⟩, by simp [hs]⟩
  · simp only [hi] at hs ⊢
    exact ⟨⟨hv, hst, hd⟩, hs⟩

theorem mirror_insert {s s2 : valueDiff} (key : visit) (h : Mirror s s2) :
    Mirror ⟨key :: s.visited, s.diffs, s.stack⟩ ⟨key :: s2.visited, s2.diffs, s2.stack⟩ := by
  obtain ⟨hv, hs, hd⟩ := h
  exact ⟨by simp [hv], hs, hd⟩

theorem mirror_return {s s2 : valueDiff} (b : Bool) (h : Mirror s s2) :
    MirrorResult s (.ok (b, s)) (.ok (b, s2)) := ⟨b, s, s2, rfl, rfl, h, rfl⟩

theorem mirror_bind {s : valueDiff} {r r2 : Except Err (Bool × valueDiff)}
    (k k2 : valueDiff → Except Err valueDiff)
    (hk : ∀ t t2, Mirror t t2 → t.stack = s.stack → MirrorLoop t (k t) (k2 t2)) :
    MirrorResult s r r2 →
    MirrorLoop s
      (match r with
        | .ok x => k x.2
        | .error e => .error e)
      (match r2 with
        | .ok x => k2 x.2
        | .error e => .error e) := by
  rintro ⟨b, t, t2, rfl, rfl, hm, hst⟩
  obtain ⟨u, u2, h1, h2, hm2, hst2⟩ := hk t t2 hm hst
  exact ⟨u, u2, h1, h2, hm2, hst2.trans hst⟩

theorem mirror_loop_bind {s : valueDiff} {r r2 : Except Err valueDiff}
    (k k2 : valueDiff → Except Err (Bool × valueDiff))
    (hk : ∀ t t2, Mirror t t2 → t.stack = s.stack → MirrorResult t (k t) (k2 t2)) :
    MirrorLoop s r r2 →
    MirrorResult s
      (match r with
        | .error e => .error e
        | .ok v => k v)
      (match r2 with
        | .error e => .error e
        | .ok v => k2 v) := by
  rintro ⟨t, t2, rfl, rfl, hm, hst⟩
  obtain ⟨b, u, u2, h1, h2, hm2, hst2⟩ := hk t t2 hm hst
  exact ⟨b, u, u2, h1, h2, hm2, hst2.trans hst⟩

theorem mirror_loop_true {s : valueDiff} {r r2 : Except Err valueDiff} :
    MirrorLoop s r r2 →
    MirrorResult s
      (match r with
        | .ok v => .ok (true, v)
        | .error e => .error e)
      (match r2 with
        | .ok v => .ok (true, v)
        | .error e => .error e) := by
  rintro ⟨t, t2, rfl, rfl, hm, hst⟩
  exact ⟨true, t, t2, rfl, rfl, hm, hst⟩

theorem mirror_call_true {s : valueDiff} {r r2 : Except Err (Bool × valueDiff)} :
    MirrorResult s r r2 →
    MirrorResult s
      (match r with
        | .ok x => .ok (true, x.2)
        | .error e => .error e)
      (match r2 with
        | .ok x => .ok (true, x.2)
        | .error e => .error e) := by
  rintro ⟨b, t, t2, rfl, rfl, hm, hst⟩
  exact ⟨true, t, t2, rfl, rfl, hm, hst⟩

theorem mirror_indexLoop (rec rec2 : Rec) (ro : Flag) :
    ∀ (es1 es2 : List Data) (i : Nat) (s s2 : valueDiff), es1.length = es2.length →
    (∀ a ∈ es1, ∀ b ∈ es2, ∀ info s s2, Mirror s s2 →
      MirrorResult s (rec ⟨some a, ro⟩ ⟨some b, ro⟩ info s)
        (rec2 ⟨some b, ro⟩ ⟨some a, ro⟩ info s2)) →
    Mirror s s2 →
    MirrorLoop s (indexLoop rec ro ro es1 es2 i s) (indexLoop rec2 ro ro es2 es1 i s2) := by
  intro es1
  induction es1 with
  | nil =>
    intro es2 i s s2 hl _ h
    cases es2 with
    | nil => exact ⟨s, s2, rfl, rfl, h, rfl⟩
    | cons b bs => simp at hl
  | cons a as ih =>
    intro es2 i s s2 hl hrec h
    cases es2 with
    | nil => simp at hl
    | cons b bs =>
      simp only [indexLoop]
      exact mirror_bind (fun t => indexLoop rec ro ro as bs (i + 1) t)
        (fun t => indexLoop rec2 ro ro bs as (i + 1) t)
        (fun t t2 ht _ => ih bs (i + 1) t t2 (by simpa using hl)
          (fun a ha b hb => hrec a (List.mem_cons_of_mem _ ha) b (List.mem_cons_of_mem _ hb)) ht)
        (hrec a (List.mem_cons_self _ _) b (List.mem_cons_self _ _) _ s s2 h)

theorem mirror_fieldLoop (rec rec2 : Rec) (ro : Flag) :
    ∀ (fs1 fs2 : List (String × Flag × Data)) (s s2 : valueDiff),
    fs1.map (fun f => (f.1, f.2.1)) = fs2.map (fun f => (f.1, f.2.1)) →
    (∀ f1 ∈ fs1, ∀ f2 ∈ fs2, ∀ ro2 info s s2, Mirror s s2 →
      MirrorResult s (rec ⟨some f1.2.2, ro2⟩ ⟨some f2.2.2, ro2⟩ info s)
        (rec2 ⟨some f2.2.2, ro2⟩ ⟨some f1.2.2, ro2⟩ info s2)) →
    Mirror s s2 →
    MirrorLoop s (fieldLoop rec ro ro fs1 fs2 s) (fieldLoop rec2 ro ro fs2 fs1 s2) := by
  intro fs1
  induction fs1 with
  | nil =>
    intro fs2 s s2 hl _ h
    cases fs2 with
    | nil => exact ⟨s, s2, rfl, rfl, h, rfl⟩
    | cons b bs => simp at hl
  | cons a as ih =>
    intro fs2 s s2 hl hrec h
    cases fs2 with
    | nil => simp at hl
    | cons b bs =>
      simp only [List.map_cons, List.cons.injEq, Prod.mk.injEq] at hl
      obtain ⟨⟨hname, hflag⟩, htl⟩ := hl
      simp only [fieldLoop]
      rw [← hname, ← hflag]
      exact mirror_bind (fun t => fieldLoop rec ro ro as bs t)
        (fun t => fieldLoop rec2 ro ro bs as t)
        (fun t t2 ht _ => ih bs t t2 htl
          (fun a ha b hb => hrec a (List.mem_cons_of_mem _ ha) b (List.mem_cons_of_mem _ hb)) ht)
        (hrec a (List.mem_cons_self _ _) b (List.mem_cons_self _ _) _ _ s s2 h)

theorem mirror_keyLoop (rec rec2 : Rec) (keyType : Ty) (get1 get2 : Scalar → Value) :
    ∀ (keys : List Scalar) (s s2 : valueDiff),
    (∀ k ∈ keys, ∀ info s s2, Mirror s s2 →
      MirrorResult s (rec (get1 k) (get2 k) info s) (rec2 (get2 k) (get1 k) info s2)) →
    Mirror s s2 →
    MirrorLoop s (keyLoop rec keyType get1 get2 keys s)
      (keyLoop rec2 keyType get2 get1 keys s2) := by
  intro keys
  induction keys with
  | nil => intro s s2 _ h; exact ⟨s, s2, rfl, rfl, h, rfl⟩
  | cons k ks ih =>
    intro s s2 hrec h
    simp only [keyLoop]
    exact mirror_bind (fun t => keyLoop rec keyType get1 get2 ks t)
      (fun t => keyLoop rec2 keyType get2 get1 ks t)
      (fun t t2 ht _ => ih t t2 (fun k hk => hrec k (List.mem_cons_of_mem _ hk)) ht)
      (hrec k (List.mem_cons_self _ _) _ s s2 h)

theorem DeepEqual_symm (a b : Option Data) : DeepEqual a b = DeepEqual b a := by
  cases a with
  | none =>
    cases b with
    | none => rfl
    | some y => cases y <;> rfl
  | some x =>
    cases b with
    | none => cases x <;> rfl
    | some y =>
      cases x with
      | scalar t1 q1 =>
        cases y <;> first | rfl | exact DeepEqual_symm_scalar _ _ _ _
      | ident k1 t1 q1 =>
        cases y <;> first | rfl | skip
        rename_i k2 t2 q2
        simp only [DeepEqual]
        by_cases hk : k1 = k2
        · subst hk
          rw [Bool.beq_comm (a := t1)]
          cases k1
          · simp [Bool.and_comm]
          · simp [Bool.beq_comm (a := q1) (b := q2)]
          · simp [Bool.beq_comm (a := q1) (b := q2)]
        · have h1 : (k1 == k2) = false := by simpa using hk
          have h2 : (k2 == k1) = false := by simpa using fun h => hk h.symm
          simp [h1, h2]
      | _ => cases y <;> rfl

theorem mirror_defaultCase {s s2 : valueDiff} (d1 d2 : Data) (ro : Flag) (h : Mirror s s2) :
    MirrorResult s (defaultCase ⟨some d1, ro⟩ ⟨some d2, ro⟩ s)
      (defaultCase ⟨some d2, ro⟩ ⟨some d1, ro⟩ s2) := by
  cases ro with
  | embedRO => exact ⟨false, s, s2, rfl, rfl, h, rfl⟩
  | stickyRO => exact ⟨false, s, s2, rfl, rfl, h, rfl⟩
  | zero =>
    refine ⟨DeepEqual (Value.boxed ⟨some d1, .zero⟩) (Value.boxed ⟨some d2, .zero⟩), s, s2,
      rfl, ?_, h, rfl⟩
    rw [DeepEqual_symm]
    rfl

theorem stringKeyed_of_mem_list {e : Data} {es : List Data} (h : e ∈ es)
    (hk : stringKeyedList es = true) : stringKeyed e = true := by
  induction es with
  | nil => cases h
  | cons a as ih =>
    simp only [stringKeyedList, Bool.and_eq_true] at hk
    rcases List.mem_cons.1 h with rfl | h
    · exact hk.1
    · exact ih h hk.2

theorem stringKeyed_of_mem_fields {f : String × Flag × Data} {fs : List (String × Flag × Data)}
    (h : f ∈ fs) (hk : stringKeyedFields fs = true) : stringKeyed f.2.2 = true := by
  induction fs with
  | nil => cases h
  | cons a as ih =>
    obtain ⟨n, ex, d⟩ := a
    simp only [stringKeyedFields, Bool.and_eq_true] at hk
    rcases List.mem_cons.1 h with rfl | h
    · exact hk.1
    · exact ih h hk.2

theorem stringKeyed_of_mem_entries {e : Scalar × Data} {es : List (Scalar × Data)}
    (h : e ∈ es) (hk : stringKeyedEntries es = true) : stringKeyed e.2 = true := by
  induction es with
  | nil => cases h
  | cons a as ih =>
    obtain ⟨n, d⟩ := a
    simp only [stringKeyedEntries, Bool.and_eq_true] at hk
    rcases List.mem_cons.1 h with rfl | h
    · exact hk.1
    · exact ih h hk.2

theorem depth_le_of_mem_entries {e : Scalar × Data} {es : List (Scalar × Data)} (h : e ∈ es) :
    e.2.depth ≤ depthEntries es := by
  induction es with
  | nil => cases h
  | cons a as ih =>
    obtain ⟨n, d⟩ := a
    simp only [depthEntries]
    rcases List.mem_cons.1 h with rfl | h
    · exact Nat.le_max_left _ _
    · exact Nat.le_trans (ih h) (Nat.le_max_right _ _)

theorem MapIndex_flagRO_of_isSome (ro : Flag) (m : List (Scalar × Data)) (k : Scalar)
    (h : (MapIndex ro m k).data.isSome = true) :
    ∃ e ∈ m, MapIndex ro m k = ⟨some e.2, ro⟩ := by
  rcases MapIndex_mem ro m k with hz | he
  · rw [hz] at h; cases h
  · exact he

/-- With pairwise different string keys on both sides, exchanging the two maps exchanges
the first and the last sequence of keys and leaves the common keys as they are. -/
theorem unionKey_swap (kname : String) (m1 m2 : List (Scalar × Data))
    (hs1 : (keysOf m1).all Scalar.isStr = true) (hs2 : (keysOf m2).all Scalar.isStr = true)
    (hn1 : (keysOf m1).Nodup) (hn2 : (keysOf m2).Nodup) :
    unionKey (.basic kname) m2 m1
      = ((unionKey (.basic kname) m1 m2).2.2, (unionKey (.basic kname) m1 m2).2.1,
          (unionKey (.basic kname) m1 m2).1) := by
  have hstr : ∀ (m : List (Scalar × Data)), (keysOf m).all Scalar.isStr = true →
      ∀ k ∈ keysOf m, ∃ s, k = Scalar.str s := by
    intro m hm k hk
    have := (List.all_eq_true.1 hm) k hk
    cases k <;> simp [Scalar.isStr] at this
    exact ⟨_, rfl⟩
  have hmid : (unionKey (.basic kname) m2 m1).2.1 = (unionKey (.basic kname) m1 m2).2.1 := by
    rw [unionKey_snd_fst, unionKey_snd_fst]
    set less := fun (a b : Scalar) =>
      stringLess (keyString (.basic kname) a) (keyString (.basic kname) b)
    set l2 := sortSlice less ((keysOf m2).filter fun k => presentIn m1 k)
    set l1 := sortSlice less ((keysOf m1).filter fun k => presentIn m2 k)
    have hmem2 : ∀ k, k ∈ l2 ↔ k ∈ keysOf m2 ∧ k ∈ keysOf m1 := by
      intro k
      simp only [l2, mem_sortSlice, List.mem_filter]
      constructor
      · rintro ⟨h2, hp⟩
        obtain ⟨s, rfl⟩ := hstr m2 hs2 k h2
        exact ⟨h2, (presentIn_str m1 s).1 hp⟩
      · rintro ⟨h2, h1⟩
        obtain ⟨s, rfl⟩ := hstr m2 hs2 k h2
        exact ⟨h2, (presentIn_str m1 s).2 h1⟩
    have hmem1 : ∀ k, k ∈ l1 ↔ k ∈ keysOf m1 ∧ k ∈ keysOf m2 := by
      intro k
      simp only [l1, mem_sortSlice, List.mem_filter]
      constructor
      · rintro ⟨h1, hp⟩
        obtain ⟨s, rfl⟩ := hstr m1 hs1 k h1
        exact ⟨h1, (presentIn_str m2 s).1 hp⟩
      · rintro ⟨h1, h2⟩
        obtain ⟨s, rfl⟩ := hstr m1 hs1 k h1
        exact ⟨h1, (presentIn_str m2 s).2 h2⟩
    have hnd2 : l2.Nodup := (sortSlice_perm less _).nodup_iff.2 (hn2.filter _)
    have hnd1 : l1.Nodup := (sortSlice_perm less _).nodup_iff.2 (hn1.filter _)
    have hperm : l2.Perm l1 := (List.perm_ext_iff_of_nodup hnd2 hnd1).2 (fun k => by
      rw [hmem2, hmem1]; exact and_comm)
    have hsorted2 : (l2.map (keyString (.basic kname))).Pairwise (· ≤ ·) :=
      List.pairwise_map.2 (sortSlice_sorted (keyString (.basic kname)) _)
    have hsorted1 : (l1.map (keyString (.basic kname))).Pairwise (· ≤ ·) :=
      List.pairwise_map.2 (sortSlice_sorted (keyString (.basic kname)) _)
    have heq : l2.map (keyString (.basic kname)) = l1.map (keyString (.basic kname)) :=
      List.eq_of_perm_of_sorted (hperm.map _) hsorted2 hsorted1
    have hback : ∀ l : List Scalar, (∀ k ∈ l, ∃ s, k = Scalar.str s) →
        (l.map (keyString (.basic kname))).map Scalar.str = l := by
      intro l hl
      rw [List.map_map]
      conv_rhs => rw [← List.map_id l]
      apply List.map_congr_left
      intro k hk
      obtain ⟨s, rfl⟩ := hl k hk
      rfl
    rw [← hback l2 (fun k hk => hstr m2 hs2 k ((hmem2 k).1 hk).1),
      ← hback l1 (fun k hk => hstr m1 hs1 k ((hmem1 k).1 hk).1), heq]
  rw [Prod.ext_iff, Prod.ext_iff]
  refine ⟨?_, hmid, ?_⟩
  · rw [unionKey_fst, unionKey_snd_snd]
  · rw [unionKey_fst, unionKey_snd_snd]

theorem all_isStr {l : List Scalar} (h : l.all Scalar.isStr = true) :
    ∀ k ∈ l, ∃ s, k = Scalar.str s := by
  intro k hk
  have := (List.all_eq_true.1 h) k hk
  cases k <;> simp [Scalar.isStr] at this
  exact ⟨_, rfl⟩

/-- The three loops of the Map case on two maps with pairwise different string keys, and
on the exchanged maps. -/
theorem mirror_maps (n0 m0 : Nat)
    (ih : ∀ (c1 c2 : Value) (info : String) (s s2 : valueDiff), c1.flagRO = c2.flagRO →
      min c1.depth c2.depth < n0 + 1 → min c1.depth c2.depth < m0 + 1 →
      c1.stringKeyed = true → c2.stringKeyed = true → Mirror s s2 →
      MirrorResult s (deepValueDiff (n0 + 1) c1 c2 info s)
        (deepValueDiff (m0 + 1) c2 c1 info s2))
    (ro : Flag) (kname : String) (m1 m2 : List (Scalar × Data))
    (hs1 : (keysOf m1).all Scalar.isStr = true) (hs2 : (keysOf m2).all Scalar.isStr = true)
    (hn1 : (keysOf m1).Nodup) (hn2 : (keysOf m2).Nodup)
    (hk1 : stringKeyedEntries m1 = true) (hk2 : stringKeyedEntries m2 = true)
    (hn : min (depthEntries m1) (depthEntries m2) < n0 + 1)
    (hm : min (depthEntries m1) (depthEntries m2) < m0 + 1)
    (s s2 : valueDiff) (h : Mirror s s2) :
    MirrorResult s
      (match keyLoop (deepValueDiff (n0 + 1)) (.basic kname) (MapIndex ro m1)
          (fun _ => Value.zero) (unionKey (.basic kname) m1 m2).1 s with
        | .error e => .error e
        | .ok v =>
          match keyLoop (deepValueDiff (n0 + 1)) (.basic kname) (fun _ => Value.zero)
              (MapIndex ro m2) (unionKey (.basic kname) m1 m2).2.2 v with
          | .error e => .error e
          | .ok v =>
            match keyLoop (deepValueDiff (n0 + 1)) (.basic kname) (MapIndex ro m1)
                (MapIndex ro m2) (unionKey (.basic kname) m1 m2).2.1 v with
            | .error e => .error e
            | .ok v => .ok (true, v))
      (match keyLoop (deepValueDiff (m0 + 1)) (.basic kname) (MapIndex ro m2)
          (fun _ => Value.zero) (unionKey (.basic kname) m2 m1).1 s2 with
        | .error e => .error e
        | .ok v =>
          match keyLoop (deepValueDiff (m0 + 1)) (.basic kname) (fun _ => Value.zero)
              (MapIndex ro m1) (unionKey (.basic kname) m2 m1).2.2 v with
          | .error e => .error e
          | .ok v =>
            match keyLoop (deepValueDiff (m0 + 1)) (.basic kname) (MapIndex ro m2)
                (MapIndex ro m1) (unionKey (.basic kname) m2 m1).2.1 v with
            | .error e => .error e
            | .ok v => .ok (true, v)) := by
  rw [unionKey_swap kname m1 m2 hs1 hs2 hn1 hn2]
  dsimp only
  have hsome : ∀ (m : List (Scalar × Data)), (keysOf m).all Scalar.isStr = true →
      ∀ k ∈ keysOf m, (MapIndex ro m k).data.isSome = true := by
    intro m hm k hk
    obtain ⟨str, rfl⟩ := all_isStr hm k hk
    rw [MapIndex_isSome]
    exact (presentIn_str m str).2 hk
  have hL : ∀ k ∈ (unionKey (.basic kname) m1 m2).1, (MapIndex ro m1 k).data.isSome = true := by
    intro k hk
    rw [unionKey_fst, mem_sortSlice, List.mem_filter] at hk
    exact hsome m1 hs1 k hk.1
  have hR : ∀ k ∈ (unionKey (.basic kname) m1 m2).2.2,
      (MapIndex ro m2 k).data.isSome = true := by
    intro k hk
    rw [unionKey_snd_snd, mem_sortSlice, List.mem_filter] at hk
    exact hsome m2 hs2 k hk.1
  rw [keyLoop_left_only n0 _ _ _ s hL, keyLoop_left_only m0 _ _ _ s2 hR]
  dsimp only
  rw [keyLoop_right_only n0 _ _ _ _ hR, keyLoop_right_only m0 _ _ _ _ hL]
  dsimp only
  refine mirror_loop_bind _ _ (fun x x2 hx _ => mirror_return true hx)
    (mirror_keyLoop _ _ _ _ _ _ _ _ ?_ ?_)
  · intro k hk info u u2 hu
    rw [unionKey_snd_fst, mem_sortSlice, List.mem_filter] at hk
    obtain ⟨str, rfl⟩ := all_isStr hs1 k hk.1
    have h1 := hsome m1 hs1 _ hk.1
    have h2 : (MapIndex ro m2 (.str str)).data.isSome = true := by
      rw [MapIndex_isSome]; exact hk.2
    obtain ⟨e1, he1, hv1⟩ := MapIndex_flagRO_of_isSome ro m1 _ h1
    obtain ⟨e2, he2, hv2⟩ := MapIndex_flagRO_of_isSome ro m2 _ h2
    rw [hv1, hv2]
    have hd1 := depth_le_of_mem_entries he1
    have hd2 := depth_le_of_mem_entries he2
    exact ih ⟨some e1.2, ro⟩ ⟨some e2.2, ro⟩ info u u2 rfl
      (by simp only [Value.depth]; omega) (by simp only [Value.depth]; omega)
      (stringKeyed_of_mem_entries he1 hk1) (stringKeyed_of_mem_entries he2 hk2) hu
  · obtain ⟨hv, hst, hd⟩ := h
    refine ⟨hv, hst, ?_⟩
    simp only [List.map_append, List.map_map, hst]
    have e1 : (swapDiff ∘ fun k => (⟨pushed (keyString (.basic kname) k) s.stack,
        payload (MapIndex ro m1 k), none⟩ : Diff))
        = fun k => ⟨pushed (keyString (.basic kname) k) s.stack, none,
          payload (MapIndex ro m1 k)⟩ := rfl
    have e2 : (swapDiff ∘ fun k => (⟨pushed (keyString (.basic kname) k) s.stack, none,
        payload (MapIndex ro m2 k)⟩ : Diff))
        = fun k => ⟨pushed (keyString (.basic kname) k) s.stack,
          payload (MapIndex ro m2 k), none⟩ := rfl
    rw [e1, e2, List.append_assoc, List.append_assoc]
    exact hd.append List.perm_append_comm

/-- The switch on a pair and on the exchanged pair, when the recursive calls mirror each
other. -/
theorem mirror_kindSwitch (n m : Nat)
    (ih : ∀ (c1 c2 : Value) (info : String) (s s2 : valueDiff), c1.flagRO = c2.flagRO →
      min c1.depth c2.depth < n → min c1.depth c2.depth < m →
      c1.stringKeyed = true → c2.stringKeyed = true → Mirror s s2 →
      MirrorResult s (deepValueDiff n c1 c2 info s) (deepValueDiff m c2 c1 info s2))
    (ro : Flag) (d1 d2 : Data) (hT : d1.Type = d2.Type)
    (hn : min d1.depth d2.depth ≤ n) (hm : min d1.depth d2.depth ≤ m)
    (hk1 : stringKeyed d1 = true) (hk2 : stringKeyed d2 = true)
    (s s2 : valueDiff) (h : Mirror s s2) :
    MirrorResult s (kindSwitch (deepValueDiff n) ro ro d1 d2 s)
      (kindSwitch (deepValueDiff m) ro ro d2 d1 s2) := by
  cases d1 with
  | scalar t1 q1 =>
    cases d2 <;> try (simp [Data.Type] at hT; done)
    exact mirror_defaultCase _ _ ro h
  | array t1 es1 =>
    cases d2 <;> try (simp [Data.Type] at hT; done)
    rename_i t2 es2
    simp only [Data.Type, Ty.array.injEq] at hT
    simp only [stringKeyed] at hk1 hk2
    simp only [Data.depth] at hn hm
    refine mirror_loop_true (mirror_indexLoop _ _ ro.ro es1 es2 0 s s2 hT.1 ?_ h)
    intro a ha b hb info s s2 hs
    have hda := depth_lt_of_mem_list ha
    have hdb := depth_lt_of_mem_list hb
    exact ih ⟨some a, ro.ro⟩ ⟨some b, ro.ro⟩ info s s2 rfl
      (by simp only [Value.depth]; omega) (by simp only [Value.depth]; omega)
      (stringKeyed_of_mem_list ha hk1) (stringKeyed_of_mem_list hb hk2) hs
  | slice t1 a1 st1 =>
    cases d2 <;> try (simp [Data.Type] at hT; done)
    rename_i t2 a2 st2
    cases st1 with
    | none => cases st2 <;> exact mirror_return _ h
    | some x1 =>
      cases st2 with
      | none => exact mirror_return _ h
      | some x2 =>
        obtain ⟨p1, es1⟩ := x1
        obtain ⟨p2, es2⟩ := x2
        simp only [stringKeyed] at hk1 hk2
        simp only [Data.depth] at hn hm
        simp only [kindSwitch]
        by_cases hp : p1 = p2
        · subst hp
          simp only [beq_self_eq_true, if_true]; exact mirror_return _ h
        · have hp2 : ¬ p2 = p1 := fun c => hp c.symm
          simp only [beq_iff_eq, hp, hp2, if_false]
          by_cases hl : es1.length = es2.length
          · simp only [bne_iff_ne, ne_eq, hl, not_true_eq_false, if_false]
            refine mirror_loop_true (mirror_indexLoop _ _ ro.ro es1 es2 0 s s2 hl ?_ h)
            intro a ha b hb info s s2 hs
            have hda := depth_lt_of_mem_list ha
            have hdb := depth_lt_of_mem_list hb
            exact ih ⟨some a, ro.ro⟩ ⟨some b, ro.ro⟩ info s s2 rfl
              (by simp only [Value.depth]; omega) (by simp only [Value.depth]; omega)
              (stringKeyed_of_mem_list ha hk1) (stringKeyed_of_mem_list hb hk2) hs
          · have hl2 : ¬ es2.length = es1.length := fun c => hl c.symm
            simp only [bne_iff_ne, ne_eq, hl, hl2, not_false_eq_true, if_true]
            exact mirror_return _ h
  | iface t1 a1 st1 =>
    cases d2 <;> try (simp [Data.Type] at hT; done)
    rename_i t2 a2 st2
    cases st1 with
    | none => cases st2 <;> exact mirror_return _ h
    | some e1 =>
      cases st2 with
      | none => exact mirror_return _ h
      | some e2 =>
        simp only [stringKeyed] at hk1 hk2
        simp only [Data.depth] at hn hm
        exact mirror_call_true (ih ⟨some e1, ro.ro⟩ ⟨some e2, ro.ro⟩ "" s s2 rfl
          (by simp only [Value.depth]; omega) (by simp only [Value.depth]; omega) hk1 hk2 h)
  | ptr t1 a1 st1 =>
    cases d2 <;> try (simp [Data.Type] at hT; done)
    rename_i t2 a2 st2
    cases st1 with
    | none => cases st2 <;> exact mirror_return _ h
    | some x1 =>
      cases st2 with
      | none => exact mirror_return _ h
      | some x2 =>
        obtain ⟨p1, e1⟩ := x1
        obtain ⟨p2, e2⟩ := x2
        simp only [stringKeyed] at hk1 hk2
        simp only [Data.depth] at hn hm
        simp only [kindSwitch]
        by_cases hp : p1 = p2
        · subst hp
          simp only [beq_self_eq_true, if_true]; exact mirror_return _ h
        · have hp2 : ¬ p2 = p1 := fun c => hp c.symm
          simp only [beq_iff_eq, hp, hp2, if_false]
          exact mirror_call_true (ih ⟨some e1, ro⟩ ⟨some e2, ro⟩ "" s s2 rfl
            (by simp only [Value.depth]; omega) (by simp only [Value.depth]; omega) hk1 hk2 h)
  | struct t1 fs1 =>
    cases d2 <;> try (simp [Data.Type] at hT; done)
    rename_i t2 fs2
    simp only [Data.Type, Ty.struct.injEq] at hT
    simp only [stringKeyed] at hk1 hk2
    simp only [Data.depth] at hn hm
    refine mirror_loop_true (mirror_fieldLoop _ _ ro fs1 fs2 s s2 hT.2 ?_ h)
    intro f1 hf1 f2 hf2 ro2 info s s2 hs
    have hda := depth_le_of_mem_fields hf1
    have hdb := depth_le_of_mem_fields hf2
    exact ih ⟨some f1.2.2, ro2⟩ ⟨some f2.2.2, ro2⟩ info s s2 rfl
      (by simp only [Value.depth]; omega) (by simp only [Value.depth]; omega)
      (stringKeyed_of_mem_fields hf1 hk1) (stringKeyed_of_mem_fields hf2 hk2) hs
  | map kt1 t1 a1 st1 =>
    cases d2 <;> try (simp [Data.Type] at hT; done)
    rename_i kt2 t2 a2 st2
    simp only [Data.Type, Ty.map.injEq] at hT
    obtain ⟨hkt, _⟩ := hT
    subst hkt
    cases st1 with
    | none => cases st2 <;> exact mirror_return _ h
    | some x1 =>
      cases st2 with
      | none => exact mirror_return _ h
      | some x2 =>
        obtain ⟨p1, m1⟩ := x1
        obtain ⟨p2, m2⟩ := x2
        simp only [stringKeyed, Bool.and_eq_true, decide_eq_true_eq] at hk1 hk2
        simp only [Data.depth] at hn hm
        simp only [kindSwitch]
        by_cases hp : p1 = p2
        · subst hp
          simp only [beq_self_eq_true, if_true]; exact mirror_return _ h
        · have hp2 : ¬ p2 = p1 := fun c => hp c.symm
          simp only [beq_iff_eq, hp, hp2, if_false, Flag.join_self, Flag.ro_zero, Flag.join_zero_zero]
          cases kt1 <;> try (simp [Ty.isBasic] at hk1; done)
          rename_i kname
          obtain ⟨n0, rfl⟩ : ∃ n0, n = n0 + 1 := ⟨n - 1, by omega⟩
          obtain ⟨m0, rfl⟩ : ∃ m0, m = m0 + 1 := ⟨m - 1, by omega⟩
          exact mirror_maps n0 m0 ih ro.ro kname m1 m2 hk1.1.1.2 hk2.1.1.2 hk1.1.2 hk2.1.2
            hk1.2 hk2.2 (by omega) (by omega) s s2 h
  | ident k1 t1 q1 =>
    cases d2 <;> try (simp [Data.Type] at hT; done)
    rename_i k2 t2 q2
    simp only [kindSwitch]
    by_cases hz : (q1 == 0 || q2 == 0) = true
    · have hz2 : (q2 == 0 || q1 == 0) = true := by rw [Bool.or_comm]; exact hz
      simp only [hz, hz2, if_true]
      rw [Bool.beq_comm (a := (q2 == 0))]
      exact mirror_return _ h
    · have hz2 : ¬ (q2 == 0 || q1 == 0) = true := by rw [Bool.or_comm]; exact hz
      simp only [hz, hz2, if_false]
      by_cases hp : q1 = q2
      · subst hp
        simp only [beq_self_eq_true, if_true]; exact mirror_return _ h
      · have hp2 : ¬ q2 = q1 := fun c => hp c.symm
        simp only [beq_iff_eq, hp, hp2, if_false]
        exact mirror_defaultCase _ _ ro h

theorem hard_comm {d1 d2 : Data} (hT : d1.Type = d2.Type) : hard d2 d1 = hard d1 d2 := by
  cases d1 <;> cases d2 <;> try (simp [Data.Type] at hT; done)
  all_goals first
    | (rename_i t1 q1 t2 q2; cases q1 <;> cases q2 <;> rfl)
    | (rename_i k1 t1 q1 k2 t2 q2; cases k1 <;> cases k2 <;> rfl)
    | (simp only [hard, Data.Kind, Data.IsNil]; exact Bool.and_comm _ _)

/-- The body on a pair and on the exchanged pair. -/
theorem mirror_body (n m : Nat)
    (ih : ∀ (c1 c2 : Value) (info : String) (s s2 : valueDiff), c1.flagRO = c2.flagRO →
      min c1.depth c2.depth < n → min c1.depth c2.depth < m →
      c1.stringKeyed = true → c2.stringKeyed = true → Mirror s s2 →
      MirrorResult s (deepValueDiff n c1 c2 info s) (deepValueDiff m c2 c1 info s2))
    (v1 v2 : Value) (hro : v1.flagRO = v2.flagRO)
    (hn : min v1.depth v2.depth ≤ n) (hm : min v1.depth v2.depth ≤ m)
    (hk1 : v1.stringKeyed = true) (hk2 : v2.stringKeyed = true)
    (s s2 : valueDiff) (h : Mirror s s2) :
    MirrorResult s (deepValueDiffBody (deepValueDiff n) v1 v2 s)
      (deepValueDiffBody (deepValueDiff m) v2 v1 s2) := by
  obtain ⟨x1, ro1⟩ := v1
  obtain ⟨x2, ro2⟩ := v2
  simp only at hro
  subst hro
  cases x1 with
  | none => cases x2 <;> exact mirror_return _ h
  | some d1 =>
    cases x2 with
    | none => exact mirror_return _ h
    | some d2 =>
      by_cases hT : d1.Type = d2.Type
      · rw [deepValueDiffBody_same_type _ _ _ _ _ _ hT,
          deepValueDiffBody_same_type _ _ _ _ _ _ hT.symm, hard_comm hT, ← hT,
          min_comm d2.ptrWord, max_comm d2.ptrWord, h.visited]
        simp only [Value.depth, Value.stringKeyed] at hn hm hk1 hk2
        by_cases hh : hard d1 d2 = true
        · by_cases hv : (⟨min d1.ptrWord d2.ptrWord, max d1.ptrWord d2.ptrWord, d1.Type⟩ : visit)
              ∈ s.visited
          · simp only [hh, hv, decide_True, Bool.and_self, if_true]
            exact mirror_return _ h
          · simp only [hh, hv, decide_False, Bool.and_false, Bool.false_eq_true, if_false,
              if_true]
            exact mirror_kindSwitch n m ih ro1 d1 d2 hT hn hm hk1 hk2 _ _
              ⟨rfl, h.stack, h.diffs⟩
        · simp only [hh, Bool.false_and, Bool.false_eq_true, if_false]
          exact mirror_kindSwitch n m ih ro1 d1 d2 hT hn hm hk1 hk2 s s2 h
      · have hT2 : ¬ d2.Type = d1.Type := fun c => hT c.symm
        simp only [deepValueDiffBody, bne_iff_ne, ne_eq, hT, hT2, not_false_eq_true, if_true]
        exact mirror_return _ h

/-- Exchanging the two arguments: from mirrored states, with enough fuel on both sides,
both comparisons return, in mirrored states. -/
theorem mirror_deepValueDiff : ∀ (n m : Nat) (c1 c2 : Value) (info : String)
    (s s2 : valueDiff), c1.flagRO = c2.flagRO →
    min c1.depth c2.depth < n → min c1.depth c2.depth < m →
    c1.stringKeyed = true → c2.stringKeyed = true → Mirror s s2 →
    MirrorResult s (deepValueDiff n c1 c2 info s) (deepValueDiff m c2 c1 info s2) := by
  intro n
  induction n with
  | zero => intro m c1 c2 info s s2 _ hn; omega
  | succ n ih =>
    intro m
    cases m with
    | zero => intro c1 c2 info s s2 _ _ hm; omega
    | succ m =>
      intro c1 c2 info s s2 hro hn hm hk1 hk2 h
      obtain ⟨b, t, t2, e1, e2, hmir, hst⟩ := mirror_body n m (ih m) c1 c2 hro (by omega)
        (by omega) hk1 hk2 _ _ (mirror_push info h)
      rw [deepValueDiff_succ, deepValueDiff_succ, e1, e2]
      dsimp only
      cases b with
      | false =>
        have := mirror_pop info (s := s) (mirror_saveDiff c1 c2 hmir)
          (by simpa [saveDiff] using hst)
        exact ⟨true, _, _, rfl, rfl, this.1, this.2⟩
      | true =>
        have := mirror_pop info (s := s) hmir hst
        exact ⟨true, _, _, rfl, rfl, this.1, this.2⟩

theorem fuelFor_eq (v : Value) : fuelFor v = v.depth + 1 := by
  unfold fuelFor Value.depth
  cases v.data <;> rfl

/-- C7, counterexample: for the maps with the single entries `"a": 1` and `"b": 2`, each
call lists the key of its left argument first, so `DeepDiff(y, x)` is not `DeepDiff(x, y)`
with left and right exchanged: the two Diffs come in the other order. -/
theorem symmetry_fails_on_order :
    DeepDiff (some mapA1) (some mapB2)
        = .ok [⟨["a"], some (intData 1), none⟩, ⟨["b"], none, some (intData 2)⟩]
      ∧ DeepDiff (some mapB2) (some mapA1)
        = .ok [⟨["b"], some (intData 2), none⟩, ⟨["a"], none, some (intData 1)⟩]
      ∧ DeepDiff (some mapB2) (some mapA1)
        ≠ (DeepDiff (some mapA1) (some mapB2)).map (List.map swapDiff) := by
  have h1 : DeepDiff (some mapA1) (some mapB2)
      = .ok [⟨["a"], some (intData 1), none⟩, ⟨["b"], none, some (intData 2)⟩] := rfl
  have h2 : DeepDiff (some mapB2) (some mapA1)
      = .ok [⟨["b"], some (intData 2), none⟩, ⟨["a"], none, some (intData 1)⟩] := rfl
  refine ⟨h1, h2, ?_⟩
  rw [h1, h2]
  intro hc
  simp [Except.map, swapDiff] at hc

/-- Exchanging the two arguments, up to the order: for all values `x`, `y` in which every
mapping has pairwise different string keys, both `DeepDiff(x, y)` and `DeepDiff(y, x)`
return, and `DeepDiff(y, x)` holds exactly the Diffs of `DeepDiff(x, y)` with the left and
right payload exchanged, with the same paths. -/
theorem mirror_DeepDiff (x y : Option Data)
    (hx : ∀ d, x = some d → stringKeyed d = true)
    (hy : ∀ d, y = some d → stringKeyed d = true) :
    ∃ l l2, DeepDiff x y = .ok l ∧ DeepDiff y x = .ok l2 ∧ l2.Perm (l.map swapDiff) := by
  have hkx : (ValueOf x).stringKeyed = true := by
    cases x with
    | none => rfl
    | some d => exact hx d rfl
  have hky : (ValueOf y).stringKeyed = true := by
    cases y with
    | none => rfl
    | some d => exact hy d rfl
  obtain ⟨b, t, t2, e1, e2, hm, _⟩ := mirror_deepValueDiff (fuelFor (ValueOf x))
    (fuelFor (ValueOf y)) (ValueOf x) (ValueOf y) "" ⟨[], [], []⟩ ⟨[], [], []⟩ rfl
    (by rw [fuelFor_eq]; omega) (by rw [fuelFor_eq]; omega) hkx hky ⟨rfl, rfl, List.Perm.nil⟩
  exact ⟨t.diffs, t2.diffs, by simp only [DeepDiff, DeepDiffValue, e1],
    by simp only [DeepDiff, DeepDiffValue, e2], hm.diffs⟩

/-! ### The switch as a list of calls followed by a verdict -/

theorem indexLoop_eq_runCalls (rec : Rec) (ro1 ro2 : Flag) :
    ∀ (es1 es2 : List Data) (i : Nat) (v : valueDiff),
      indexLoop rec ro1 ro2 es1 es2 i v =
        match runCalls rec (indexCalls ro1 ro2 es1 es2 i) v with
        | .error e => .error e
        | .ok t =>
          if es1.length ≤ es2.length then .ok t
          else .error (.panicked "reflect: index out of range")
  | [], es2, i, v => by simp [indexLoop, indexCalls, runCalls]
  | a :: as, [], i, v => by simp [indexLoop, indexCalls, runCalls]
  | a :: as, b :: bs, i, v => by
    simp only [indexLoop, indexCalls, runCalls, List.length_cons, Nat.add_le_add_iff_right]
    cases rec ⟨some a, ro1⟩ ⟨some b, ro2⟩ (FormatInt i) v with
    | error e => rfl
    | ok r => exact indexLoop_eq_runCalls rec ro1 ro2 as bs (i + 1) r.2

theorem fieldLoop_eq_runCalls (rec : Rec) (ro1 ro2 : Flag) :
    ∀ (fs1 fs2 : List (String × Flag × Data)) (v : valueDiff),
      fieldLoop rec ro1 ro2 fs1 fs2 v =
        match runCalls rec (fieldCalls ro1 ro2 fs1 fs2) v with
        | .error e => .error e
        | .ok t =>
          if fs1.length ≤ fs2.length then .ok t
          else .error (.panicked "reflect: Field index out of range")
  | [], fs2, v => by simp [fieldLoop, fieldCalls, runCalls]
  | a :: as, [], v => by simp [fieldLoop, fieldCalls, runCalls]
  | a :: as, b :: bs, v => by
    simp only [fieldLoop, fieldCalls, runCalls, List.length_cons, Nat.add_le_add_iff_right]
    cases rec ⟨some a.2.2, Flag.field ro1 a.2.1⟩ ⟨some b.2.2, Flag.field ro2 b.2.1⟩ a.1 v with
    | error e => rfl
    | ok r => exact fieldLoop_eq_runCalls rec ro1 ro2 as bs r.2

theorem keyLoop_eq_runCalls (rec : Rec) (keyType : Ty) (get1 get2 : Scalar → Value) :
    ∀ (keys : List Scalar) (v : valueDiff),
      keyLoop rec keyType get1 get2 keys v = runCalls rec (keyCalls keyType get1 get2 keys) v
  | [], v => rfl
  | k :: ks, v => by
    simp only [keyLoop, keyCalls, List.map_cons, runCalls]
    cases rec (get1 k) (get2 k) (keyString keyType k) v with
    | error e => rfl
    | ok r => exact keyLoop_eq_runCalls rec keyType get1 get2 ks r.2

theorem runCalls_append (rec : Rec) :
    ∀ (cs ds : List Call) (v : valueDiff),
      runCalls rec (cs ++ ds) v =
        match runCalls rec cs v with
        | .error e => .error e
        | .ok t => runCalls rec ds t
  | [], ds, v => rfl
  | c :: cs, ds, v => by
    simp only [List.cons_append, runCalls]
    cases rec c.1 c.2.1 c.2.2 v with
    | error e => rfl
    | ok r => exact runCalls_append rec cs ds r.2

theorem defaultCase_eq (v1 v2 : Value) (v : valueDiff) :
    defaultCase v1 v2 v =
      match defaultVerdict v1 v2 with
      | .ok b => .ok (b, v)
      | .error e => .error e := by
  unfold defaultCase defaultVerdict
  split
  · cases v1.Interface with
    | error e => rfl
    | ok a =>
      cases v2.Interface with
      | error e => rfl
      | ok b => rfl
  · rfl

theorem kindSwitch_eq (rec : Rec) (ro1 ro2 : Flag) (d1 d2 : Data) (v : valueDiff) :
    kindSwitch rec ro1 ro2 d1 d2 v =
      match runCalls rec (calls ro1 ro2 d1 d2) v with
      | .error e => .error e
      | .ok t =>
        match verdict ro1 ro2 d1 d2 with
        | .ok b => .ok (b, t)
        | .error e => .error e := by
  cases d1 with
  | scalar t1 q1 =>
    cases d2 <;> first | rfl | skip
    simp only [kindSwitch, calls, runCalls, verdict, defaultCase_eq]
  | ident k1 t1 q1 =>
    cases d2 <;> first | rfl | skip
    rename_i k2 t2 q2
    simp only [kindSwitch, calls, runCalls, verdict, defaultCase_eq]
    split
    · rfl
    · split <;> rfl
  | array el1 es1 =>
    cases d2 <;> first | rfl | skip
    rename_i el2 es2
    simp only [kindSwitch, calls, verdict, indexLoop_eq_runCalls]
    cases runCalls rec (indexCalls ro1.ro ro2.ro es1 es2 0) v with
    | error e => rfl
    | ok t => by_cases hle : es1.length ≤ es2.length <;> simp [hle]
  | struct t1 fs1 =>
    cases d2 <;> first | rfl | skip
    rename_i t2 fs2
    simp only [kindSwitch, calls, verdict, fieldLoop_eq_runCalls]
    cases runCalls rec (fieldCalls ro1 ro2 fs1 fs2) v with
    | error e => rfl
    | ok t => by_cases hle : fs1.length ≤ fs2.length <;> simp [hle]
  | slice el1 a1 st1 =>
    cases d2 <;> first | rfl | skip
    rename_i el2 a2 st2
    cases st1 with
    | none => cases st2 <;> rfl
    | some x1 =>
      cases st2 with
      | none => rfl
      | some x2 =>
        obtain ⟨p1, es1⟩ := x1
        obtain ⟨p2, es2⟩ := x2
        simp only [kindSwitch, calls, verdict, indexLoop_eq_runCalls]
        by_cases hp : (p1 == p2) = true
        · simp only [hp, if_true, runCalls]
        · simp only [hp]
          by_cases hl : (es1.length != es2.length) = true
          · simp only [hl, if_true, runCalls]; rfl
          · have hle : es1.length ≤ es2.length := by
              simp only [bne_iff_ne, ne_eq, not_not] at hl; omega
            simp only [hl, Bool.false_eq_true, if_false]
            cases runCalls rec (indexCalls ro1.ro ro2.ro es1 es2 0) v with
            | error e => rfl
            | ok t => simp [hle]
  | iface t1 a1 i1 =>
    cases d2 <;> first | rfl | skip
    rename_i t2 a2 i2
    cases i1 with
    | none => cases i2 <;> rfl
    | some e1 =>
      cases i2 with
      | none => rfl
      | some e2 =>
        simp only [kindSwitch, calls, verdict, runCalls]
        cases rec ⟨some e1, ro1.ro⟩ ⟨some e2, ro2.ro⟩ "" v <;> rfl
  | ptr el1 a1 t1 =>
    cases d2 <;> first | rfl | skip
    rename_i el2 a2 t2
    cases t1 with
    | none => cases t2 <;> rfl
    | some x1 =>
      cases t2 with
      | none => rfl
      | some x2 =>
        obtain ⟨p1, e1⟩ := x1
        obtain ⟨p2, e2⟩ := x2
        simp only [kindSwitch, calls, verdict]
        by_cases hp : (p1 == p2) = true
        · simp only [hp, if_true, runCalls]
        · simp only [hp, Bool.false_eq_true, if_false, runCalls]
          cases rec ⟨some e1, ro1⟩ ⟨some e2, ro2⟩ "" v <;> rfl
  | map kt1 el1 a1 st1 =>
    cases d2 <;> first | rfl | skip
    rename_i kt2 el2 a2 st2
    cases st1 with
    | none => cases st2 <;> rfl
    | some x1 =>
      cases st2 with
      | none => rfl
      | some x2 =>
        obtain ⟨p1, m1⟩ := x1
        obtain ⟨p2, m2⟩ := x2
        simp only [kindSwitch, calls, verdict]
        by_cases hp : (p1 == p2) = true
        · simp only [hp, if_true, runCalls]
        · simp only [hp, Bool.false_eq_true, if_false, runCalls_append, keyLoop_eq_runCalls]
          cases runCalls rec (keyCalls kt1 (MapIndex ro1.ro m1) (fun _ => Value.zero)
            (unionKey kt1 m1 m2).1) v with
          | error e => rfl
          | ok t =>
            dsimp only
            cases runCalls rec (keyCalls kt1 (fun _ => Value.zero) (MapIndex ro2.ro m2)
              (unionKey kt1 m1 m2).2.2) t with
            | error e => rfl
            | ok u => rfl

theorem deepValueDiffBody_eq (rec : Rec) (v1 v2 : Value) (v : valueDiff) :
    deepValueDiffBody rec v1 v2 v =
      match v1.data, v2.data with
      | some d1, some d2 =>
        if d1.Type != d2.Type then .ok (false, v)
        else if hard d1 d2 && decide (visitKey d1 d2 ∈ v.visited) then .ok (true, v)
        else
          match runCalls rec (calls v1.flagRO v2.flagRO d1 d2) (mark d1 d2 v) with
          | .error e => .error e
          | .ok t =>
            match verdict v1.flagRO v2.flagRO d1 d2 with
            | .ok b => .ok (b, t)
            | .error e => .error e
      | _, _ => .ok (v1.IsValid == v2.IsValid, v) := by
  unfold deepValueDiffBody
  cases v1.data with
  | none => rfl
  | some d1 =>
    cases v2.data with
    | none => rfl
    | some d2 =>
      simp only [kindSwitch_eq, visitKey, mark]

/-! ### What one comparison does to the state -/

theorem pushed_append (info : String) (S : List String) :
    pushed info S = S ++ pushed info [] := by
  unfold pushed; split <;> simp

theorem Site.lift {S : List String} {v1 v2 : Value} {c : Call} {d : Diff}
    (hc : c ∈ callsV v1 v2) (h : Site (pushed c.2.2 S) c.1 c.2.1 d) : Site S v1 v2 d := by
  obtain ⟨e1, e2, path, hb, hu, rfl⟩ := h
  refine ⟨e1, e2, pushed c.2.2 [] ++ path, Below.step hc hb, hu, ?_⟩
  rw [pushed_append, List.append_assoc]

theorem mem_flatten_of_forall₂ {α β : Type} {R : α → List β → Prop} {cs : List α}
    {groups : List (List β)} (h : List.Forall₂ R cs groups) {d : β}
    (hd : d ∈ groups.flatten) : ∃ c ∈ cs, ∃ g, R c g ∧ d ∈ g := by
  induction h with
  | nil => simp at hd
  | @cons c g cs gs hcg _ ih =>
    rw [List.flatten_cons, List.mem_append] at hd
    rcases hd with hd | hd
    · exact ⟨c, List.mem_cons_self _ _, g, hcg, hd⟩
    · obtain ⟨c2, hc2, g2, hR, hg⟩ := ih hd
      exact ⟨c2, List.mem_cons_of_mem _ hc2, g2, hR, hg⟩

theorem mark_stack (d1 d2 : Data) (s : valueDiff) : (mark d1 d2 s).stack = s.stack := by
  unfold mark; split <;> rfl

theorem mark_diffs (d1 d2 : Data) (s : valueDiff) : (mark d1 d2 s).diffs = s.diffs := by
  unfold mark; split <;> rfl

theorem mark_visited (d1 d2 : Data) (s : valueDiff) :
    ∀ key ∈ s.visited, key ∈ (mark d1 d2 s).visited := by
  intro key hk
  unfold mark; split
  · exact List.mem_cons_of_mem _ hk
  · exact hk

theorem frame_runCalls (rec : Rec)
    (hrec : ∀ (c : Call) (s : valueDiff) (r : Bool × valueDiff),
      rec c.1 c.2.1 c.2.2 s = .ok r → Frame (pushed c.2.2 s.stack) c.1 c.2.1 s r.2) :
    ∀ (cs : List Call) (s t : valueDiff), runCalls rec cs s = .ok t → RunFrame cs s t := by
  intro cs
  induction cs with
  | nil =>
    intro s t h
    simp only [runCalls, Except.ok.injEq] at h
    subst h
    exact ⟨rfl, fun _ hk => hk, [], by simp, List.Forall₂.nil⟩
  | cons c cs ih =>
    intro s t h
    simp only [runCalls] at h
    cases hc : rec c.1 c.2.1 c.2.2 s with
    | error e => rw [hc] at h; cases h
    | ok r =>
      rw [hc] at h
      have hf := hrec c s r hc
      have hr := ih r.2 t h
      obtain ⟨D, hD, hsite⟩ := hf.diffs
      obtain ⟨groups, hG, hall⟩ := hr.diffs
      refine ⟨hr.stack.trans hf.stack, fun key hk => hr.visited key (hf.visited key hk),
        D :: groups, ?_, ?_⟩
      · rw [hG, hD, List.flatten_cons, List.append_assoc]
      · rw [hf.stack] at hall
        exact List.Forall₂.cons hsite hall

theorem callsV_some (d1 d2 : Data) (ro1 ro2 : Flag) (hT : d1.Type = d2.Type) :
    callsV ⟨some d1, ro1⟩ ⟨some d2, ro2⟩ = calls ro1 ro2 d1 d2 := by
  simp [callsV, hT]

theorem frame_body (rec : Rec)
    (hrec : ∀ (c : Call) (s : valueDiff) (r : Bool × valueDiff),
      rec c.1 c.2.1 c.2.2 s = .ok r → Frame (pushed c.2.2 s.stack) c.1 c.2.1 s r.2)
    (v1 v2 : Value) (s : valueDiff) (b : Bool) (t : valueDiff)
    (h : deepValueDiffBody rec v1 v2 s = .ok (b, t)) :
    (b = false → Unexplained v1 v2) ∧ Frame s.stack v1 v2 s t := by
  have same : (b = false → Unexplained v1 v2) → (s, b) = (t, b) →
      (b = false → Unexplained v1 v2) ∧ Frame s.stack v1 v2 s t := by
    intro hu he
    have : s = t := congrArg Prod.fst he
    subst this
    exact ⟨hu, rfl, fun _ hk => hk, [], by simp, fun _ hd => by cases hd⟩
  obtain ⟨o1, ro1⟩ := v1
  obtain ⟨o2, ro2⟩ := v2
  rw [deepValueDiffBody_eq] at h
  cases o1 with
  | none =>
    cases o2 with
    | none =>
      simp only [Value.IsValid, Option.isSome, beq_self_eq_true, Except.ok.injEq,
        Prod.mk.injEq] at h
      obtain ⟨rfl, rfl⟩ := h
      exact same (fun c => by cases c) rfl
    | some d2 =>
      simp only [Value.IsValid, Option.isSome, Except.ok.injEq, Prod.mk.injEq] at h
      obtain ⟨rfl, rfl⟩ := h
      exact same (fun _ => trivial) rfl
  | some d1 =>
    cases o2 with
    | none =>
      simp only [Value.IsValid, Option.isSome, Except.ok.injEq, Prod.mk.injEq] at h
      obtain ⟨rfl, rfl⟩ := h
      exact same (fun _ => trivial) rfl
    | some d2 =>
      dsimp only at h
      by_cases hT : d1.Type = d2.Type
      · simp only [hT, bne_self_eq_false, Bool.false_eq_true, if_false] at h
        by_cases hv : (hard d1 d2 && decide (visitKey d1 d2 ∈ s.visited)) = true
        · simp only [hv, if_true, Except.ok.injEq, Prod.mk.injEq] at h
          obtain ⟨rfl, rfl⟩ := h
          exact same (fun c => by cases c) rfl
        · simp only [hv, Bool.false_eq_true, if_false] at h
          cases hrun : runCalls rec (calls ro1 ro2 d1 d2) (mark d1 d2 s) with
          | error e => rw [hrun] at h; cases h
          | ok u =>
            rw [hrun] at h
            cases hver : verdict ro1 ro2 d1 d2 with
            | error e => rw [hver] at h; cases h
            | ok c =>
              rw [hver] at h
              simp only [Except.ok.injEq, Prod.mk.injEq] at h
              obtain ⟨rfl, rfl⟩ := h
              have hr := frame_runCalls rec hrec _ _ _ hrun
              obtain ⟨groups, hG, hall⟩ := hr.diffs
              refine ⟨fun hb => Or.inr (by rw [hver, hb]), hr.stack.trans (mark_stack _ _ _),
                fun key hk => hr.visited key (mark_visited _ _ _ key hk), groups.flatten, ?_, ?_⟩
              · rw [hG, mark_diffs]
              · intro d hd
                obtain ⟨c2, hc2, g, hR, hg⟩ := mem_flatten_of_forall₂ hall hd
                rw [mark_stack] at hR
                exact Site.lift (by rw [callsV_some _ _ _ _ hT]; exact hc2) (hR d hg)
      · have hT2 : (d1.Type != d2.Type) = true := by simpa using hT
        simp only [hT2, if_true, Except.ok.injEq, Prod.mk.injEq] at h
        obtain ⟨rfl, rfl⟩ := h
        exact same (fun _ => Or.inl hT) rfl

theorem pop_of_stack (info : String) (s x : valueDiff) (h : x.stack = (push info s).stack) :
    pop info x = ⟨x.visited, x.diffs, s.stack⟩ := by
  obtain ⟨V, D, S⟩ := x
  simp only at h
  subst h
  exact pop_push info V D s

/-- Every call that returns has returned true, restored the stack, kept the visited
keys, and appended Diffs that were each saved for an unexplained pair below it. -/
theorem frame_deepValueDiff : ∀ (fuel : Nat) (v1 v2 : Value) (info : String) (s : valueDiff)
    (r : Bool × valueDiff), deepValueDiff fuel v1 v2 info s = .ok r →
    r.1 = true ∧ Frame (pushed info s.stack) v1 v2 s r.2 := by
  intro fuel
  induction fuel with
  | zero => intro v1 v2 info s r h; cases h
  | succ n ih =>
    intro v1 v2 info s r h
    rw [deepValueDiff_succ] at h
    cases hb : deepValueDiffBody (deepValueDiff n) v1 v2 (push info s) with
    | error e => rw [hb] at h; cases h
    | ok x =>
      obtain ⟨b, t⟩ := x
      rw [hb] at h
      simp only [Except.ok.injEq] at h
      subst h
      obtain ⟨hu, hf⟩ := frame_body (deepValueDiff n) (fun c s r hc => (ih _ _ _ _ _ hc).2)
        v1 v2 (push info s) b t hb
      obtain ⟨D, hD, hsite⟩ := hf.diffs
      rw [push_stack] at hsite
      refine ⟨rfl, ?_⟩
      cases b with
      | true =>
        simp only [Bool.not_true, Bool.false_eq_true, if_false]
        rw [pop_of_stack info s t hf.stack]
        refine ⟨rfl, fun key hk => hf.visited key (by rw [push_visited]; exact hk), D, ?_, hsite⟩
        rw [hD, push_diffs]
      | false =>
        simp only [Bool.not_false, if_true]
        rw [pop_of_stack info s (saveDiff t v1 v2) hf.stack]
        refine ⟨rfl, fun key hk => hf.visited key (by rw [push_visited]; exact hk),
          D ++ [⟨cloneStrings t.stack, payload v1, payload v2⟩], ?_, ?_⟩
        · simp only [saveDiff]
          rw [hD, push_diffs, List.append_assoc]
        · intro d hd
          rcases List.mem_append.1 hd with hd | hd
          · exact hsite d hd
          · simp only [List.mem_singleton] at hd
            subst hd
            refine ⟨v1, v2, [], Below.here v1 v2, hu rfl, ?_⟩
            rw [List.append_nil, cloneStrings, hf.stack, push_stack]

/-! ### The calls of one frame, one by one -/

theorem mem_indexCalls (ro1 ro2 : Flag) :
    ∀ (es1 es2 : List Data) (i : Nat) (c : Call), c ∈ indexCalls ro1 ro2 es1 es2 i →
      ∃ a b j, (a, b) ∈ es1.zip es2 ∧ c = (⟨some a, ro1⟩, ⟨some b, ro2⟩, FormatInt j)
  | [], _, _, c, h => by simp [indexCalls] at h
  | _ :: _, [], _, c, h => by simp [indexCalls] at h
  | a :: as, b :: bs, i, c, h => by
    simp only [indexCalls, List.mem_cons] at h
    rcases h with rfl | h
    · exact ⟨a, b, i, by simp, rfl⟩
    · obtain ⟨a2, b2, j, hm, hc⟩ := mem_indexCalls ro1 ro2 as bs (i + 1) c h
      exact ⟨a2, b2, j, by simp [hm], hc⟩

theorem mem_fieldCalls (ro1 ro2 : Flag) :
    ∀ (fs1 fs2 : List (String × Flag × Data)) (c : Call), c ∈ fieldCalls ro1 ro2 fs1 fs2 →
      ∃ f1 f2, (f1, f2) ∈ fs1.zip fs2 ∧
        c = (⟨some f1.2.2, Flag.field ro1 f1.2.1⟩, ⟨some f2.2.2, Flag.field ro2 f2.2.1⟩, f1.1)
  | [], _, c, h => by simp [fieldCalls] at h
  | _ :: _, [], c, h => by simp [fieldCalls] at h
  | a :: as, b :: bs, c, h => by
    simp only [fieldCalls, List.mem_cons] at h
    rcases h with rfl | h
    · exact ⟨a, b, by simp, rfl⟩
    · obtain ⟨a2, b2, hm, hc⟩ := mem_fieldCalls ro1 ro2 as bs c h
      exact ⟨a2, b2, by simp [hm], hc⟩

theorem mem_calls {ro1 ro2 : Flag} {d1 d2 : Data} {c : Call}
    (h : c ∈ calls ro1 ro2 d1 d2) : Child ro1 ro2 d1 d2 c := by
  cases d1 with
  | scalar t1 q1 => cases d2 <;> simp [calls] at h
  | ident k1 t1 q1 => cases d2 <;> simp [calls] at h
  | array el1 es1 =>
    cases d2 <;> try (simp [calls] at h; done)
    simp only [calls] at h
    obtain ⟨a, b, j, hm, rfl⟩ := mem_indexCalls _ _ _ _ _ _ h
    exact Child.index_array j hm
  | struct t1 fs1 =>
    cases d2 <;> try (simp [calls] at h; done)
    simp only [calls] at h
    obtain ⟨a, b, hm, rfl⟩ := mem_fieldCalls _ _ _ _ _ h
    exact Child.field hm
  | slice el1 a1 st1 =>
    cases d2 <;> try (simp [calls] at h; done)
    rename_i el2 a2 st2
    cases st1 with
    | none => cases st2 <;> simp [calls] at h
    | some x1 =>
      cases st2 with
      | none => simp [calls] at h
      | some x2 =>
        obtain ⟨p1, es1⟩ := x1
        obtain ⟨p2, es2⟩ := x2
        simp only [calls] at h
        by_cases hp : p1 = p2
        · simp [hp] at h
        · by_cases hl : es1.length = es2.length
          · simp only [beq_iff_eq, hp, if_false, hl, bne_self_eq_false, Bool.false_eq_true] at h
            obtain ⟨a, b, j, hm, rfl⟩ := mem_indexCalls _ _ _ _ _ _ h
            exact Child.index_slice j hp hl hm
          · simp [hp, hl] at h
  | iface t1 a1 i1 =>
    cases d2 <;> try (simp [calls] at h; done)
    rename_i t2 a2 i2
    cases i1 with
    | none => cases i2 <;> simp [calls] at h
    | some e1 =>
      cases i2 with
      | none => simp [calls] at h
      | some e2 =>
        simp only [calls, List.mem_singleton] at h
        subst h
        exact Child.elem_iface
  | ptr el1 a1 t1 =>
    cases d2 <;> try (simp [calls] at h; done)
    rename_i el2 a2 t2
    cases t1 with
    | none => cases t2 <;> simp [calls] at h
    | some x1 =>
      cases t2 with
      | none => simp [calls] at h
      | some x2 =>
        obtain ⟨p1, e1⟩ := x1
        obtain ⟨p2, e2⟩ := x2
        simp only [calls] at h
        by_cases hp : p1 = p2
        · simp [hp] at h
        · simp only [beq_iff_eq, hp, if_false, List.mem_singleton] at h
          subst h
          exact Child.elem_ptr hp
  | map kt1 el1 a1 st1 =>
    cases d2 <;> try (simp [calls] at h; done)
    rename_i kt2 el2 a2 st2
    cases st1 with
    | none => cases st2 <;> simp [calls] at h
    | some x1 =>
      cases st2 with
      | none => simp [calls] at h
      | some x2 =>
        obtain ⟨p1, m1⟩ := x1
        obtain ⟨p2, m2⟩ := x2
        simp only [calls] at h
        by_cases hp : p1 = p2
        · simp [hp] at h
        · simp only [beq_iff_eq, hp, if_false, List.mem_append, keyCalls, List.mem_map] at h
          rcases h with ⟨k, hk, rfl⟩ | ⟨k, hk, rfl⟩ | ⟨k, hk, rfl⟩
          · exact Child.key_left hp hk
          · exact Child.key_right hp hk
          · exact Child.key_both hp hk

theorem MapIndex_depth (ro : Flag) (m : List (Scalar × Data)) (k : Scalar) :
    (MapIndex ro m k).depth ≤ depthEntries m := by
  rcases MapIndex_mem ro m k with hz | ⟨e, he, hm⟩
  · rw [hz]; exact Nat.zero_le _
  · rw [hm]; exact depth_le_of_mem_entries he

theorem Child.depth_lt {ro1 ro2 : Flag} {d1 d2 : Data} {c : Call}
    (h : Child ro1 ro2 d1 d2 c) : c.1.depth < d1.depth := by
  cases h with
  | index_array i hm =>
    have := depth_lt_of_mem_list (List.of_mem_zip hm).1
    simp only [Value.depth, Data.depth]; omega
  | index_slice i hp hl hm =>
    have := depth_lt_of_mem_list (List.of_mem_zip hm).1
    simp only [Value.depth, Data.depth]; omega
  | elem_iface => simp only [Value.depth, Data.depth]; omega
  | elem_ptr hp => simp only [Value.depth, Data.depth]; omega
  | field hm =>
    have := depth_le_of_mem_fields (List.of_mem_zip hm).1
    simp only [Value.depth, Data.depth]; omega
  | @key_left kt1 kt2 el1 el2 a1 a2 p1 p2 m1 m2 k hp hk =>
    have := MapIndex_depth ro1.ro m1 k
    simp only [Data.depth]; omega
  | key_right hp hk => simp only [Value.zero, Value.depth, Data.depth]; omega
  | @key_both kt1 kt2 el1 el2 a1 a2 p1 p2 m1 m2 k hp hk =>
    have := MapIndex_depth ro1.ro m1 k
    simp only [Data.depth]; omega

theorem zip_map_eq {α β : Type} (g : α → β) :
    ∀ (l1 l2 : List α), l1.map g = l2.map g → ∀ p ∈ l1.zip l2, g p.1 = g p.2
  | [], _, _, p, hp => by simp at hp
  | _ :: _, [], _, p, hp => by simp at hp
  | a :: as, b :: bs, h, p, hp => by
    simp only [List.map_cons, List.cons.injEq] at h
    simp only [List.zip_cons_cons, List.mem_cons] at hp
    rcases hp with rfl | hp
    · exact h.1
    · exact zip_map_eq g as bs h.2 p hp

theorem MapIndex_flagRO (ro : Flag) (m : List (Scalar × Data)) (k : Scalar)
    (h : (MapIndex ro m k).data.isSome = true) : (MapIndex ro m k).flagRO = ro := by
  obtain ⟨e, _, he⟩ := MapIndex_flagRO_of_isSome ro m k h
  rw [he]

/-- Below two handles with the same read-only flag and the same type, every call is on
two handles that are not both valid with different flags. -/
theorem child_flagsAgree {ro : Flag} {d1 d2 : Data} {c : Call}
    (h : Child ro ro d1 d2 c) (hT : d1.Type = d2.Type) : FlagsAgree c.1 c.2.1 := by
  cases h with
  | index_array i hm => exact fun _ _ => rfl
  | index_slice i hp hl hm => exact fun _ _ => rfl
  | elem_iface => exact fun _ _ => rfl
  | elem_ptr hp => exact fun _ _ => rfl
  | field hm =>
    intro _ _
    simp only [Data.Type, Ty.struct.injEq] at hT
    have := zip_map_eq (fun f : String × Flag × Data => (f.1, f.2.1)) _ _ hT.2 _ hm
    simp only [Prod.mk.injEq] at this
    simp only [this.2]
  | key_left hp hk => intro _ h2; cases h2
  | key_right hp hk => intro h1 _; cases h1
  | key_both hp hk =>
    intro h1 h2
    rw [MapIndex_flagRO _ _ _ h1, MapIndex_flagRO _ _ _ h2, Flag.join_self]

/-- Through two handles with the same read-only flag, the switch on two values of the
same type ends in no panic. -/
theorem verdict_ok (ro : Flag) (d1 d2 : Data) (hT : d1.Type = d2.Type) :
    ∃ b, verdict ro ro d1 d2 = .ok b := by
  have dv : ∀ a b : Data, ∃ c, defaultVerdict ⟨some a, ro⟩ ⟨some b, ro⟩ = .ok c := by
    intro a b
    cases ro with
    | zero => exact ⟨_, rfl⟩
    | embedRO => exact ⟨false, rfl⟩
    | stickyRO => exact ⟨false, rfl⟩
  cases d1 with
  | scalar t1 q1 =>
    cases d2 <;> try (simp [Data.Type] at hT; done)
    exact dv _ _
  | ident k1 t1 q1 =>
    cases d2 <;> try (simp [Data.Type] at hT; done)
    rename_i k2 t2 q2
    simp only [verdict]
    split
    · exact ⟨_, rfl⟩
    · split
      · exact ⟨_, rfl⟩
      · exact dv _ _
  | array el1 es1 =>
    cases d2 <;> try (simp [Data.Type] at hT; done)
    simp only [Data.Type, Ty.array.injEq] at hT
    simp only [verdict, hT.1, Nat.le_refl, if_true]
    exact ⟨_, rfl⟩
  | struct t1 fs1 =>
    cases d2 <;> try (simp [Data.Type] at hT; done)
    simp only [Data.Type, Ty.struct.injEq] at hT
    have hl := congrArg List.length hT.2
    simp only [List.length_map] at hl
    simp only [verdict, hl, Nat.le_refl, if_true]
    exact ⟨_, rfl⟩
  | slice el1 a1 st1 =>
    cases d2 <;> try (simp [Data.Type] at hT; done)
    rename_i el2 a2 st2
    simp only [verdict]
    split
    · split
      · exact ⟨_, rfl⟩
      · split <;> exact ⟨_, rfl⟩
    · exact ⟨_, rfl⟩
  | iface t1 a1 i1 =>
    cases d2 <;> try (simp [Data.Type] at hT; done)
    simp only [verdict]
    split <;> exact ⟨_, rfl⟩
  | ptr el1 a1 t1 =>
    cases d2 <;> try (simp [Data.Type] at hT; done)
    simp only [verdict]
    split <;> exact ⟨_, rfl⟩
  | map kt1 el1 a1 st1 =>
    cases d2 <;> try (simp [Data.Type] at hT; done)
    simp only [verdict]
    split <;> exact ⟨_, rfl⟩

/-! ### Termination without panic -/

theorem returns_runCalls (rec : Rec) (n : Nat) :
    ∀ (cs : List Call),
      (∀ c ∈ cs, ∀ s, (∃ t, rec c.1 c.2.1 c.2.2 s = .ok (true, t)) ∨
        (rec c.1 c.2.1 c.2.2 s = .error .outOfFuel ∧ n ≤ c.1.depth)) →
      ∀ s, (∃ t, runCalls rec cs s = .ok t) ∨
        (runCalls rec cs s = .error .outOfFuel ∧ ∃ c ∈ cs, n ≤ c.1.depth) := by
  intro cs
  induction cs with
  | nil => intro _ s; exact Or.inl ⟨s, rfl⟩
  | cons c cs ih =>
    intro hrec s
    simp only [runCalls]
    rcases hrec c (List.mem_cons_self _ _) s with ⟨t, ht⟩ | ⟨he, hle⟩
    · rw [ht]
      rcases ih (fun c2 hc2 => hrec c2 (List.mem_cons_of_mem _ hc2)) t with h | ⟨he, c2, hc2, hle⟩
      · exact Or.inl h
      · exact Or.inr ⟨he, c2, List.mem_cons_of_mem _ hc2, hle⟩
    · rw [he]
      exact Or.inr ⟨rfl, c, List.mem_cons_self _ _, hle⟩

/-- A comparison of two handles that are not both valid with different read-only flags
never panics: it returns true, unless the fuel is at most the depth of the first value. -/
theorem returns_deepValueDiff : ∀ (fuel : Nat) (v1 v2 : Value) (info : String) (s : valueDiff),
    FlagsAgree v1 v2 →
    (∃ t, deepValueDiff fuel v1 v2 info s = .ok (true, t)) ∨
      (deepValueDiff fuel v1 v2 info s = .error .outOfFuel ∧ fuel ≤ v1.depth) := by
  intro fuel
  induction fuel with
  | zero => intro v1 v2 info s _; exact Or.inr ⟨rfl, Nat.zero_le _⟩
  | succ n ih =>
    intro v1 v2 info s hf
    rw [deepValueDiff_succ, deepValueDiffBody_eq]
    obtain ⟨o1, ro1⟩ := v1
    obtain ⟨o2, ro2⟩ := v2
    cases o1 with
    | none => cases o2 <;> exact Or.inl ⟨_, rfl⟩
    | some d1 =>
      cases o2 with
      | none => exact Or.inl ⟨_, rfl⟩
      | some d2 =>
        have hro : ro1 = ro2 := hf rfl rfl
        subst hro
        dsimp only
        by_cases hT : d1.Type = d2.Type
        · simp only [hT, bne_self_eq_false, Bool.false_eq_true, if_false]
          by_cases hv : (hard d1 d2 && decide (visitKey d1 d2 ∈ (push info s).visited)) = true
          · simp only [hv, if_true]; exact Or.inl ⟨_, rfl⟩
          · simp only [hv, Bool.false_eq_true, if_false]
            rcases returns_runCalls (deepValueDiff n) n (calls ro1 ro1 d1 d2)
              (fun c hc s => ih c.1 c.2.1 c.2.2 s (child_flagsAgree (mem_calls hc) hT))
              (mark d1 d2 (push info s)) with ⟨t, ht⟩ | ⟨he, c, hc, hle⟩
            · rw [ht]
              obtain ⟨b, hb⟩ := verdict_ok ro1 d1 d2 hT
              rw [hb]
              exact Or.inl ⟨_, rfl⟩
            · rw [he]
              refine Or.inr ⟨rfl, ?_⟩
              have := (mem_calls hc).depth_lt
              show n + 1 ≤ d1.depth
              omega
        · have hT2 : (d1.Type != d2.Type) = true := by simpa using hT
          simp only [hT2, if_true]
          exact Or.inl ⟨_, rfl⟩

theorem below_flagsAgree {v1 v2 e1 e2 : Value} {path : List String}
    (h : Below v1 v2 path e1 e2) (hf : FlagsAgree v1 v2) : FlagsAgree e1 e2 := by
  induction h with
  | here v1 v2 => exact hf
  | @step v1 v2 c1 c2 e1 e2 info path hc _ ih =>
    apply ih
    obtain ⟨o1, ro1⟩ := v1
    obtain ⟨o2, ro2⟩ := v2
    cases o1 with
    | none => simp [callsV] at hc
    | some d1 =>
      cases o2 with
      | none => simp [callsV] at hc
      | some d2 =>
        have hro : ro1 = ro2 := hf rfl rfl
        subst hro
        by_cases hT : d1.Type = d2.Type
        · rw [callsV_some _ _ _ _ hT] at hc
          exact child_flagsAgree (mem_calls hc) hT
        · simp [callsV, hT] at hc

/-! ### C11: `DeepDiff` returns -/

/-- C11: `DeepDiff` does not fail.  For all values `x` and `y` (finite trees; `none` is the
nil interface) `DeepDiff x y` returns a list of Diffs: no call panics and the recursion
ends within the depth of `x`.  Every pair of valid handles compared in a frame reached
from `DeepDiff` carries the same read-only flag, so the right value is materialized by
the equality fallback only when it can be, as the left one; and the payload `saveDiff`
reports for a valid materializable handle is the result of `Interface()`, which does not
panic on it. -/
theorem DeepDiff_does_not_fail (x y : Option Data) :
    (∃ diffs, DeepDiff x y = .ok diffs) ∧
      (∀ path e1 e2, Below (ValueOf x) (ValueOf y) path e1 e2 →
        e1.IsValid = true → e2.IsValid = true → e1.CanInterface = e2.CanInterface) ∧
      ∀ v : Value, v.IsValid = true → v.CanInterface = true → v.Interface = .ok (payload v) := by
  refine ⟨?_, ?_, ?_⟩
  · unfold DeepDiff DeepDiffValue
    rw [fuelFor_eq]
    rcases returns_deepValueDiff ((ValueOf x).depth + 1) (ValueOf x) (ValueOf y) ""
      ⟨[], [], []⟩ (fun _ _ => rfl) with ⟨t, ht⟩ | ⟨_, hle⟩
    · rw [ht]; exact ⟨_, rfl⟩
    · omega
  · intro path e1 e2 hb h1 h2
    have := below_flagsAgree hb (fun _ _ => rfl) h1 h2
    simp only [Value.CanInterface, this]
  · intro v hv hc
    obtain ⟨o, ro⟩ := v
    cases o with
    | none => cases hv
    | some d =>
      simp only [Value.CanInterface, beq_iff_eq] at hc
      subst hc
      have hk := Data.Kind_ne_Invalid d
      simp [Value.Interface, Value.IsValid, payload, Value.Kind, Value.CanInterface, hk]

/-! ### C13: the path stack is balanced -/

/-- C13: Path Stack balance.  Whenever a call `deepValueDiff v1 v2 info` made in any state
returns, on whatever exit path and whether or not a Diff was recorded, the stack of the
state it returns is the stack of the state it was made in; and the call does return when
the two handles are not both valid with different read-only flags and the fuel exceeds
the depth of `v1`. -/
theorem path_stack_balance (fuel : Nat) (v1 v2 : Value) (info : String) (s : valueDiff) :
    (∀ r, deepValueDiff fuel v1 v2 info s = .ok r → r.2.stack = s.stack) ∧
      (FlagsAgree v1 v2 → v1.depth < fuel →
        ∃ t, deepValueDiff fuel v1 v2 info s = .ok (true, t) ∧ t.stack = s.stack) := by
  constructor
  · intro r h
    exact (frame_deepValueDiff fuel v1 v2 info s r h).2.stack
  · intro hf hd
    rcases returns_deepValueDiff fuel v1 v2 info s hf with ⟨t, ht⟩ | ⟨_, hle⟩
    · exact ⟨t, ht, (frame_deepValueDiff fuel v1 v2 info s _ ht).2.stack⟩
    · omega

theorem path_stack_balance_witness :
    ∃ t, deepValueDiff 2 (ValueOf (some seq12)) (ValueOf (some seq1)) "x" ⟨[], [], ["p"]⟩
      = .ok (true, t) ∧ t.stack = ["p"] :=
  (path_stack_balance 2 (ValueOf (some seq12)) (ValueOf (some seq1)) "x" ⟨[], [], ["p"]⟩).2
    (fun _ _ => rfl) (by decide)

/-! ### C14: a visited pair is silent -/

theorem pop_push_self (info : String) (s : valueDiff) : pop info (push info s) = s := by
  rw [pop_of_stack info s (push info s) rfl, push_visited, push_diffs]

/-- C14: visited pairs are silent and order-insensitive.  When the key made of the words
`a`, `b` and the type of `d1` is in the visited set, a comparison of two non-nil
reference-like values `d1`, `d2` of that type whose handle words are `a` and `b`, in
either order, returns true and leaves the state as it was: no Diff is appended and the
visited set is unchanged. -/
theorem visited_pair_is_silent (n : Nat) (d1 d2 : Data) (ro1 ro2 : Flag) (info : String)
    (s : valueDiff) (a b : Nat) (hT : d1.Type = d2.Type) (hh : hard d1 d2 = true)
    (hw : (d1.ptrWord = a ∧ d2.ptrWord = b) ∨ (d1.ptrWord = b ∧ d2.ptrWord = a))
    (hv : (⟨min a b, max a b, d1.Type⟩ : visit) ∈ s.visited) :
    deepValueDiff (n + 1) ⟨some d1, ro1⟩ ⟨some d2, ro2⟩ info s = .ok (true, s) := by
  have hk : visitKey d1 d2 ∈ (push info s).visited := by
    rw [push_visited]
    rcases hw with ⟨h1, h2⟩ | ⟨h1, h2⟩
    · simpa only [visitKey, h1, h2] using hv
    · simpa only [visitKey, h1, h2, Nat.min_comm b a, Nat.max_comm b a] using hv
  rw [deepValueDiff_succ, deepValueDiffBody_eq]
  simp only [hT, bne_self_eq_false, Bool.false_eq_true, if_false, hh, Bool.true_and,
    decide_eq_true_eq, hk, if_true, Bool.not_true, pop_push_self]

theorem visited_pair_is_silent_witness :
    deepValueDiff 1 ⟨some (nodePtr 16 256 1), .zero⟩ ⟨some (nodePtr 8 512 2), .zero⟩ "x"
      ⟨[⟨8, 16, .ptr (.struct "main.T" [("N", .zero)])⟩], [], ["p"]⟩
      = .ok (true, ⟨[⟨8, 16, .ptr (.struct "main.T" [("N", .zero)])⟩], [], ["p"]⟩) :=
  visited_pair_is_silent 0 (nodePtr 16 256 1) (nodePtr 8 512 2) .zero .zero "x" _ 8 16 rfl rfl
    (Or.inr ⟨rfl, rfl⟩) (by simp [nodePtr, Data.Type])

/-! ### C15: the scalar fallback -/

/-- C15, counterexample: two handles of the unexported field `a int` of two records both
holding 1 are of the same scalar type and structurally equal, yet the comparison records
a Diff, with the rendering of the type on both sides. -/
theorem scalar_fallback_fails_when_unreadable :
    DeepDiffValue ⟨some (intData 1), .stickyRO⟩ ⟨some (intData 1), .stickyRO⟩
      = .ok [⟨[], some (stringData "<int Value>"), some (stringData "<int Value>")⟩] := rfl

/-- C15, amended: for two valid values of the same scalar type whose raw contents can be
materialized, the comparison records a Diff at the current path, with the two values as
payloads, exactly when they are not structurally equal, and records nothing when they
are; when the raw contents of `v1` cannot be materialized (its handle carries either
read-only flag) it records a Diff at the current path whether or not the values are
equal. -/
theorem scalar_fallback_exact (n : Nat) (t : String) (p1 p2 : Scalar) (info : String)
    (s : valueDiff) :
    deepValueDiff (n + 1) ⟨some (.scalar t p1), .zero⟩ ⟨some (.scalar t p2), .zero⟩ info s
        = .ok (true,
            if DeepEqual (some (.scalar t p1)) (some (.scalar t p2)) then s
            else ⟨s.visited, s.diffs ++ [⟨pushed info s.stack, some (.scalar t p1),
              some (.scalar t p2)⟩], s.stack⟩) ∧
      (∀ ro2 : Flag,
        deepValueDiff (n + 1) ⟨some (.scalar t p1), .stickyRO⟩ ⟨some (.scalar t p2), ro2⟩ info s
          = .ok (true, ⟨s.visited, s.diffs ++ [⟨pushed info s.stack,
              payload ⟨some (.scalar t p1), .stickyRO⟩, payload ⟨some (.scalar t p2), ro2⟩⟩],
              s.stack⟩)) ∧
      ∀ ro2 : Flag,
        deepValueDiff (n + 1) ⟨some (.scalar t p1), .embedRO⟩ ⟨some (.scalar t p2), ro2⟩ info s
          = .ok (true, ⟨s.visited, s.diffs ++ [⟨pushed info s.stack,
              payload ⟨some (.scalar t p1), .embedRO⟩, payload ⟨some (.scalar t p2), ro2⟩⟩],
              s.stack⟩) := by
  refine ⟨?_, ?_, ?_⟩
  · rw [deepValueDiff_scalars, push_stack]
  · intro ro2
    rw [deepValueDiff_succ, deepValueDiffBody_eq]
    simp only [Data.Type, bne_self_eq_false, Bool.false_eq_true, if_false, hard, Data.Kind,
      Bool.false_and, mark, calls, runCalls, verdict, defaultVerdict, Value.CanInterface,
      Bool.not_true, Bool.and_self, Bool.not_false, if_true, saveDiff, cloneStrings]
    rw [show (Flag.stickyRO == Flag.zero) = false from rfl]
    cases p1 <;>
      simp only [Bool.false_and, Bool.false_eq_true, if_false, runCalls, Bool.not_false,
        if_true, saveDiff, cloneStrings, Bool.and_self] <;>
      rw [pop_push, push_visited, push_diffs, push_stack]
  · intro ro2
    rw [deepValueDiff_succ, deepValueDiffBody_eq]
    simp only [Data.Type, bne_self_eq_false, Bool.false_eq_true, if_false, hard, Data.Kind,
      Bool.false_and, mark, calls, runCalls, verdict, defaultVerdict, Value.CanInterface,
      Bool.not_true, Bool.and_self, Bool.not_false, if_true, saveDiff, cloneStrings]
    rw [show (Flag.embedRO == Flag.zero) = false from rfl]
    cases p1 <;>
      simp only [Bool.false_and, Bool.false_eq_true, if_false, runCalls, Bool.not_false,
        if_true, saveDiff, cloneStrings, Bool.and_self] <;>
      rw [pop_push, push_visited, push_diffs, push_stack]

/-! ### C16: the segment of a map key -/

/-- C16, at the failing input: the maps `("": 1)` and `("": 2)` diverge at the key `""`,
and so do `("": 1)` and the empty map; the Diff reported for that entry has the empty
path, the path of the mapping itself, not the one-segment path `[""]`. -/
theorem empty_key_reported_at_map_path :
    DeepDiff (some (emptyKeyMap 4096 8192 1)) (some (emptyKeyMap 4104 8448 2))
        = .ok [⟨[], some (intData 1), some (intData 2)⟩] ∧
      DeepDiff (some (emptyKeyMap 4096 8192 1)) (some emptyIntMap)
        = .ok [⟨[], some (intData 1), none⟩] ∧
      DeepDiff (some emptyIntMap) (some (emptyKeyMap 4104 8448 2))
        = .ok [⟨[], none, some (intData 2)⟩] :=
  ⟨rfl, rfl, rfl⟩

/-! ### C20: handles with different access -/

/-- C20, at the failing input: for two handles of the same scalar type, the first
materializable and the second obtained through an unexported field, `DeepDiffValue`
panics in `v2.Interface()`: the guard of the equality fallback tests `v1.CanInterface()`
twice and never `v2.CanInterface()`. -/
theorem mixed_access_panics (t : String) (p1 p2 : Scalar) :
    DeepDiffValue ⟨some (.scalar t p1), .zero⟩ ⟨some (.scalar t p2), .stickyRO⟩
      = .error (.panicked
          "reflect.Value.Interface: cannot return value obtained from unexported field or method") := by
  simp only [DeepDiffValue, fuelFor, Data.depth]
  rw [deepValueDiff_succ, deepValueDiffBody_eq]
  simp only [Data.Type, bne_self_eq_false, Bool.false_eq_true, if_false, hard, Data.Kind]
  cases p1 <;> rfl

/-! ### The Diffs of a loop, call by call -/

/-- A list of calls whose handles agree on the read-only flag and whose first values are
less deep than the fuel returns; its Diffs are the Diffs of its calls, in the order of the
calls, each group below the segment of its call. -/
theorem groups_runCalls (n : Nat) :
    ∀ (cs : List Call), (∀ c ∈ cs, FlagsAgree c.1 c.2.1 ∧ c.1.depth < n) →
      ∀ s, ∃ t groups, runCalls (deepValueDiff n) cs s = .ok t ∧ t.stack = s.stack ∧
        t.diffs = s.diffs ++ groups.flatten ∧
        List.Forall₂ (fun c g => PathsUnder (pushed c.2.2 s.stack) g ∧
          RecordedBy (deepValueDiff n) c g) cs groups := by
  intro cs
  induction cs with
  | nil => intro _ s; exact ⟨s, [], rfl, rfl, by simp, List.Forall₂.nil⟩
  | cons c cs ih =>
    intro hcs s
    obtain ⟨hf, hd⟩ := hcs c (List.mem_cons_self _ _)
    rcases returns_deepValueDiff n c.1 c.2.1 c.2.2 s hf with ⟨t1, ht1⟩ | ⟨_, hle⟩
    · obtain ⟨_, hfr⟩ := frame_deepValueDiff n c.1 c.2.1 c.2.2 s _ ht1
      obtain ⟨D, hD, hsite⟩ := hfr.diffs
      obtain ⟨t, groups, ht, hst, hdf, hall⟩ :=
        ih (fun c2 hc2 => hcs c2 (List.mem_cons_of_mem _ hc2)) t1
      refine ⟨t, D :: groups, ?_, hst.trans hfr.stack, ?_, ?_⟩
      · simp only [runCalls, ht1, ht]
      · rw [hdf, hD, List.flatten_cons, List.append_assoc]
      · have hs1 : t1.stack = s.stack := hfr.stack
        rw [hs1] at hall
        refine List.Forall₂.cons ⟨?_, s, _, ht1, hD⟩ hall
        intro d hd
        obtain ⟨e1, e2, path, _, _, rfl⟩ := hsite d hd
        exact ⟨path, rfl⟩
    · omega

theorem keyCalls_flagsAgree_depth (kt : Ty) (ro : Flag) (m1 m2 : List (Scalar × Data))
    (keys : List Scalar) :
    (∀ c ∈ keyCalls kt (MapIndex ro m1) (fun _ => Value.zero) keys,
        FlagsAgree c.1 c.2.1 ∧ c.1.depth < depthEntries m1 + 1) ∧
      (∀ c ∈ keyCalls kt (fun _ => Value.zero) (MapIndex ro m2) keys,
        FlagsAgree c.1 c.2.1 ∧ c.1.depth < depthEntries m1 + 1) ∧
      (∀ c ∈ keyCalls kt (MapIndex ro m1) (MapIndex ro m2) keys,
        FlagsAgree c.1 c.2.1 ∧ c.1.depth < depthEntries m1 + 1) := by
  refine ⟨?_, ?_, ?_⟩
  · intro c hc
    simp only [keyCalls, List.mem_map] at hc
    obtain ⟨k, _, rfl⟩ := hc
    exact ⟨fun _ h2 => (by cases h2), Nat.lt_succ_of_le (MapIndex_depth ro m1 k)⟩
  · intro c hc
    simp only [keyCalls, List.mem_map] at hc
    obtain ⟨k, _, rfl⟩ := hc
    exact ⟨fun h1 _ => (by cases h1), Nat.succ_pos _⟩
  · intro c hc
    simp only [keyCalls, List.mem_map] at hc
    obtain ⟨k, _, rfl⟩ := hc
    refine ⟨fun h1 h2 => ?_, Nat.lt_succ_of_le (MapIndex_depth ro m1 k)⟩
    rw [MapIndex_flagRO _ _ _ h1, MapIndex_flagRO _ _ _ h2]

/-! ### C17: the Diffs of two records -/

theorem pushed_of_ne (info : String) (S : List String) (h : info ≠ "") :
    pushed info S = S ++ [info] := by
  simp [pushed, h]

theorem push_empty (s : valueDiff) : push "" s = s := rfl

theorem pop_empty (s : valueDiff) : pop "" s = s := rfl

/-- C17: no composite-level noise for records.  For two records of the same type, with
the non-empty field names of Go, `DeepDiff` returns the Diffs that the comparisons of the
fields record, field after field: the path of every Diff starts with the name of a
declared field, so none is empty, and when every comparison of two corresponding fields
records no Diff the result is empty. -/
theorem record_diffs_are_field_diffs (t1 t2 : String) (fs1 fs2 : List (String × Flag × Data))
    (hT : (Data.struct t1 fs1).Type = (Data.struct t2 fs2).Type)
    (hn : ∀ f ∈ fs1, f.1 ≠ "") :
    ∃ groups : List (List Diff),
      DeepDiff (some (.struct t1 fs1)) (some (.struct t2 fs2)) = .ok groups.flatten ∧
      (∀ d ∈ groups.flatten, ∃ f ∈ fs1, ∃ rest, d.Stack = f.1 :: rest) ∧
      List.Forall₂ (fun c g => RecordedBy (deepValueDiff (depthFields fs1 + 1)) c g)
        (fieldCalls .zero .zero fs1 fs2) groups := by
  have hcs : ∀ c ∈ fieldCalls .zero .zero fs1 fs2,
      FlagsAgree c.1 c.2.1 ∧ c.1.depth < depthFields fs1 + 1 := by
    intro c hc
    have hc2 : c ∈ calls .zero .zero (.struct t1 fs1) (.struct t2 fs2) := hc
    exact ⟨child_flagsAgree (mem_calls hc2) hT, (mem_calls hc2).depth_lt⟩
  obtain ⟨t, groups, ht, _, hdf, hall⟩ :=
    groups_runCalls (depthFields fs1 + 1) (fieldCalls .zero .zero fs1 fs2) hcs ⟨[], [], []⟩
  have hl : fs1.length ≤ fs2.length := by
    simp only [Data.Type, Ty.struct.injEq] at hT
    have := congrArg List.length hT.2
    simp only [List.length_map] at this
    omega
  refine ⟨groups, ?_, ?_, ?_⟩
  · simp only [DeepDiff, DeepDiffValue, ValueOf, fuelFor, Data.depth]
    rw [deepValueDiff_succ, deepValueDiffBody_eq]
    simp only [hT, bne_self_eq_false, Bool.false_eq_true, if_false, hard, Data.Kind,
      Bool.false_and, mark, calls, push_empty, ht, verdict, hl, if_true, Bool.not_true,
      pop_empty, hdf, List.nil_append]
  · intro d hd
    obtain ⟨c, hc, g, ⟨hp, _⟩, hg⟩ := mem_flatten_of_forall₂ hall hd
    obtain ⟨f1, f2, hm, rfl⟩ := mem_fieldCalls _ _ _ _ _ hc
    have hf1 := (List.of_mem_zip hm).1
    obtain ⟨rest, hr⟩ := hp d hg
    refine ⟨f1, hf1, rest, ?_⟩
    rw [hr, pushed_of_ne _ _ (hn f1 hf1)]
    rfl
  · exact hall.imp (fun _ _ h => h.2)

theorem record_diffs_are_field_diffs_witness :
    ∃ groups : List (List Diff),
      DeepDiff (some openRecord) (some otherRecord) = .ok groups.flatten ∧
      ∀ d ∈ groups.flatten, ∃ rest, d.Stack = "X" :: rest ∨ d.Stack = "Y" :: rest := by
  obtain ⟨groups, h, hp, _⟩ := record_diffs_are_field_diffs "main.P" "main.P"
    [("X", .zero, intData 1), ("Y", .zero, .array (.basic "int") [intData 2, intData 3])]
    [("X", .zero, intData 5), ("Y", .zero, .array (.basic "int") [intData 2, intData 4])]
    rfl (by simp)
  refine ⟨groups, h, fun d hd => ?_⟩
  obtain ⟨f, hf, rest, hr⟩ := hp d hd
  simp only [List.mem_cons, List.mem_singleton, List.not_mem_nil, or_false] at hf
  rcases hf with rfl | rfl
  · exact ⟨rest, Or.inl hr⟩
  · exact ⟨rest, Or.inr hr⟩

/-! ### C18: the order of the Diffs of two maps -/

theorem groups_keyLoop (n : Nat) (kt : Ty) (get1 get2 : Scalar → Value) (keys : List Scalar)
    (hcs : ∀ c ∈ keyCalls kt get1 get2 keys, FlagsAgree c.1 c.2.1 ∧ c.1.depth < n)
    (s : valueDiff) (hs : s.stack = []) :
    ∃ t groups, keyLoop (deepValueDiff n) kt get1 get2 keys s = .ok t ∧ t.stack = [] ∧
      t.diffs = s.diffs ++ groups.flatten ∧
      List.Forall₂ (DiffsOfKey (deepValueDiff n) kt get1 get2) keys groups := by
  obtain ⟨t, groups, ht, hst, hdf, hall⟩ := groups_runCalls n _ hcs s
  refine ⟨t, groups, ?_, hst.trans hs, hdf, ?_⟩
  · rw [keyLoop_eq_runCalls, ht]
  · rw [hs] at hall
    have h2 : List.Forall₂ (fun k g => PathsUnder (pushed (keyString kt k) []) g ∧
        RecordedBy (deepValueDiff n) (get1 k, get2 k, keyString kt k) g) keys groups :=
      List.forall₂_map_left_iff.1 hall
    exact h2

/-- C18: emission order for mappings.  For two non-nil mappings of the same type with
distinct storage, the Diffs of `DeepDiff` are, in this order: the Diffs recorded for the
keys only in `m1` (compared with the zero handle), those for the keys only in `m2`, those
for the common keys; each of the three lists of keys is run through in non-decreasing
order of the string rendering of the keys, one group of Diffs per key. -/
theorem mapping_emission_order (kt el : Ty) (a1 a2 p1 p2 : Nat) (m1 m2 : List (Scalar × Data))
    (hp : p1 ≠ p2) :
    ∃ (onlyLeft common onlyRight : List Scalar) (gL gR gU : List (List Diff)),
      DeepDiff (some (.map kt el a1 (some (p1, m1)))) (some (.map kt el a2 (some (p2, m2))))
        = .ok (gL.flatten ++ (gR.flatten ++ gU.flatten)) ∧
      (∀ k, k ∈ onlyLeft ↔ k ∈ keysOf m1 ∧ presentIn m2 k = false) ∧
      (∀ k, k ∈ onlyRight ↔ k ∈ keysOf m2 ∧ presentIn m1 k = false) ∧
      (∀ k, k ∈ common ↔ k ∈ keysOf m1 ∧ presentIn m2 k = true) ∧
      SortedByRendering kt onlyLeft ∧ SortedByRendering kt onlyRight ∧
      SortedByRendering kt common ∧
      List.Forall₂ (DiffsOfKey (deepValueDiff (depthEntries m1 + 1)) kt (MapIndex .zero m1)
        (fun _ => Value.zero)) onlyLeft gL ∧
      List.Forall₂ (DiffsOfKey (deepValueDiff (depthEntries m1 + 1)) kt (fun _ => Value.zero)
        (MapIndex .zero m2)) onlyRight gR ∧
      List.Forall₂ (DiffsOfKey (deepValueDiff (depthEntries m1 + 1)) kt (MapIndex .zero m1)
        (MapIndex .zero m2)) common gU := by
  have hcL := keyCalls_flagsAgree_depth kt .zero m1 m2
  obtain ⟨t1, gL, h1, hs1, hd1, hall1⟩ := groups_keyLoop (depthEntries m1 + 1) kt
    (MapIndex .zero m1) (fun _ => Value.zero) (unionKey kt m1 m2).1
    (hcL _).1 ⟨[⟨min a1 a2, max a1 a2, Ty.map kt el⟩], [], []⟩ rfl
  obtain ⟨t2, gR, h2, hs2, hd2, hall2⟩ := groups_keyLoop (depthEntries m1 + 1) kt
    (fun _ => Value.zero) (MapIndex .zero m2) (unionKey kt m1 m2).2.2
    (hcL _).2.1 t1 hs1
  obtain ⟨t3, gU, h3, hs3, hd3, hall3⟩ := groups_keyLoop (depthEntries m1 + 1) kt
    (MapIndex .zero m1) (MapIndex .zero m2) (unionKey kt m1 m2).2.1
    (hcL _).2.2 t2 hs2
  refine ⟨(unionKey kt m1 m2).1, (unionKey kt m1 m2).2.1, (unionKey kt m1 m2).2.2, gL, gR, gU,
    ?_, ?_, ?_, ?_, ?_, ?_, ?_, hall1, hall2, hall3⟩
  · rw [DeepDiff_distinct_maps kt el a1 a2 p1 p2 m1 m2 hp, h1]
    dsimp only
    rw [h2]
    dsimp only
    rw [h3]
    dsimp only
    rw [hd3, hd2, hd1]
    simp only [List.nil_append, List.append_assoc]
  · intro k
    rw [unionKey_fst, mem_sortSlice, List.mem_filter]
    simp
  · intro k
    rw [unionKey_snd_snd, mem_sortSlice, List.mem_filter]
    simp
  · intro k
    rw [unionKey_snd_fst, mem_sortSlice, List.mem_filter]
  · rw [unionKey_fst]; exact sortSlice_sorted (keyString kt) _
  · rw [unionKey_snd_snd]; exact sortSlice_sorted (keyString kt) _
  · rw [unionKey_snd_fst]; exact sortSlice_sorted (keyString kt) _

theorem mapping_emission_order_witness :
    ∃ (onlyLeft common onlyRight : List Scalar) (gL gR gU : List (List Diff)),
      DeepDiff (some (stringMap 4096 8192 entriesA)) (some (stringMap 4104 8448 entriesBA))
        = .ok (gL.flatten ++ (gR.flatten ++ gU.flatten)) ∧
      (∀ k, k ∈ onlyLeft ↔ k ∈ keysOf entriesA ∧ presentIn entriesBA k = false) ∧
      (∀ k, k ∈ onlyRight ↔ k ∈ keysOf entriesBA ∧ presentIn entriesA k = false) ∧
      (∀ k, k ∈ common ↔ k ∈ keysOf entriesA ∧ presentIn entriesBA k = true) ∧
      SortedByRendering (.basic "string") onlyLeft ∧
      SortedByRendering (.basic "string") onlyRight ∧
      SortedByRendering (.basic "string") common ∧
      List.Forall₂ (DiffsOfKey (deepValueDiff (depthEntries entriesA + 1)) (.basic "string")
        (MapIndex .zero entriesA) (fun _ => Value.zero)) onlyLeft gL ∧
      List.Forall₂ (DiffsOfKey (deepValueDiff (depthEntries entriesA + 1)) (.basic "string")
        (fun _ => Value.zero) (MapIndex .zero entriesBA)) onlyRight gR ∧
      List.Forall₂ (DiffsOfKey (deepValueDiff (depthEntries entriesA + 1)) (.basic "string")
        (MapIndex .zero entriesA) (MapIndex .zero entriesBA)) common gU :=
  mapping_emission_order (.basic "string") (.basic "string") 4096 4104 8192 8448
    entriesA entriesBA (by decide)

/-! ### C19: the payloads of a Diff -/

theorem regular_of_mem_list {G : String → List Ty} {elem : Ty} {e : Data} {es : List Data}
    (h : e ∈ es) (hr : regularList G elem es = true) :
    e.Type = elem ∧ regular G e = true := by
  induction es with
  | nil => cases h
  | cons a as ih =>
    simp only [regularList, Bool.and_eq_true, beq_iff_eq] at hr
    rcases List.mem_cons.1 h with rfl | h
    · exact ⟨hr.1.1, hr.1.2⟩
    · exact ih h hr.2

theorem regular_of_mem_fields {G : String → List Ty} {f : String × Flag × Data}
    {fs : List (String × Flag × Data)} (h : f ∈ fs) (hr : regularFields G fs = true) :
    f.2.1 = Flag.zero ∧ regular G f.2.2 = true := by
  induction fs with
  | nil => cases h
  | cons a as ih =>
    obtain ⟨n, x, d⟩ := a
    simp only [regularFields, Bool.and_eq_true, beq_iff_eq] at hr
    rcases List.mem_cons.1 h with rfl | h
    · exact ⟨hr.1.1, hr.1.2⟩
    · exact ih h hr.2

theorem regular_of_mem_entries {G : String → List Ty} {elem : Ty} {e : Scalar × Data}
    {es : List (Scalar × Data)} (h : e ∈ es) (hr : regularEntries G elem es = true) :
    e.2.Type = elem ∧ e.2.isNilBox = false ∧ regular G e.2 = true := by
  induction es with
  | nil => cases h
  | cons a as ih =>
    obtain ⟨k, d⟩ := a
    simp only [regularEntries, Bool.and_eq_true, beq_iff_eq, Bool.not_eq_true'] at hr
    rcases List.mem_cons.1 h with rfl | h
    · exact ⟨hr.1.1.1, hr.1.1.2, hr.1.2⟩
    · exact ih h hr.2

theorem Matched.of_same_type {G : String → List Ty} {a b : Data}
    (ha : regular G a = true) (hb : regular G b = true) (hT : a.Type = b.Type) :
    Matched G ⟨some a, .zero⟩ ⟨some b, .zero⟩ where
  left := fun d hd => by cases hd; exact ⟨ha, rfl⟩
  right := fun d hd => by cases hd; exact ⟨hb, rfl⟩
  aloneLeft := fun d _ h2 => by cases h2
  aloneRight := fun d _ h1 => by cases h1
  types := fun d1 d2 h1 h2 hne => by cases h1; cases h2; exact absurd hT hne

theorem Matched.of_entry_left {G : String → List Ty} {elem : Ty} (m : List (Scalar × Data))
    (k : Scalar) (hr : regularEntries G elem m = true) :
    Matched G (MapIndex .zero m k) Value.zero where
  left := fun d hd => by
    rcases MapIndex_mem .zero m k with hz | ⟨e, he, hm⟩
    · rw [hz] at hd; cases hd
    · rw [hm] at hd ⊢
      cases hd
      exact ⟨(regular_of_mem_entries he hr).2.2, rfl⟩
  right := fun d hd => by cases hd
  aloneLeft := fun d hd _ => by
    rcases MapIndex_mem .zero m k with hz | ⟨e, he, hm⟩
    · rw [hz] at hd; cases hd
    · rw [hm] at hd
      cases hd
      exact (regular_of_mem_entries he hr).2.1
  aloneRight := fun d hd _ => by cases hd
  types := fun d1 d2 _ h2 _ => by cases h2

theorem Matched.of_entry_right {G : String → List Ty} {elem : Ty} (m : List (Scalar × Data))
    (k : Scalar) (hr : regularEntries G elem m = true) :
    Matched G Value.zero (MapIndex .zero m k) where
  left := fun d hd => by cases hd
  right := fun d hd => by
    rcases MapIndex_mem .zero m k with hz | ⟨e, he, hm⟩
    · rw [hz] at hd; cases hd
    · rw [hm] at hd ⊢
      cases hd
      exact ⟨(regular_of_mem_entries he hr).2.2, rfl⟩
  aloneLeft := fun d hd _ => by cases hd
  aloneRight := fun d hd _ => by
    rcases MapIndex_mem .zero m k with hz | ⟨e, he, hm⟩
    · rw [hz] at hd; cases hd
    · rw [hm] at hd
      cases hd
      exact (regular_of_mem_entries he hr).2.1
  types := fun d1 d2 h1 _ _ => by cases h1

theorem Matched.of_entries {G : String → List Ty} {elem : Ty} (m1 m2 : List (Scalar × Data))
    (k : Scalar) (h1 : regularEntries G elem m1 = true) (h2 : regularEntries G elem m2 = true) :
    Matched G (MapIndex .zero m1 k) (MapIndex .zero m2 k) := by
  rcases MapIndex_mem .zero m1 k with hz1 | ⟨e1, he1, hm1⟩
  · rw [hz1]; exact Matched.of_entry_right m2 k h2
  · rcases MapIndex_mem .zero m2 k with hz2 | ⟨e2, he2, hm2⟩
    · rw [hz2]; exact Matched.of_entry_left m1 k h1
    · rw [hm1, hm2]
      have r1 := regular_of_mem_entries he1 h1
      have r2 := regular_of_mem_entries he2 h2
      exact Matched.of_same_type r1.2.2 r2.2.2 (r1.1.trans r2.1.symm)

theorem child_matched {G : String → List Ty} {d1 d2 : Data} {c : Call}
    (h : Child .zero .zero d1 d2 c) (h1 : regular G d1 = true) (h2 : regular G d2 = true)
    (hT : d1.Type = d2.Type) : Matched G c.1 c.2.1 := by
  cases h with
  | index_array i hm =>
    simp only [regular] at h1 h2
    simp only [Data.Type, Ty.array.injEq] at hT
    have ra := regular_of_mem_list (List.of_mem_zip hm).1 h1
    have rb := regular_of_mem_list (List.of_mem_zip hm).2 h2
    exact Matched.of_same_type ra.2 rb.2 (by rw [ra.1, rb.1, hT.2])
  | index_slice i hp hl hm =>
    simp only [regular] at h1 h2
    simp only [Data.Type, Ty.slice.injEq] at hT
    have ra := regular_of_mem_list (List.of_mem_zip hm).1 h1
    have rb := regular_of_mem_list (List.of_mem_zip hm).2 h2
    exact Matched.of_same_type ra.2 rb.2 (by rw [ra.1, rb.1, hT])
  | elem_iface =>
    simp only [regular, Bool.and_eq_true, bne_iff_ne, ne_eq] at h1 h2
    exact ⟨fun d hd => (by cases hd; exact ⟨h1.2, rfl⟩),
      fun d hd => (by cases hd; exact ⟨h2.2, rfl⟩),
      fun d _ hn => (by cases hn), fun d _ hn => (by cases hn),
      fun a b ha hb _ => (by cases ha; cases hb; exact ⟨h1.1, h2.1⟩)⟩
  | elem_ptr hp =>
    simp only [regular, Bool.and_eq_true, beq_iff_eq] at h1 h2
    simp only [Data.Type, Ty.ptr.injEq] at hT
    exact Matched.of_same_type h1.2 h2.2 (by rw [h1.1, h2.1, hT])
  | @field t1 t2 fs1 fs2 f1 f2 hm =>
    simp only [regular, Bool.and_eq_true, beq_iff_eq] at h1 h2
    simp only [Data.Type, Ty.struct.injEq] at hT
    have ra := regular_of_mem_fields (List.of_mem_zip hm).1 h1.2
    have rb := regular_of_mem_fields (List.of_mem_zip hm).2 h2.2
    have hty : fs1.map (fun f => f.2.2.Type) = fs2.map (fun f => f.2.2.Type) := by
      rw [h1.1, h2.1, hT.1]
    have := zip_map_eq (fun f : String × Flag × Data => f.2.2.Type) _ _ hty _ hm
    simp only [ra.1, rb.1, Bool.not_true, Bool.or_false]
    exact Matched.of_same_type ra.2 rb.2 this
  | key_left hp hk =>
    simp only [regular] at h1
    exact Matched.of_entry_left _ _ h1
  | key_right hp hk =>
    simp only [regular] at h2
    exact Matched.of_entry_right _ _ h2
  | key_both hp hk =>
    simp only [regular] at h1 h2
    simp only [Data.Type, Ty.map.injEq] at hT
    rw [hT.2] at h1
    exact Matched.of_entries _ _ _ h1 h2

theorem below_matched {G : String → List Ty} {v1 v2 e1 e2 : Value} {path : List String}
    (h : Below v1 v2 path e1 e2) (hm : Matched G v1 v2) : Matched G e1 e2 := by
  induction h with
  | here v1 v2 => exact hm
  | @step v1 v2 c1 c2 e1 e2 info path hc _ ih =>
    apply ih
    obtain ⟨o1, ro1⟩ := v1
    obtain ⟨o2, ro2⟩ := v2
    cases o1 with
    | none => simp [callsV] at hc
    | some d1 =>
      cases o2 with
      | none => simp [callsV] at hc
      | some d2 =>
        obtain ⟨r1, f1⟩ := hm.left d1 rfl
        obtain ⟨r2, f2⟩ := hm.right d2 rfl
        simp only at f1 f2
        subst f1
        subst f2
        by_cases hT : d1.Type = d2.Type
        · rw [callsV_some _ _ _ _ hT] at hc
          exact child_matched (mem_calls hc) r1 r2 hT
        · simp [callsV, hT] at hc

theorem payload_box (t : String) (a : Nat) (inner : Option Data) :
    payload ⟨some (.iface t a inner), .zero⟩ = inner := rfl

theorem payload_zero (ro : Flag) : payload ⟨none, ro⟩ = none := rfl

theorem payload_ne_none (d : Data) (h : d.isNilBox = false) :
    payload ⟨some d, .zero⟩ ≠ none := by
  by_cases hk : d.Kind = Kind.Interface
  · cases d <;> try (simp [Data.Kind] at hk; done)
    · rename_i p; cases p <;> simp [Data.Kind] at hk
    · rename_i t a inner
      cases inner with
      | none => simp [Data.isNilBox] at h
      | some e => simp [payload_box]
    · rename_i k t p; cases k <;> simp [Data.Kind] at hk
  · rw [payload_ValueOf d hk]; simp

theorem Kind_ne_Interface {d : Data} (h : ∀ t a i, d ≠ .iface t a i) :
    d.Kind ≠ Kind.Interface := by
  cases d with
  | scalar t p => cases p <;> simp [Data.Kind]
  | ident k t p => cases k <;> simp [Data.Kind]
  | iface t a i => exact absurd rfl (h t a i)
  | _ => simp [Data.Kind]

theorem payload_ne_of_ne {d1 d2 : Data} (k1 : d1.Kind ≠ Kind.Interface)
    (k2 : d2.Kind ≠ Kind.Interface) (h : d1 ≠ d2) :
    payload ⟨some d1, .zero⟩ ≠ payload ⟨some d2, .zero⟩ := by
  rw [payload_ValueOf d1 k1, payload_ValueOf d2 k2]
  intro c
  exact h (Option.some.inj c)

/-- When the switch returns false for two values of one type, the first regular, the two
payloads differ. -/
theorem verdict_false_payload {G : String → List Ty} {d1 d2 : Data}
    (h1 : regular G d1 = true) (hT : d1.Type = d2.Type)
    (hv : verdict .zero .zero d1 d2 = .ok false) :
    payload ⟨some d1, .zero⟩ ≠ payload ⟨some d2, .zero⟩ := by
  cases d1 with
  | scalar t1 q1 =>
    cases d2 <;> try (simp [Data.Type] at hT; done)
    rename_i t2 q2
    simp only [Data.Type, Ty.basic.injEq] at hT
    subst hT
    simp only [regular] at h1
    refine payload_ne_of_ne (Kind_ne_Interface (by simp)) (Kind_ne_Interface (by simp)) ?_
    intro c
    simp only [Data.scalar.injEq, true_and] at c
    subst c
    simp [verdict, defaultVerdict, Value.CanInterface, Value.Interface, Value.IsValid,
      Value.boxed, DeepEqual, h1] at hv
  | ident k1 t1 q1 =>
    cases d2 <;> try (simp [Data.Type] at hT; done)
    rename_i k2 t2 q2
    refine payload_ne_of_ne (Kind_ne_Interface (by simp)) (Kind_ne_Interface (by simp)) ?_
    intro c
    simp only [Data.ident.injEq] at c
    obtain ⟨rfl, rfl, rfl⟩ := c
    simp only [verdict] at hv
    by_cases h0 : q1 = 0
    · simp [h0] at hv
    · simp [h0] at hv
  | array el1 es1 =>
    cases d2 <;> try (simp [Data.Type] at hT; done)
    simp only [verdict] at hv
    split at hv <;> simp at hv
  | struct t1 fs1 =>
    cases d2 <;> try (simp [Data.Type] at hT; done)
    simp only [verdict] at hv
    split at hv <;> simp at hv
  | slice el1 a1 st1 =>
    cases d2 <;> try (simp [Data.Type] at hT; done)
    rename_i el2 a2 st2
    refine payload_ne_of_ne (Kind_ne_Interface (by simp)) (Kind_ne_Interface (by simp)) ?_
    intro c
    simp only [Data.slice.injEq] at c
    obtain ⟨rfl, rfl, rfl⟩ := c
    cases st1 with
    | none => simp [verdict] at hv
    | some x => simp [verdict] at hv
  | iface t1 a1 i1 =>
    cases d2 <;> try (simp [Data.Type] at hT; done)
    rename_i t2 a2 i2
    rw [payload_box, payload_box]
    cases i1 <;> cases i2 <;> simp [verdict] at hv ⊢
  | ptr el1 a1 st1 =>
    cases d2 <;> try (simp [Data.Type] at hT; done)
    rename_i el2 a2 st2
    refine payload_ne_of_ne (Kind_ne_Interface (by simp)) (Kind_ne_Interface (by simp)) ?_
    intro c
    simp only [Data.ptr.injEq] at c
    obtain ⟨rfl, rfl, rfl⟩ := c
    cases st1 <;> simp [verdict] at hv
  | map kt1 el1 a1 st1 =>
    cases d2 <;> try (simp [Data.Type] at hT; done)
    rename_i kt2 el2 a2 st2
    refine payload_ne_of_ne (Kind_ne_Interface (by simp)) (Kind_ne_Interface (by simp)) ?_
    intro c
    simp only [Data.map.injEq] at c
    obtain ⟨rfl, rfl, rfl, rfl⟩ := c
    cases st1 <;> simp [verdict] at hv

theorem Matched.payload_ne {G : String → List Ty} {e1 e2 : Value} (hm : Matched G e1 e2)
    (hu : Unexplained e1 e2) : payload e1 ≠ payload e2 := by
  obtain ⟨o1, ro1⟩ := e1
  obtain ⟨o2, ro2⟩ := e2
  cases o1 with
  | none =>
    cases o2 with
    | none => exact absurd hu (by simp [Unexplained])
    | some d2 =>
      have f2 := (hm.right d2 rfl).2
      simp only at f2
      subst f2
      rw [payload_zero]
      exact fun c => payload_ne_none d2 (hm.aloneRight d2 rfl rfl) c.symm
  | some d1 =>
    have f1 := (hm.left d1 rfl).2
    simp only at f1
    subst f1
    cases o2 with
    | none =>
      rw [payload_zero]
      exact payload_ne_none d1 (hm.aloneLeft d1 rfl rfl)
    | some d2 =>
      have f2 := (hm.right d2 rfl).2
      simp only at f2
      subst f2
      by_cases hT : d1.Type = d2.Type
      · simp only [Unexplained] at hu
        rcases hu with hu | hu
        · exact absurd hT hu
        · exact verdict_false_payload (hm.left d1 rfl).1 hT hu
      · obtain ⟨k1, k2⟩ := hm.types d1 d2 rfl rfl hT
        exact payload_ne_of_ne k1 k2 (fun c => hT (by rw [c]))

theorem Matched.of_args {G : String → List Ty} {x y : Option Data}
    (hx : regularArg G x = true) (hy : regularArg G y = true) :
    Matched G (ValueOf x) (ValueOf y) := by
  have nb : ∀ d : Data, d.Kind ≠ Kind.Interface → d.isNilBox = false := by
    intro d hk
    cases d <;> first | rfl | skip
    rename_i t a i
    exact absurd rfl hk
  cases x with
  | none =>
    cases y with
    | none =>
      exact ⟨fun d hd => (by cases hd), fun d hd => (by cases hd), fun d hd => (by cases hd),
        fun d hd => (by cases hd), fun a b ha => (by cases ha)⟩
    | some b =>
      simp only [regularArg, Bool.and_eq_true, bne_iff_ne, ne_eq] at hy
      exact ⟨fun d hd => (by cases hd), fun d hd => (by cases hd; exact ⟨hy.2, rfl⟩),
        fun d hd => (by cases hd), fun d hd _ => (by cases hd; exact nb _ hy.1),
        fun a b ha => (by cases ha)⟩
  | some a =>
    simp only [regularArg, Bool.and_eq_true, bne_iff_ne, ne_eq] at hx
    cases y with
    | none =>
      exact ⟨fun d hd => (by cases hd; exact ⟨hx.2, rfl⟩), fun d hd => (by cases hd),
        fun d hd _ => (by cases hd; exact nb _ hx.1), fun d hd => (by cases hd),
        fun a b _ hb => (by cases hb)⟩
    | some b =>
      simp only [regularArg, Bool.and_eq_true, bne_iff_ne, ne_eq] at hy
      exact ⟨fun d hd => (by cases hd; exact ⟨hx.2, rfl⟩),
        fun d hd => (by cases hd; exact ⟨hy.2, rfl⟩),
        fun d _ hn => (by cases hn), fun d _ hn => (by cases hn),
        fun a b ha hb _ => (by cases ha; cases hb; exact ⟨hx.1, hy.1⟩)⟩

/-- C19, counterexample: the key `"a"` is present in the first mapping with a nil boxed
value and absent from the second; the Diff reported for it has both payloads nil. -/
theorem nil_boxed_entry_has_nil_payloads :
    DeepDiff (some (singleMap "a" 4096 8192 12288 none)) (some (jsonObject 4104 8448 []))
      = .ok [⟨["a"], none, none⟩] := rfl

/-- C19, amended: for two well-typed values in which no scalar is a NaN, no record field
is unexported and no mapping holds a nil boxed value, `DeepDiff` returns, and every Diff
it reports has a left and a right payload that are not equal; in particular they are
never both nil. -/
theorem diffs_have_different_payloads (fieldTypes : String → List Ty) (x y : Option Data)
    (hx : regularArg fieldTypes x = true) (hy : regularArg fieldTypes y = true) :
    ∃ diffs, DeepDiff x y = .ok diffs ∧
      ∀ d ∈ diffs, d.Src ≠ d.Dist ∧ ¬ (d.Src = none ∧ d.Dist = none) := by
  unfold DeepDiff DeepDiffValue
  rw [fuelFor_eq]
  rcases returns_deepValueDiff ((ValueOf x).depth + 1) (ValueOf x) (ValueOf y) ""
    ⟨[], [], []⟩ (fun _ _ => rfl) with ⟨t, ht⟩ | ⟨_, hle⟩
  · rw [ht]
    refine ⟨t.diffs, rfl, ?_⟩
    obtain ⟨D, hD, hsite⟩ := (frame_deepValueDiff _ _ _ _ _ _ ht).2.diffs
    intro d hd
    rw [hD] at hd
    obtain ⟨e1, e2, path, hb, hu, rfl⟩ := hsite d (by simpa using hd)
    have hne := (below_matched hb (Matched.of_args hx hy)).payload_ne hu
    exact ⟨hne, fun c => hne (c.1.trans c.2.symm)⟩
  · omega

theorem diffs_have_different_payloads_witness :
    ∃ diffs,
      DeepDiff (some (jsonObject 4096 8192 [(.str "a", boxedAt 12288 num1)]))
        (some (jsonObject 4104 8448 [(.str "a", boxedAt 12304 num2),
          (.str "b", boxedAt 12320 num0)])) = .ok diffs ∧
      ∀ d ∈ diffs, d.Src ≠ d.Dist ∧ ¬ (d.Src = none ∧ d.Dist = none) :=
  diffs_have_different_payloads (fun _ => []) _ _ rfl rfl

/-! ### C12: a self-referential map -/

theorem selfMap_Type (h k addr copy : Nat) :
    (selfMap h k addr copy).Type = .map (.basic "string") linkTy := by
  cases k <;> rfl

/-- The comparison of two unfoldings of self-referential maps with different pointers,
seen through handles whose words are larger than every word of a visited key, runs out
of fuel when the fuel is at most twice the number of unfoldings: the key of every pair of
`Next` handles is new, so no pair is found in the visited set. -/
theorem selfMap_outOfFuel (h1 h2 : Nat) (hh : h1 ≠ h2) :
    ∀ (k n a b c : Nat) (info : String) (s : valueDiff), n ≤ 2 * k →
      (∀ key ∈ s.visited, key.a1 < min a b) → min a b < c →
      deepValueDiff n ⟨some (selfMap h1 k a c), .zero⟩ ⟨some (selfMap h2 k b (c + 16)), .zero⟩
        info s = .error .outOfFuel := by
  intro k
  induction k with
  | zero =>
    intro n a b c info s hn _ _
    obtain rfl : n = 0 := by omega
    rfl
  | succ k ih =>
    intro n a b c info s hn hV hc
    cases n with
    | zero => rfl
    | succ n =>
      have hfresh : ¬ (⟨min a b, max a b, Ty.map (.basic "string") linkTy⟩ : visit)
          ∈ (push info s).visited := by
        rw [push_visited]
        intro hm
        exact Nat.lt_irrefl _ (hV _ hm)
      rw [deepValueDiff_succ, deepValueDiffBody_eq]
      simp only [selfMap, Data.Type, bne_self_eq_false, Bool.false_eq_true, if_false, hard,
        Data.Kind, Data.IsNil, Option.isNone, Bool.not_false, Bool.and_self, Bool.true_and,
        visitKey, Data.ptrWord, decide_eq_true_eq, hfresh, mark, if_true, calls, beq_iff_eq,
        hh, unionKey_single, keyCalls, List.map_nil, List.map_cons, List.nil_append,
        MapIndex_single, Flag.join_self, Flag.ro_zero, Flag.join_zero_zero, runCalls, keyString_str]
      cases n with
      | zero => rfl
      | succ n =>
        rw [deepValueDiff_succ, deepValueDiffBody_eq]
        simp only [Data.Type, List.map_cons, List.map_nil, bne_self_eq_false,
          Bool.false_eq_true, if_false, hard, Data.Kind, Bool.false_and, mark, calls,
          fieldCalls, runCalls, Bool.not_true, Flag.join_self, Flag.ro_zero,
          Flag.join_zero_zero, Flag.field_zero]
        rw [ih n c (c + 16) (c + 32) "Next" _ (by omega) ?_ (by simp)]
        · intro key hkey
          rw [push_visited] at hkey
          simp only [List.mem_cons] at hkey
          rcases hkey with rfl | hkey
          · show min a b < min c (c + 16)
            omega
          · rw [push_visited] at hkey
            have := hV key hkey
            omega

/-- For contrast: when the self-reference goes through a boxed value, the handle of the
inner map holds the same word as the handle of the outer map, the pair is found in the
visited set, and the comparison returns in its third frame, however far the two maps are
unfolded. -/
theorem boxed_self_reference_returns (k c1 c2 : Nat) :
    deepValueDiff 3 (ValueOf (some (boxedSelfMap 4096 (k + 2) c1)))
      (ValueOf (some (boxedSelfMap 8192 (k + 2) c2))) "" ⟨[], [], []⟩
      = .ok (true, ⟨[⟨min c1 c2, max c1 c2, anyTy⟩,
          ⟨4096, 8192, .map (.basic "string") anyTy⟩], [], []⟩) := by
  have h1 : (⟨min c1 c2, max c1 c2, Ty.iface "interface {}"⟩ : visit)
      ≠ ⟨4096, 8192, .map (.basic "string") (.iface "interface {}")⟩ := by
    intro c; injection c with _ _ c; cases c
  rw [deepValueDiff_succ, deepValueDiffBody_eq]
  simp only [ValueOf, boxedSelfMap, anyTy, Data.Type, bne_self_eq_false, Bool.false_eq_true,
    if_false, hard, Data.Kind, Data.IsNil, Option.isNone, Bool.not_false, Bool.and_self,
    Bool.true_and, visitKey, Data.ptrWord, push_empty, List.not_mem_nil, decide_False, mark,
    if_true, calls, beq_iff_eq, Nat.reduceEqDiff, unionKey_single,
    keyCalls, List.map_nil, List.map_cons, List.nil_append, MapIndex_single, Flag.join_self, Flag.ro_zero, Flag.join_zero_zero,
    runCalls, keyString_str]
  rw [deepValueDiff_succ, deepValueDiffBody_eq]
  simp only [Data.Type, bne_self_eq_false, Bool.false_eq_true, if_false, hard, Data.Kind,
    Data.IsNil, Option.isNone, Bool.not_false, Bool.and_self, Bool.true_and, visitKey,
    Data.ptrWord, push_visited, List.mem_singleton, h1, decide_False, mark, if_true, calls,
    runCalls]
  rw [deepValueDiff_succ, deepValueDiffBody_eq]
  simp [Data.Type, hard, Data.Kind, Data.IsNil, visitKey, Data.ptrWord, push_visited, push,
    pop, verdict]

/-- C12, at the failing input: `x` is the map of type `M = map[string]S`,
`S = struct ( Next M; Tag int )`, with `x["a"] = S(Next: x)`, and `y` another such map.
The comparison of `x` with `y` unfolded `k` times does not return within `2 * k` frames,
whatever `k` is: every pair of `Next` handles has words of its own, its key is never in
the visited set, and the recursion goes on as far as the maps are unfolded; on the maps
themselves it does not end. -/
theorem self_referential_map_never_returns (n k : Nat) (h : n ≤ 2 * k) :
    deepValueDiff n (ValueOf (some (selfMap 4096 k 4096 65536)))
      (ValueOf (some (selfMap 8192 k 8192 65552))) "" ⟨[], [], []⟩ = .error .outOfFuel :=
  selfMap_outOfFuel 4096 8192 (by decide) k n 4096 8192 65536 "" ⟨[], [], []⟩ h
    (fun _ hm => by cases hm) (by decide)

theorem self_referential_map_never_returns_witness :
    deepValueDiff 6 (ValueOf (some (selfMap 4096 3 4096 65536)))
      (ValueOf (some (selfMap 8192 3 8192 65552))) "" ⟨[], [], []⟩ = .error .outOfFuel :=
  self_referential_map_never_returns 6 3 (by decide)

/-! ### C7: exchanging the two arguments, Diff for Diff -/

theorem keyCalls_swap (keyType : Ty) (get1 get2 : Scalar → Value) (keys : List Scalar) :
    (keyCalls keyType get1 get2 keys).map swapCall = keyCalls keyType get2 get1 keys := by
  simp only [keyCalls, List.map_map]
  rfl

theorem indexCalls_swap (ro : Flag) :
    ∀ (es1 es2 : List Data) (i : Nat),
      indexCalls ro ro es2 es1 i = (indexCalls ro ro es1 es2 i).map swapCall
  | [], [], _ => rfl
  | [], _ :: _, _ => rfl
  | _ :: _, [], _ => rfl
  | a :: as, b :: bs, i => by
    simp only [indexCalls, List.map_cons, swapCall]
    rw [indexCalls_swap ro as bs (i + 1)]

theorem fieldCalls_swap (ro : Flag) :
    ∀ (fs1 fs2 : List (String × Flag × Data)),
      fs1.map (fun f => (f.1, f.2.1)) = fs2.map (fun f => (f.1, f.2.1)) →
      fieldCalls ro ro fs2 fs1 = (fieldCalls ro ro fs1 fs2).map swapCall
  | [], [], _ => rfl
  | [], _ :: _, _ => rfl
  | _ :: _, [], _ => rfl
  | a :: as, b :: bs, h => by
    simp only [List.map_cons, List.cons.injEq, Prod.mk.injEq] at h
    simp only [fieldCalls, List.map_cons, swapCall]
    rw [fieldCalls_swap ro as bs h.2, h.1.1, h.1.2]

theorem kindSwitchRightFirst_eq (rec : Rec) (ro1 ro2 : Flag) (d1 d2 : Data) (v : valueDiff) :
    kindSwitchRightFirst rec ro1 ro2 d1 d2 v =
      match runCalls rec (callsRightFirst ro1 ro2 d1 d2) v with
      | .error e => .error e
      | .ok t =>
        match verdict ro1 ro2 d1 d2 with
        | .ok b => .ok (b, t)
        | .error e => .error e := by
  have other : kindSwitchRightFirst rec ro1 ro2 d1 d2 v = kindSwitch rec ro1 ro2 d1 d2 v →
      callsRightFirst ro1 ro2 d1 d2 = calls ro1 ro2 d1 d2 →
      kindSwitchRightFirst rec ro1 ro2 d1 d2 v =
        match runCalls rec (callsRightFirst ro1 ro2 d1 d2) v with
        | .error e => .error e
        | .ok t =>
          match verdict ro1 ro2 d1 d2 with
          | .ok b => .ok (b, t)
          | .error e => .error e := by
    intro h1 h2
    rw [h1, h2]
    exact kindSwitch_eq rec ro1 ro2 d1 d2 v
  cases d1 with
  | map kt1 el1 a1 st1 =>
    cases st1 with
    | none => cases d2 <;> exact other rfl rfl
    | some x1 =>
      obtain ⟨p1, m1⟩ := x1
      cases d2 with
      | map kt2 el2 a2 st2 =>
        cases st2 with
        | none => exact other rfl rfl
        | some x2 =>
          obtain ⟨p2, m2⟩ := x2
          simp only [kindSwitchRightFirst, callsRightFirst, verdict]
          by_cases hp : (p1 == p2) = true
          · simp only [hp, if_true, runCalls]
          · simp only [hp, Bool.false_eq_true, if_false, runCalls_append, keyLoop_eq_runCalls]
            cases runCalls rec (keyCalls kt1 (fun _ => Value.zero) (MapIndex ro2.ro m2)
              (unionKey kt1 m1 m2).2.2) v with
            | error e => rfl
            | ok t =>
              dsimp only
              cases runCalls rec (keyCalls kt1 (MapIndex ro1.ro m1) (fun _ => Value.zero)
                (unionKey kt1 m1 m2).1) t with
              | error e => rfl
              | ok u => rfl
      | _ => exact other rfl rfl
  | _ => cases d2 <;> exact other rfl rfl

theorem deepValueDiffBodyRightFirst_eq (rec : Rec) (v1 v2 : Value) (v : valueDiff) :
    deepValueDiffBodyRightFirst rec v1 v2 v =
      match v1.data, v2.data with
      | some d1, some d2 =>
        if d1.Type != d2.Type then .ok (false, v)
        else if hard d1 d2 && decide (visitKey d1 d2 ∈ v.visited) then .ok (true, v)
        else
          match runCalls rec (callsRightFirst v1.flagRO v2.flagRO d1 d2) (mark d1 d2 v) with
          | .error e => .error e
          | .ok t =>
            match verdict v1.flagRO v2.flagRO d1 d2 with
            | .ok b => .ok (b, t)
            | .error e => .error e
      | _, _ => .ok (v1.IsValid == v2.IsValid, v) := by
  unfold deepValueDiffBodyRightFirst
  cases v1.data with
  | none => rfl
  | some d1 =>
    cases v2.data with
    | none => rfl
    | some d2 =>
      simp only [kindSwitchRightFirst_eq, visitKey, mark]

theorem deepValueDiffRightFirst_succ (fuel : Nat) (v1 v2 : Value) (info : String)
    (s : valueDiff) :
    deepValueDiffRightFirst (fuel + 1) v1 v2 info s =
      match deepValueDiffBodyRightFirst (deepValueDiffRightFirst fuel) v1 v2 (push info s) with
      | .error e => .error e
      | .ok r => .ok (true, pop info (if !r.1 then saveDiff r.2 v1 v2 else r.2)) := rfl

/-- On two values of one type in which every map has pairwise different string keys, the
calls for the exchanged pair are the calls of `kindSwitchRightFirst` for the pair, in the
same order, each with its handles exchanged. -/
theorem calls_swap (ro : Flag) (d1 d2 : Data) (hT : d1.Type = d2.Type)
    (hk1 : stringKeyed d1 = true) (hk2 : stringKeyed d2 = true) :
    calls ro ro d2 d1 = (callsRightFirst ro ro d1 d2).map swapCall := by
  cases d1 with
  | scalar t1 q1 => cases d2 <;> rfl
  | ident k1 t1 q1 => cases d2 <;> rfl
  | array el1 es1 =>
    cases d2 <;> try (simp [Data.Type] at hT; done)
    rename_i el2 es2
    exact indexCalls_swap ro.ro es1 es2 0
  | struct t1 fs1 =>
    cases d2 <;> try (simp [Data.Type] at hT; done)
    rename_i t2 fs2
    simp only [Data.Type, Ty.struct.injEq] at hT
    exact fieldCalls_swap ro fs1 fs2 hT.2
  | slice el1 a1 st1 =>
    cases d2 <;> try (simp [Data.Type] at hT; done)
    rename_i el2 a2 st2
    cases st1 with
    | none => cases st2 <;> rfl
    | some x1 =>
      cases st2 with
      | none => rfl
      | some x2 =>
        obtain ⟨p1, es1⟩ := x1
        obtain ⟨p2, es2⟩ := x2
        show calls ro ro _ _ = (calls ro ro (.slice el1 a1 (some (p1, es1)))
          (.slice el2 a2 (some (p2, es2)))).map swapCall
        simp only [calls]
        by_cases hp : p1 = p2
        · subst hp
          simp only [beq_self_eq_true, if_true, List.map_nil]
        · have hp2 : ¬ p2 = p1 := fun c => hp c.symm
          simp only [beq_iff_eq, hp, hp2, if_false]
          by_cases hl : es1.length = es2.length
          · simp only [hl, bne_self_eq_false, Bool.false_eq_true, if_false]
            exact indexCalls_swap ro.ro es1 es2 0
          · have hl2 : ¬ es2.length = es1.length := fun c => hl c.symm
            simp only [bne_iff_ne, ne_eq, hl, hl2, not_false_eq_true, if_true, List.map_nil]
  | iface t1 a1 i1 =>
    cases d2 <;> try (simp [Data.Type] at hT; done)
    rename_i t2 a2 i2
    cases i1 with
    | none => cases i2 <;> rfl
    | some e1 =>
      cases i2 with
      | none => rfl
      | some e2 => rfl
  | ptr el1 a1 t1 =>
    cases d2 <;> try (simp [Data.Type] at hT; done)
    rename_i el2 a2 t2
    cases t1 with
    | none => cases t2 <;> rfl
    | some x1 =>
      cases t2 with
      | none => rfl
      | some x2 =>
        obtain ⟨p1, e1⟩ := x1
        obtain ⟨p2, e2⟩ := x2
        show calls ro ro _ _ = (calls ro ro (.ptr el1 a1 (some (p1, e1)))
          (.ptr el2 a2 (some (p2, e2)))).map swapCall
        simp only [calls]
        by_cases hp : p1 = p2
        · subst hp
          simp only [beq_self_eq_true, if_true, List.map_nil]
        · have hp2 : ¬ p2 = p1 := fun c => hp c.symm
          simp only [beq_iff_eq, hp, hp2, if_false, List.map_cons, List.map_nil, swapCall]
  | map kt1 el1 a1 st1 =>
    cases d2 <;> try (simp [Data.Type] at hT; done)
    rename_i kt2 el2 a2 st2
    simp only [Data.Type, Ty.map.injEq] at hT
    obtain ⟨hkt, _⟩ := hT
    subst hkt
    cases st1 with
    | none => cases st2 <;> rfl
    | some x1 =>
      cases st2 with
      | none => rfl
      | some x2 =>
        obtain ⟨p1, m1⟩ := x1
        obtain ⟨p2, m2⟩ := x2
        simp only [stringKeyed, Bool.and_eq_true, decide_eq_true_eq] at hk1 hk2
        simp only [calls, callsRightFirst]
        by_cases hp : p1 = p2
        · subst hp
          simp only [beq_self_eq_true, if_true, List.map_nil]
        · have hp2 : ¬ p2 = p1 := fun c => hp c.symm
          simp only [beq_iff_eq, hp, hp2, if_false, Flag.join_self]
          cases kt1 <;> try (simp [Ty.isBasic] at hk1; done)
          rename_i kname
          rw [unionKey_swap kname m1 m2 hk1.1.1.2 hk2.1.1.2 hk1.1.2 hk2.1.2]
          simp only [List.map_append, keyCalls_swap]

theorem mem_callsRightFirst {ro1 ro2 : Flag} {d1 d2 : Data} {c : Call}
    (h : c ∈ callsRightFirst ro1 ro2 d1 d2) : c ∈ calls ro1 ro2 d1 d2 := by
  cases d1 with
  | map kt1 el1 a1 st1 =>
    cases st1 with
    | none => cases d2 <;> exact h
    | some x1 =>
      obtain ⟨p1, m1⟩ := x1
      cases d2 with
      | map kt2 el2 a2 st2 =>
        cases st2 with
        | none => exact h
        | some x2 =>
          obtain ⟨p2, m2⟩ := x2
          simp only [callsRightFirst] at h
          simp only [calls]
          by_cases hp : (p1 == p2) = true
          · simp only [hp, if_true] at h ⊢
            exact h
          · simp only [hp, Bool.false_eq_true, if_false, List.mem_append] at h ⊢
            tauto
      | _ => exact h
  | _ => cases d2 <;> exact h

theorem defaultVerdict_swap (ro : Flag) (d1 d2 : Data) :
    defaultVerdict ⟨some d2, ro⟩ ⟨some d1, ro⟩ = defaultVerdict ⟨some d1, ro⟩ ⟨some d2, ro⟩ := by
  cases ro with
  | zero =>
    simp only [defaultVerdict, Value.CanInterface, beq_self_eq_true, Bool.and_self, if_true,
      Value.Interface, Value.IsValid, Option.isSome, Bool.not_true, Bool.false_eq_true,
      if_false, bne_self_eq_false]
    rw [DeepEqual_symm]
  | embedRO => rfl
  | stickyRO => rfl

/-- The flag the switch returns for a pair of one type is the flag it returns for the
exchanged pair. -/
theorem verdict_swap (ro : Flag) (d1 d2 : Data) (hT : d1.Type = d2.Type) :
    verdict ro ro d2 d1 = verdict ro ro d1 d2 := by
  cases d1 with
  | scalar t1 q1 =>
    cases d2 <;> try (simp [Data.Type] at hT; done)
    exact defaultVerdict_swap ro _ _
  | ident k1 t1 q1 =>
    cases d2 <;> try (simp [Data.Type] at hT; done)
    rename_i k2 t2 q2
    simp only [verdict]
    by_cases hz : (q1 == 0 || q2 == 0) = true
    · have hz2 : (q2 == 0 || q1 == 0) = true := by rw [Bool.or_comm]; exact hz
      simp only [hz, hz2, if_true]
      rw [Bool.beq_comm]
    · have hz2 : ¬ (q2 == 0 || q1 == 0) = true := by rw [Bool.or_comm]; exact hz
      simp only [hz, hz2, if_false]
      by_cases hp : q1 = q2
      · subst hp
        simp only [beq_self_eq_true, if_true]
      · have hp2 : ¬ q2 = q1 := fun c => hp c.symm
        simp only [beq_iff_eq, hp, hp2, if_false]
        exact defaultVerdict_swap ro _ _
  | array el1 es1 =>
    cases d2 <;> try (simp [Data.Type] at hT; done)
    simp only [Data.Type, Ty.array.injEq] at hT
    simp only [verdict, hT.1, Nat.le_refl, if_true]
  | struct t1 fs1 =>
    cases d2 <;> try (simp [Data.Type] at hT; done)
    simp only [Data.Type, Ty.struct.injEq] at hT
    have hl := congrArg List.length hT.2
    simp only [List.length_map] at hl
    simp only [verdict, hl, Nat.le_refl, if_true]
  | slice el1 a1 st1 =>
    cases d2 <;> try (simp [Data.Type] at hT; done)
    rename_i el2 a2 st2
    cases st1 with
    | none => cases st2 <;> rfl
    | some x1 =>
      cases st2 with
      | none => rfl
      | some x2 =>
        obtain ⟨p1, es1⟩ := x1
        obtain ⟨p2, es2⟩ := x2
        simp only [verdict]
        by_cases hp : p1 = p2
        · subst hp
          simp only [beq_self_eq_true, if_true]
        · have hp2 : ¬ p2 = p1 := fun c => hp c.symm
          simp only [beq_iff_eq, hp, hp2, if_false]
          by_cases hl : es1.length = es2.length
          · simp only [hl, bne_self_eq_false, Bool.false_eq_true, if_false]
          · have hl2 : ¬ es2.length = es1.length := fun c => hl c.symm
            simp only [bne_iff_ne, ne_eq, hl, hl2, not_false_eq_true, if_true]
  | iface t1 a1 i1 =>
    cases d2 <;> try (simp [Data.Type] at hT; done)
    rename_i t2 a2 i2
    cases i1 <;> cases i2 <;> rfl
  | ptr el1 a1 t1 =>
    cases d2 <;> try (simp [Data.Type] at hT; done)
    rename_i el2 a2 t2
    cases t1 <;> cases t2 <;> rfl
  | map kt1 el1 a1 st1 =>
    cases d2 <;> try (simp [Data.Type] at hT; done)
    rename_i kt2 el2 a2 st2
    cases st1 <;> cases st2 <;> rfl

theorem MapIndex_stringKeyed (ro : Flag) (m : List (Scalar × Data)) (k : Scalar)
    (hk : stringKeyedEntries m = true) : (MapIndex ro m k).stringKeyed = true := by
  rcases MapIndex_mem ro m k with hz | ⟨e, he, hm⟩
  · rw [hz]; rfl
  · rw [hm]; exact stringKeyed_of_mem_entries he hk

/-- The first handle of a call made for `d1` and `d2` is on a value of `d1`, in which every
map has pairwise different string keys when it is so in `d1`. -/
theorem child_stringKeyed {ro1 ro2 : Flag} {d1 d2 : Data} {c : Call}
    (h : Child ro1 ro2 d1 d2 c) (hk : stringKeyed d1 = true) : c.1.stringKeyed = true := by
  cases h with
  | index_array i hm =>
    simp only [stringKeyed] at hk
    exact stringKeyed_of_mem_list (List.of_mem_zip hm).1 hk
  | index_slice i hp hl hm =>
    simp only [stringKeyed] at hk
    exact stringKeyed_of_mem_list (List.of_mem_zip hm).1 hk
  | elem_iface => simpa only [stringKeyed] using hk
  | elem_ptr hp => simpa only [stringKeyed] using hk
  | field hm =>
    simp only [stringKeyed] at hk
    exact stringKeyed_of_mem_fields (List.of_mem_zip hm).1 hk
  | key_left hp hm =>
    simp only [stringKeyed, Bool.and_eq_true] at hk
    exact MapIndex_stringKeyed _ _ _ hk.2
  | key_right hp hm => rfl
  | key_both hp hm =>
    simp only [stringKeyed, Bool.and_eq_true] at hk
    exact MapIndex_stringKeyed _ _ _ hk.2

theorem swapped_push {s s2 : valueDiff} (info : String) (h : Swapped s s2) :
    Swapped (push info s) (push info s2) := by
  obtain ⟨hv, hs, hd⟩ := h
  unfold push
  by_cases hi : (info != "") = true
  · simp only [hi, if_true]
    exact ⟨hv, by simp [hs], hd⟩
  · simp only [hi]
    exact ⟨hv, hs, hd⟩

theorem swapped_pop {t t2 : valueDiff} (info : String) (h : Swapped t t2) :
    Swapped (pop info t) (pop info t2) := by
  obtain ⟨hv, hs, hd⟩ := h
  unfold pop
  by_cases hi : (info != "") = true
  · simp only [hi, if_true]
    exact ⟨hv, by simp [hs], hd⟩
  · simp only [hi]
    exact ⟨hv, hs, hd⟩

theorem swapped_saveDiff {s s2 : valueDiff} (v1 v2 : Value) (h : Swapped s s2) :
    Swapped (saveDiff s v1 v2) (saveDiff s2 v2 v1) := by
  obtain ⟨hv, hs, hd⟩ := h
  refine ⟨hv, hs, ?_⟩
  simp only [saveDiff, hs, hd, List.map_append, List.map_cons, List.map_nil, swapDiff,
    cloneStrings]

theorem visitKey_swap {d1 d2 : Data} (hT : d1.Type = d2.Type) :
    visitKey d2 d1 = visitKey d1 d2 := by
  simp only [visitKey, hT, Nat.min_comm d2.ptrWord, Nat.max_comm d2.ptrWord]

theorem swapped_mark {s s2 : valueDiff} {d1 d2 : Data} (hT : d1.Type = d2.Type)
    (h : Swapped s s2) : Swapped (mark d1 d2 s) (mark d2 d1 s2) := by
  obtain ⟨hv, hs, hd⟩ := h
  unfold mark
  rw [hard_comm hT, visitKey_swap hT]
  by_cases hh : hard d1 d2 = true
  · simp only [hh, if_true]
    exact ⟨by simp [hv], hs, hd⟩
  · simp only [hh]
    exact ⟨hv, hs, hd⟩

/-- Two lists of calls, the second the first with the handles of every call exchanged,
run from states that differ in the sides of their Diffs, end in such states when every
call does. -/
theorem swapped_runCalls (rec rec2 : Rec) :
    ∀ (cs : List Call) (s s2 : valueDiff), Swapped s s2 →
      (∀ c ∈ cs, ∀ u u2, Swapped u u2 →
        ∃ t t2, rec c.1 c.2.1 c.2.2 u = .ok (true, t) ∧
          rec2 c.2.1 c.1 c.2.2 u2 = .ok (true, t2) ∧ Swapped t t2) →
      ∃ t t2, runCalls rec cs s = .ok t ∧ runCalls rec2 (cs.map swapCall) s2 = .ok t2 ∧
        Swapped t t2
  | [], s, s2, h, _ => ⟨s, s2, rfl, rfl, h⟩
  | c :: cs, s, s2, h, hc => by
    obtain ⟨t, t2, e1, e2, ht⟩ := hc c (List.mem_cons_self _ _) s s2 h
    obtain ⟨u, u2, f1, f2, hu⟩ := swapped_runCalls rec rec2 cs t t2 ht
      (fun c2 hc2 => hc c2 (List.mem_cons_of_mem _ hc2))
    refine ⟨u, u2, ?_, ?_, hu⟩
    · simp only [runCalls, e1]; exact f1
    · simp only [List.map_cons, runCalls, swapCall, e2]; exact f2

/-- The body on a pair, with the keys of the right map first, and the body on the
exchanged pair. -/
theorem swapped_body (n m : Nat)
    (ih : ∀ (c1 c2 : Value) (info : String) (s s2 : valueDiff), FlagsAgree c1 c2 →
      min c1.depth c2.depth < n → min c1.depth c2.depth < m →
      c1.stringKeyed = true → c2.stringKeyed = true → Swapped s s2 →
      ∃ t t2, deepValueDiffRightFirst n c1 c2 info s = .ok (true, t) ∧
        deepValueDiff m c2 c1 info s2 = .ok (true, t2) ∧ Swapped t t2)
    (v1 v2 : Value) (hf : FlagsAgree v1 v2)
    (hn : min v1.depth v2.depth ≤ n) (hm : min v1.depth v2.depth ≤ m)
    (hk1 : v1.stringKeyed = true) (hk2 : v2.stringKeyed = true)
    (s s2 : valueDiff) (h : Swapped s s2) :
    ∃ b t t2, deepValueDiffBodyRightFirst (deepValueDiffRightFirst n) v1 v2 s = .ok (b, t) ∧
      deepValueDiffBody (deepValueDiff m) v2 v1 s2 = .ok (b, t2) ∧ Swapped t t2 := by
  obtain ⟨x1, ro1⟩ := v1
  obtain ⟨x2, ro2⟩ := v2
  cases x1 with
  | none => cases x2 <;> exact ⟨_, s, s2, rfl, rfl, h⟩
  | some d1 =>
    cases x2 with
    | none => exact ⟨_, s, s2, rfl, rfl, h⟩
    | some d2 =>
      have hro : ro1 = ro2 := hf rfl rfl
      subst hro
      rw [deepValueDiffBodyRightFirst_eq, deepValueDiffBody_eq]
      by_cases hT : d1.Type = d2.Type
      · simp only [hT, bne_self_eq_false, Bool.false_eq_true, if_false]
        rw [hard_comm hT, visitKey_swap hT, h.visited]
        by_cases hv : (hard d1 d2 && decide (visitKey d1 d2 ∈ s.visited)) = true
        · simp only [hv, if_true]
          exact ⟨true, s, s2, rfl, rfl, h⟩
        · simp only [hv, if_false]
          simp only [Value.depth, Value.stringKeyed] at hn hm hk1 hk2
          have hcs := calls_swap ro1 d1 d2 hT hk1 hk2
          obtain ⟨t, t2, e1, e2, ht⟩ := swapped_runCalls (deepValueDiffRightFirst n)
            (deepValueDiff m) (callsRightFirst ro1 ro1 d1 d2) (mark d1 d2 s) (mark d2 d1 s2)
            (swapped_mark hT h) (by
              intro c hc u u2 hu
              have hc1 : Child ro1 ro1 d1 d2 c := mem_calls (mem_callsRightFirst hc)
              have hc2 : Child ro1 ro1 d2 d1 (swapCall c) :=
                mem_calls (by rw [hcs]; exact List.mem_map_of_mem _ hc)
              have hd1 := hc1.depth_lt
              have hd2 := hc2.depth_lt
              simp only [swapCall] at hd2
              exact ih c.1 c.2.1 c.2.2 u u2 (child_flagsAgree hc1 hT) (by omega) (by omega)
                (child_stringKeyed hc1 hk1) (child_stringKeyed hc2 hk2) hu)
          rw [e1, hcs, e2, verdict_swap ro1 d1 d2 hT]
          obtain ⟨b, hb⟩ := verdict_ok ro1 d1 d2 hT
          rw [hb]
          exact ⟨b, t, t2, rfl, rfl, ht⟩
      · have hT2 : ¬ d2.Type = d1.Type := fun c => hT c.symm
        simp only [bne_iff_ne, ne_eq, hT, hT2, not_false_eq_true, if_true]
        exact ⟨false, s, s2, rfl, rfl, h⟩

/-- Exchanging the two arguments, Diff for Diff: from states that differ in the sides of
their Diffs, with enough fuel on both sides, the comparison that visits the keys of the
right map first and the comparison of the exchanged pair both return, in such states. -/
theorem swapped_deepValueDiff : ∀ (n m : Nat) (c1 c2 : Value) (info : String)
    (s s2 : valueDiff), FlagsAgree c1 c2 →
    min c1.depth c2.depth < n → min c1.depth c2.depth < m →
    c1.stringKeyed = true → c2.stringKeyed = true → Swapped s s2 →
    ∃ t t2, deepValueDiffRightFirst n c1 c2 info s = .ok (true, t) ∧
      deepValueDiff m c2 c1 info s2 = .ok (true, t2) ∧ Swapped t t2 := by
  intro n
  induction n with
  | zero => intro m c1 c2 info s s2 _ hn; omega
  | succ n ih =>
    intro m
    cases m with
    | zero => intro c1 c2 info s s2 _ _ hm; omega
    | succ m =>
      intro c1 c2 info s s2 hf hn hm hk1 hk2 h
      obtain ⟨b, t, t2, e1, e2, ht⟩ := swapped_body n m (ih m) c1 c2 hf (by omega)
        (by omega) hk1 hk2 _ _ (swapped_push info h)
      rw [deepValueDiffRightFirst_succ, deepValueDiff_succ, e1, e2]
      dsimp only
      cases b with
      | false => exact ⟨_, _, rfl, rfl, swapped_pop info (swapped_saveDiff c1 c2 ht)⟩
      | true => exact ⟨_, _, rfl, rfl, swapped_pop info ht⟩

theorem swapDiff_swapDiff (d : Diff) : swapDiff (swapDiff d) = d := rfl

theorem map_swapDiff_swapDiff (l : List Diff) : (l.map swapDiff).map swapDiff = l := by
  rw [List.map_map]
  conv_rhs => rw [← List.map_id l]
  exact List.map_congr_left (fun d _ => swapDiff_swapDiff d)

/-- Unless the two values are maps of which each has a key that the other lacks, the
order of the first two loops makes no difference to the calls. -/
theorem callsRightFirst_eq_calls (ro1 ro2 : Flag) (d1 d2 : Data)
    (h : bothSided d1 d2 = false) : callsRightFirst ro1 ro2 d1 d2 = calls ro1 ro2 d1 d2 := by
  cases d1 with
  | map kt1 el1 a1 st1 =>
    cases st1 with
    | none => cases d2 <;> rfl
    | some x1 =>
      obtain ⟨p1, m1⟩ := x1
      cases d2 with
      | map kt2 el2 a2 st2 =>
        cases st2 with
        | none => rfl
        | some x2 =>
          obtain ⟨p2, m2⟩ := x2
          simp only [callsRightFirst, calls]
          by_cases hp : (p1 == p2) = true
          · simp only [hp, if_true]
          · simp only [hp, Bool.false_eq_true, if_false]
            have hp2 : (p1 != p2) = true := by
              simp only [bne, Bool.not_eq_true'] at hp ⊢
              simp [hp]
            simp only [bothSided, hp2, Bool.true_and, Bool.and_eq_false_imp,
              Bool.not_eq_true', Bool.not_eq_false'] at h
            cases hL : (unionKey kt1 m1 m2).1 with
            | nil => simp only [keyCalls, List.map_nil, List.nil_append, List.append_nil]
            | cons k ks =>
              have hR := h (by rw [hL]; rfl)
              rw [List.isEmpty_iff] at hR
              rw [hR]
              simp only [keyCalls, List.map_nil, List.nil_append, List.append_nil]
      | _ => rfl
  | _ => cases d2 <;> rfl

theorem runCalls_congr (rec rec2 : Rec) :
    ∀ (cs : List Call) (s : valueDiff),
      (∀ c ∈ cs, ∀ u, rec c.1 c.2.1 c.2.2 u = rec2 c.1 c.2.1 c.2.2 u) →
      runCalls rec cs s = runCalls rec2 cs s
  | [], _, _ => rfl
  | c :: cs, s, h => by
    simp only [runCalls, h c (List.mem_cons_self _ _) s]
    cases rec2 c.1 c.2.1 c.2.2 s with
    | error e => rfl
    | ok r => exact runCalls_congr rec rec2 cs r.2 (fun c2 hc2 => h c2 (List.mem_cons_of_mem _ hc2))

/-- The pairs compared below a call of a frame are compared below the frame. -/
theorem OneSided.of_call {v1 v2 : Value} {c : Call} (h : OneSided v1 v2)
    (hc : c ∈ callsV v1 v2) : OneSided c.1 c.2.1 :=
  fun _ e1 e2 d1 d2 hb h1 h2 hT => h _ e1 e2 d1 d2 (Below.step hc hb) h1 h2 hT

/-- A pair is one-sided when it is not itself two maps with keys on both sides alone and
every call of its frame is on a one-sided pair. -/
theorem OneSided.of_calls {v1 v2 : Value}
    (h : ∀ d1 d2, v1.data = some d1 → v2.data = some d2 → d1.Type = d2.Type →
      bothSided d1 d2 = false)
    (hc : ∀ c ∈ callsV v1 v2, OneSided c.1 c.2.1) : OneSided v1 v2 := by
  intro path e1 e2 d1 d2 hb h1 h2 hT
  cases hb with
  | here => exact h d1 d2 h1 h2 hT
  | step hm hb2 => exact hc _ hm _ e1 e2 d1 d2 hb2 h1 h2 hT

/-- When no frame compares two maps with keys on both sides alone, the traversal that
visits the keys of the right map first is the traversal of the program. -/
theorem rightFirst_eq : ∀ (n : Nat) (v1 v2 : Value) (info : String) (s : valueDiff),
    OneSided v1 v2 →
    deepValueDiffRightFirst n v1 v2 info s = deepValueDiff n v1 v2 info s := by
  intro n
  induction n with
  | zero => intro v1 v2 info s _; rfl
  | succ n ih =>
    intro v1 v2 info s h
    have hbody : deepValueDiffBodyRightFirst (deepValueDiffRightFirst n) v1 v2 (push info s)
        = deepValueDiffBody (deepValueDiff n) v1 v2 (push info s) := by
      rw [deepValueDiffBodyRightFirst_eq, deepValueDiffBody_eq]
      obtain ⟨x1, ro1⟩ := v1
      obtain ⟨x2, ro2⟩ := v2
      cases x1 with
      | none => rfl
      | some d1 =>
        cases x2 with
        | none => rfl
        | some d2 =>
          by_cases hT : d1.Type = d2.Type
          · have hcs := callsRightFirst_eq_calls ro1 ro2 d1 d2
              (h [] _ _ d1 d2 (Below.here _ _) rfl rfl hT)
            simp only [hcs]
            rw [runCalls_congr (deepValueDiffRightFirst n) (deepValueDiff n)
              (calls ro1 ro2 d1 d2) (mark d1 d2 (push info s)) (fun c hc u =>
                ih c.1 c.2.1 c.2.2 u (h.of_call (by rw [callsV_some _ _ _ _ hT]; exact hc)))]
          · simp only [bne_iff_ne, ne_eq, hT, not_false_eq_true, if_true]
    rw [deepValueDiffRightFirst_succ, deepValueDiff_succ, hbody]

/-- At the counterexample, and below a sequence: the traversal with the keys of the right
map first lists `b` before `a`, which is the order of the exchanged call, and the Diff of
the element that follows the maps keeps its place in both calls. -/
theorem exchange_is_local_to_key_groups :
    DeepDiffRightFirst (some mapA1) (some mapB2)
        = .ok [⟨["b"], none, some (intData 2)⟩, ⟨["a"], some (intData 1), none⟩] ∧
      DeepDiff (some (jsonArray 16 32 [boxedAt 48 mapA1, boxedAt 64 num1]))
          (some (jsonArray 80 96 [boxedAt 112 mapB2, boxedAt 128 num2]))
        = .ok [⟨["0", "a"], some (intData 1), none⟩, ⟨["0", "b"], none, some (intData 2)⟩,
            ⟨["1"], some num1, some num2⟩] ∧
      DeepDiff (some (jsonArray 80 96 [boxedAt 112 mapB2, boxedAt 128 num2]))
          (some (jsonArray 16 32 [boxedAt 48 mapA1, boxedAt 64 num1]))
        = .ok [⟨["0", "b"], some (intData 2), none⟩, ⟨["0", "a"], none, some (intData 1)⟩,
            ⟨["1"], some num2, some num1⟩] :=
  ⟨rfl, rfl, rfl⟩

/-- C7, amended: for all values `x`, `y` in which every mapping has pairwise different
string keys, `DeepDiff(x, y)` and `DeepDiff(y, x)` both return, and `DeepDiff(y, x)` is,
Diff for Diff and in the same order, the list `r` with the left and right payload of
every Diff exchanged, where `r` is what the traversal of `x` and `y` records when under
every pair of mappings it visits the keys found only in the right mapping before the keys
found only in the left one.  The list `r` holds the Diffs of `DeepDiff(x, y)`, and it is
`DeepDiff(x, y)` itself when no frame compares two mappings of which each has a key that
the other lacks: then `DeepDiff(y, x)` is `DeepDiff(x, y)` with left and right exchanged,
the same paths in the same order. -/
theorem symmetry_with_key_groups_exchanged (x y : Option Data)
    (hx : ∀ d, x = some d → stringKeyed d = true)
    (hy : ∀ d, y = some d → stringKeyed d = true) :
    ∃ l r, DeepDiff x y = .ok l ∧ DeepDiffRightFirst x y = .ok r ∧
      DeepDiff y x = .ok (r.map swapDiff) ∧ r.Perm l ∧
      (OneSided (ValueOf x) (ValueOf y) → r = l) := by
  have hkx : (ValueOf x).stringKeyed = true := by
    cases x with
    | none => rfl
    | some d => exact hx d rfl
  have hky : (ValueOf y).stringKeyed = true := by
    cases y with
    | none => rfl
    | some d => exact hy d rfl
  obtain ⟨t, t2, e1, e2, ht⟩ := swapped_deepValueDiff (fuelFor (ValueOf x))
    (fuelFor (ValueOf y)) (ValueOf x) (ValueOf y) "" ⟨[], [], []⟩ ⟨[], [], []⟩
    (fun _ _ => rfl) (by rw [fuelFor_eq]; omega) (by rw [fuelFor_eq]; omega) hkx hky
    ⟨rfl, rfl, rfl⟩
  obtain ⟨l, l2, f1, f2, hp⟩ := mirror_DeepDiff x y hx hy
  have hr : DeepDiffRightFirst x y = .ok t.diffs := by
    simp only [DeepDiffRightFirst, e1]
  have h2 : DeepDiff y x = .ok (t.diffs.map swapDiff) := by
    simp only [DeepDiff, DeepDiffValue, e2, ht.diffs]
  refine ⟨l, t.diffs, f1, hr, h2, ?_, ?_⟩
  · rw [h2] at f2
    injection f2 with f2
    subst f2
    have := hp.map swapDiff
    rwa [map_swapDiff_swapDiff, map_swapDiff_swapDiff] at this
  · intro hone
    have := rightFirst_eq (fuelFor (ValueOf x)) (ValueOf x) (ValueOf y) "" ⟨[], [], []⟩ hone
    rw [e1] at this
    simp only [DeepDiff, DeepDiffValue, ← this] at f1
    injection f1

theorem symmetry_with_key_groups_exchanged_witness :
    ∃ l, DeepDiff (some mapA1) (some mapA3B2) = .ok l ∧
      DeepDiff (some mapA3B2) (some mapA1) = .ok (l.map swapDiff) := by
  obtain ⟨l, r, h1, _, h3, _, h5⟩ := symmetry_with_key_groups_exchanged (some mapA1)
    (some mapA3B2)
    (fun d hd => by cases hd; simp [stringKeyed, mapA1, Ty.isBasic, keysOf, Scalar.isStr,
      stringKeyedEntries, intData])
    (fun d hd => by cases hd; simp [stringKeyed, mapA3B2, Ty.isBasic, keysOf, Scalar.isStr,
      stringKeyedEntries, intData])
  have hrl : r = l := h5 (OneSided.of_calls
    (fun d1 d2 e1 e2 _ => by cases e1; cases e2; rfl)
    (fun c hc => by
      have hcs : callsV (ValueOf (some mapA1)) (ValueOf (some mapA3B2))
          = [(Value.zero, ⟨some (intData 2), .zero⟩, "b"),
             (⟨some (intData 1), .zero⟩, ⟨some (intData 3), .zero⟩, "a")] := rfl
      rw [hcs] at hc
      simp only [List.mem_cons, List.mem_singleton, List.not_mem_nil, or_false] at hc
      rcases hc with rfl | rfl
      · exact OneSided.of_calls (fun d1 d2 e1 => by cases e1) (fun c hc => by cases hc)
      · exact OneSided.of_calls (fun d1 d2 e1 e2 _ => by cases e1; cases e2; rfl)
          (fun c hc => by cases hc)))
  subst hrl
  exact ⟨r, h1, h3⟩

/-! ### C1: the condition is exact at a scalar -/

/-- A scalar compared with itself, through a handle with the read-only bits `ro` on both
sides, records no Diff exactly when `selfComparable ro` holds of it: a scalar reached with
a read-only handle and a NaN are reported even against themselves. -/
theorem scalar_reflexivity_exact (n : Nat) (t : String) (p : Scalar) (ro : Flag)
    (info : String) (s : valueDiff) :
    ∃ u, deepValueDiff (n + 1) ⟨some (.scalar t p), ro⟩ ⟨some (.scalar t p), ro⟩ info s
        = .ok (true, u) ∧
      (u.diffs = s.diffs ↔ selfComparable ro (.scalar t p) = true) := by
  have unreadable : ∀ ro : Flag, (ro == Flag.zero) = false →
      ∃ u, deepValueDiff (n + 1) ⟨some (.scalar t p), ro⟩ ⟨some (.scalar t p), ro⟩ info s
          = .ok (true, u) ∧
        (u.diffs = s.diffs ↔ selfComparable ro (.scalar t p) = true) := by
    intro ro hro
    rw [deepValueDiff_succ, deepValueDiffBody_eq]
    simp only [Data.Type, bne_self_eq_false, Bool.false_eq_true, if_false, hard, Data.Kind,
      Bool.false_and, mark, calls, runCalls, verdict, defaultVerdict, Value.CanInterface,
      Bool.not_true, Bool.and_self, Bool.not_false, if_true, saveDiff, cloneStrings, hro]
    cases p <;>
      simp only [Bool.false_and, Bool.false_eq_true, if_false, runCalls, Bool.not_false,
        if_true, saveDiff, cloneStrings, Bool.and_self] <;>
      rw [pop_push, push_visited, push_diffs, push_stack] <;>
      refine ⟨_, rfl, ?_⟩ <;>
      simp [selfComparable, hro]
  cases ro with
  | zero =>
    rw [deepValueDiff_scalars]
    refine ⟨_, rfl, ?_⟩
    simp only [DeepEqual, beq_self_eq_true, Bool.true_and, selfComparable]
    by_cases he : Scalar.eq p p = true
    · simp [he]
    · simp [he]
  | embedRO => exact unreadable _ rfl
  | stickyRO => exact unreadable _ rfl

/-- A `float64` NaN compared with itself is reported: the equality fallback compares two
floats with `==`, which is false of a NaN and itself. -/
theorem reflexivity_fails_on_NaN :
    selfComparable .zero (float64Data 0x7FF8000000000001) = false ∧
      DeepDiff (some (float64Data 0x7FF8000000000001)) (some (float64Data 0x7FF8000000000001))
        = .ok [⟨[], some (float64Data 0x7FF8000000000001),
            some (float64Data 0x7FF8000000000001)⟩] := by
  constructor
  · decide
  · have h := deepValueDiff_scalars 0 "float64" "float64" (.float 0x7FF8000000000001)
      (.float 0x7FF8000000000001) "" ⟨[], [], []⟩
    have hne : DeepEqual (some (float64Data 0x7FF8000000000001))
        (some (float64Data 0x7FF8000000000001)) = false := by decide
    simp only [float64Data] at hne
    simp only [DeepDiff, DeepDiffValue, ValueOf, fuelFor, float64Data, Data.depth]
    rw [h]
    simp only [hne, Bool.false_eq_true, if_false]
    rfl

end valuediff
